import Mathlib

/-!
# In-place streaming IIR/FIR filter (`filter.c`): embedding and verification

The development embeds `filter_file` and `main` of `src/filter.c`.

Modelling conventions.

* The file is a list of bytes (`Nat`, each below 256) together with a file
  position.  `fread`, `fseeko` and `fwrite` follow the C standard on an
  in-memory file: `fread` advances the position by every byte it consumed,
  the bytes of a trailing partial item included, and returns the number of
  whole items; the byte of a partial item is stored in the buffer.
* A call of `fread` that directly follows a call of `fwrite` which wrote at
  least one item, with no `fflush` and no positioning call in between, is
  undefined in C (C11, 7.21.5.3 paragraph 7).  Line 51 follows line 87 in this
  way from the second iteration of the chunk loop on.  `filter_file` stops
  there with `Failure.undefined_read`; `filter_file_env` takes what such a read
  finds in the stream from its environment.
* An `int16_t` is an `Int` in `[-32768, 32767]`, stored little-endian in two's
  complement.
* `size_t` and `int` counters are natural numbers; all sizes are assumed to fit
  the machine types.
* `float` and `double` are the IEEE 754 formats binary32 and binary64 with
  rounding to nearest, ties to even, and every operation is rounded to the
  format of its C type (`FLT_EVAL_METHOD` 0): the product of a coefficient and
  a sample is a `float`, the sums and the quotient are `double`s.  A value is
  an exact rational number, a negative zero, an infinity or a NaN.
* The conversion of a `double` to `int16_t` is truncation toward zero; the
  conversion of a NaN, which C leaves undefined, gives 0.
* `memcpy` copies as if through a temporary (the source region is read before
  the destination is written).
* `calloc`/`malloc` succeed.
-/

namespace Filter

/-! ## Constants -/

/-- The macro `ITEM_SIZE`, that is `sizeof(int16_t)`. -/
def ITEM_SIZE : Nat := 2

/-- The macro `_DEFAULT_BUFFER_SIZE` (in samples). -/
def DEFAULT_BUFFER_SIZE : Nat := 1000

/-- The constant `INT16_MAX` of `stdint.h`. -/
def INT16_MAX : Int := 32767

/-- The constant `INT16_MIN` of `stdint.h`. -/
def INT16_MIN : Int := -32768

/-! ## Sample encoding -/

/-- The `int16_t` stored in two consecutive bytes (low byte first). -/
def decode16 (lo hi : Nat) : Int :=
  if lo + 256 * hi < 32768 then ((lo + 256 * hi : Nat) : Int)
  else ((lo + 256 * hi : Nat) : Int) - 65536

/-- The two bytes that store an `int16_t` (low byte first). -/
def encode16 (v : Int) : List Nat :=
  [(v % 65536).toNat % 256, (v % 65536).toNat / 256]

/-- The whole items held by a run of bytes; a trailing odd byte is no item. -/
def decode_items : List Nat → List Int
  | lo :: hi :: rest => decode16 lo hi :: decode_items rest
  | _ => []

/-- The bytes of a run of items. -/
def encode_items : List Int → List Nat
  | [] => []
  | v :: rest => encode16 v ++ encode_items rest

/-- A value representable as `int16_t`. -/
def isInt16 (v : Int) : Prop := INT16_MIN ≤ v ∧ v ≤ INT16_MAX

instance (v : Int) : Decidable (isInt16 v) := by
  unfold isInt16; exact inferInstance

/-! ## Floating point -/

/-- A value of an IEEE 754 binary format: a finite number (`fin 0` is the
positive zero), the negative zero, an infinity with its sign bit, or a NaN. -/
inductive FP where
  | fin (q : ℚ)
  | nzero
  | inf (negative : Bool)
  | nan
  deriving DecidableEq

instance (n : Nat) : OfNat FP n := ⟨.fin n⟩

/-- The sign bit of a value. -/
def FP.sign : FP → Bool
  | .fin q => decide (q < 0)
  | .nzero => true
  | .inf s => s
  | .nan => false

/-- The number a finite value stands for (0 for the others). -/
def FP.val : FP → ℚ
  | .fin q => q
  | _ => 0

/-- The zero with sign bit `s`. -/
def FP.zero (s : Bool) : FP := if s then .nzero else .fin 0

/-- The value with the opposite sign bit. -/
def FP.neg : FP → FP
  | .fin q => if q = 0 then .nzero else .fin (-q)
  | .nzero => .fin 0
  | .inf s => .inf (!s)
  | .nan => .nan

instance : Neg FP := ⟨FP.neg⟩

/-- The power `2^e` of an integer exponent. -/
def pow2 (e : Int) : ℚ :=
  if 0 ≤ e then ((2 ^ e.toNat : Nat) : ℚ) else 1 / ((2 ^ (-e).toNat : Nat) : ℚ)

/-- Auxiliary of `nlog2`, by recursion on a bound of the number of halvings. -/
def nlog2_aux : Nat → Nat → Nat
  | 0, _ => 0
  | fuel + 1, n => if n < 2 then 0 else nlog2_aux fuel (n / 2) + 1

/-- The position of the leading bit of a natural number:
`2^(nlog2 n) ≤ n < 2^(nlog2 n + 1)` for `n ≠ 0`. -/
def nlog2 (n : Nat) : Nat := nlog2_aux n n

/-- The integer `e` with `2^e ≤ |q| < 2^(e+1)`, for `q ≠ 0`. -/
def ilog2 (q : ℚ) : Int :=
  if pow2 ((nlog2 q.num.natAbs : Int) - (nlog2 q.den : Int)) ≤ |q|
  then (nlog2 q.num.natAbs : Int) - (nlog2 q.den : Int)
  else (nlog2 q.num.natAbs : Int) - (nlog2 q.den : Int) - 1

/-- Rounding to the nearest integer, ties to the even one. -/
def rne (t : ℚ) : Int :=
  if t - ⌊t⌋ < 1 / 2 then ⌊t⌋
  else if 1 / 2 < t - ⌊t⌋ then ⌊t⌋ + 1
  else if ⌊t⌋ % 2 = 0 then ⌊t⌋ else ⌊t⌋ + 1

/-- A binary floating-point format: `prec` significant bits, `2^emin` the
least positive (subnormal) number, `2^emax` the least power of two that
overflows. -/
structure Format where
  prec : Nat
  emin : Int
  emax : Int
  deriving DecidableEq

/-- The format of `float`. -/
def binary32 : Format := { prec := 24, emin := -149, emax := 128 }

/-- The format of `double`. -/
def binary64 : Format := { prec := 53, emin := -1074, emax := 1024 }

/-- The exponent of the unit in the last place of the numbers of the format next
to `q`. -/
def ulp_exp (fmt : Format) (q : ℚ) : Int :=
  max (ilog2 q - ((fmt.prec : Int) - 1)) fmt.emin

/-- The number of the format, with unbounded exponent range upward, nearest to
`q` (ties to even). -/
def round_fin (fmt : Format) (q : ℚ) : ℚ :=
  (rne (q / pow2 (ulp_exp fmt q)) : ℚ) * pow2 (ulp_exp fmt q)

/-- The value of the format that an operation with the exact nonzero result `q`
delivers: the nearest number, an infinity on overflow, a zero with the sign of
`q` on underflow. -/
def round (fmt : Format) (q : ℚ) : FP :=
  if pow2 fmt.emax ≤ |round_fin fmt q| then .inf (decide (q < 0))
  else if round_fin fmt q = 0 then FP.zero (decide (q < 0))
  else .fin (round_fin fmt q)

/-- The `float` product `c * x` of a coefficient and an `int16_t` item (lines 67,
70, 71): the item is converted to `float`, which is exact, and the product is
rounded to `float`. -/
def fmul (c : FP) (x : Int) : FP :=
  match c with
  | .nan => .nan
  | .inf s => if x = 0 then .nan else .inf (xor s (decide (x < 0)))
  | .nzero => FP.zero (!(decide (x < 0)))
  | .fin q =>
    if q * (x : ℚ) = 0 then FP.zero (xor (decide (q < 0)) (decide (x < 0)))
    else round binary32 (q * (x : ℚ))

/-- The `double` sum `u + v`. -/
def dadd (u v : FP) : FP :=
  match u, v with
  | .nan, _ => .nan
  | _, .nan => .nan
  | .inf s, .inf t => if s = t then .inf s else .nan
  | .inf s, _ => .inf s
  | _, .inf t => .inf t
  | u, v =>
    if u.val + v.val = 0 then FP.zero (u.sign && v.sign)
    else round binary64 (u.val + v.val)

/-- The `double` difference `u - v`. -/
def dsub (u v : FP) : FP := dadd u v.neg

/-- The `double` quotient `u / v`. -/
def ddiv (u v : FP) : FP :=
  match u, v with
  | .nan, _ => .nan
  | _, .nan => .nan
  | .inf _, .inf _ => .nan
  | .inf s, v => .inf (xor s v.sign)
  | u, .inf t => FP.zero (xor u.sign t)
  | u, v =>
    if v.val = 0 then (if u.val = 0 then .nan else .inf (xor u.sign v.sign))
    else if u.val = 0 then FP.zero (xor u.sign v.sign)
    else round binary64 (u.val / v.val)

/-- The comparison `u > n` of a `double` with an `int` constant. -/
def fgt (u : FP) (n : Int) : Bool :=
  match u with
  | .fin q => decide ((n : ℚ) < q)
  | .nzero => decide (n < 0)
  | .inf s => !s
  | .nan => false

/-- The comparison `u < n` of a `double` with an `int` constant. -/
def flt (u : FP) (n : Int) : Bool :=
  match u with
  | .fin q => decide (q < (n : ℚ))
  | .nzero => decide (0 < n)
  | .inf s => s
  | .nan => false

/-! ## Memory and stream primitives -/

/-- The call `memcpy(dst + doff, src + soff, n * ITEM_SIZE)` on arrays of items. -/
def memcpy (dst : List Int) (doff : Nat) (src : List Int) (soff n : Nat) : List Int :=
  dst.take doff ++ (src.drop soff).take n ++ dst.drop (doff + n)

/-- The call `fread(ptr, ITEM_SIZE, count, input)`: the items read and the new
file position.  As the C standard has it, the position advances by the number of
bytes successfully read and the result is the number of whole items: the bytes
of a trailing partial item are consumed without yielding an item. -/
def fread (file : List Nat) (pos count : Nat) : List Int × Nat :=
  (decode_items ((file.drop pos).take (ITEM_SIZE * count)),
   pos + ((file.drop pos).take (ITEM_SIZE * count)).length)

/-- The byte of a partial item among the bytes that a call of `fread`
transferred: the last byte when their number is odd. -/
def partial_byte (bytes : List Nat) : Option Nat :=
  if bytes.length % 2 = 1 then bytes.getLast? else none

/-- The array `buffer` once `fread` has stored the byte of a partial item in
the item at index `idx`: the low byte of the item is replaced. -/
def store_odd_byte (buffer : List Int) (idx : Nat) (byte : Option Nat) : List Int :=
  match byte with
  | none => buffer
  | some b => buffer.set idx (decode16 b ((encode16 (buffer.getD idx 0)).getD 1 0))

/-- The call `fseeko(input, off, SEEK_CUR)`: the new position, or `none` when
the call fails because the target is negative. -/
def fseeko_cur (pos : Nat) (off : Int) : Option Nat :=
  if 0 ≤ (pos : Int) + off then some ((pos : Int) + off).toNat else none

/-- The call `fwrite(ptr, ITEM_SIZE, n, input)` for the items `items`: the new
file content and position.  Bytes are overwritten in place; the file grows only
when the write runs past its end.  Every item is written. -/
def fwrite (file : List Nat) (pos : Nat) (items : List Int) : List Nat × Nat :=
  ((file ++ List.replicate (pos - file.length) 0).take pos ++ encode_items items
      ++ file.drop (pos + (encode_items items).length),
   pos + (encode_items items).length)

/-! ## The filter engine -/

/-- The ways `filter_file` terminates the process, and the point at which its
behaviour is undefined: a call of `fread` directly after a call of `fwrite`
that wrote at least one item. -/
inductive Failure where
  | length_failure
  | seek_failure
  | read_failure
  | write_failure
  | undefined_read
  deriving DecidableEq, Repr

deriving instance DecidableEq for Except

/-- A call of `fread` or `fwrite` on the stream: the file position at which the
call starts, and the number of whole items it returns. -/
inductive IOCall where
  | fread (pos items_read : Nat)
  | fwrite (pos items_written : Nat)
  deriving DecidableEq, Repr

/-- The mutable state of `filter_file`: the stream, the local buffers, and the
record of the `fread`/`fwrite` calls made so far. -/
structure State where
  file : List Nat
  pos : Nat
  buffer : List Int
  input_ringbuf : List Int
  irb_idx : Nat
  trace : List IOCall
  deriving DecidableEq, Repr

/-- The conversion of the accumulator stored by `buffer[buff_loc] = acc`:
a `double` becomes an `int16_t` by truncation toward zero.  The conversion of a
NaN or of an infinity is undefined in C; the model gives 0. -/
def to_int16 (acc : FP) : Int :=
  match acc with
  | .fin q => Int.tdiv q.num q.den
  | _ => 0

/-- Lines 74-75: the two conditional assignments that clamp the accumulator. -/
def clamp (acc : FP) : FP :=
  let acc := if fgt acc INT16_MAX then .fin (INT16_MAX : ℚ) else acc
  if flt acc INT16_MIN then .fin (INT16_MIN : ℚ) else acc

/-- Lines 70-71: one pass of the coefficient loop body. -/
def coeff_step (num_chan num_coeffs : Nat) (a_coeffs b_coeffs : List FP)
    (input_ringbuf buffer : List Int) (irb_idx chan_idx buff_loc : Nat)
    (acc : FP) (coeff_idx : Nat) : FP :=
  let acc := dadd acc (fmul (b_coeffs.getD coeff_idx 0)
    (input_ringbuf.getD
      (((num_coeffs + irb_idx - coeff_idx) % num_coeffs) * num_chan + chan_idx) 0))
  dsub acc (fmul (a_coeffs.getD coeff_idx 0)
    (buffer.getD (buff_loc - coeff_idx * num_chan) 0))

/-- Lines 67-73: the accumulator of one output sample, once divided by
`a_coeffs[0]`. -/
def accumulate (num_chan num_coeffs : Nat) (a_coeffs b_coeffs : List FP)
    (input_ringbuf buffer : List Int) (irb_idx chan_idx buff_loc : Nat) : FP :=
  let acc : FP := fmul (b_coeffs.getD 0 0)
    (input_ringbuf.getD (irb_idx * num_chan + chan_idx) 0)
  let acc := (List.range' 1 (num_coeffs - 1)).foldl
    (coeff_step num_chan num_coeffs a_coeffs b_coeffs input_ringbuf buffer
      irb_idx chan_idx buff_loc) acc
  ddiv acc (a_coeffs.getD 0 0)

/-- Lines 66-76: the body of the channel loop; it stores one output sample. -/
def chan_step (num_chan num_coeffs : Nat) (a_coeffs b_coeffs : List FP)
    (hist_size samp_idx : Nat) (input_ringbuf : List Int) (irb_idx : Nat)
    (buffer : List Int) (chan_idx : Nat) : List Int :=
  let buff_loc := hist_size + samp_idx * num_chan + chan_idx
  let acc := accumulate num_chan num_coeffs a_coeffs b_coeffs input_ringbuf buffer
    irb_idx chan_idx buff_loc
  let acc := clamp acc
  buffer.set buff_loc (to_int16 acc)

/-- Lines 61-79: the body of the sample loop, on the buffer, the ring and the
ring cursor. -/
def samp_step (num_chan num_coeffs : Nat) (a_coeffs b_coeffs : List FP)
    (hist_size : Nat) (s : List Int × List Int × Nat) (samp_idx : Nat) :
    List Int × List Int × Nat :=
  let buffer := s.1
  let irb_idx := s.2.2
  let input_ringbuf :=
    memcpy s.2.1 (irb_idx * num_chan) buffer (hist_size + samp_idx * num_chan) num_chan
  let buffer := (List.range num_chan).foldl
    (chan_step num_chan num_coeffs a_coeffs b_coeffs hist_size samp_idx
      input_ringbuf irb_idx) buffer
  (buffer, input_ringbuf, (irb_idx + 1) % num_coeffs)

/-- Whether the last call on the stream was an `fwrite` that wrote at least one
item (`fwrite` of zero items leaves the stream as it is). -/
def after_write (trace : List IOCall) : Bool :=
  match trace.getLast? with
  | some (.fwrite _ n) => decide (0 < n)
  | _ => false

/-- Lines 45-90, the body of the chunk loop, on a stream that holds `st.file`
and stands at `st.pos`. -/
def chunk_body (num_chan num_coeffs : Nat) (a_coeffs b_coeffs : List FP)
    (samples_per_buffer num_buffers : Nat) (st : State) (buf_idx : Nat) :
    Except Failure State :=
  let hist_size := num_chan * num_coeffs
  let buffer_size := num_chan * samples_per_buffer
  let buffer := memcpy st.buffer 0 st.buffer buffer_size hist_size
  let rd := fread st.file st.pos buffer_size
  let items_read := rd.1.length
  let buffer := buffer.take hist_size ++ rd.1 ++ buffer.drop (hist_size + items_read)
  let buffer := store_odd_byte buffer (hist_size + items_read)
    (partial_byte ((st.file.drop st.pos).take (ITEM_SIZE * buffer_size)))
  if items_read = 0 ∧ buf_idx < num_buffers then .error .read_failure
  else
    let bytes_read := items_read * ITEM_SIZE
    let samples_read := items_read / num_chan
    let r := (List.range samples_read).foldl
      (samp_step num_chan num_coeffs a_coeffs b_coeffs hist_size)
      (buffer, st.input_ringbuf, st.irb_idx)
    match fseeko_cur rd.2 (-(bytes_read : Int)) with
    | none => .error .seek_failure
    | some pos =>
      let wr := fwrite st.file pos ((r.1.drop hist_size).take items_read)
      let items_written := ((r.1.drop hist_size).take items_read).length
      if items_written ≠ items_read then .error .write_failure
      else
        .ok { file := wr.1, pos := wr.2, buffer := r.1,
              input_ringbuf := r.2.1, irb_idx := r.2.2,
              trace := st.trace ++ [.fread st.pos items_read, .fwrite pos items_written] }

/-- One iteration of the chunk loop as the C standard defines it: when the
`fread` of line 51 directly follows an `fwrite` that wrote items, the behaviour
is undefined; otherwise the iteration is `chunk_body`. -/
def chunk_step (num_chan num_coeffs : Nat) (a_coeffs b_coeffs : List FP)
    (samples_per_buffer num_buffers : Nat) (st : State) (buf_idx : Nat) :
    Except Failure State :=
  if after_write st.trace then .error .undefined_read
  else chunk_body num_chan num_coeffs a_coeffs b_coeffs samples_per_buffer num_buffers
    st buf_idx

/-- The function `filter_file`: the state in which it returns, or the failure
with which it exits, or the undefined read at which the C standard stops
defining it.  `file` is the content of the stream `input`. -/
def filter_file (file : List Nat) (num_chan num_coeffs : Nat)
    (a_coeffs b_coeffs : List FP) (samples_per_buffer : Nat) : Except Failure State :=
  let hist_size := num_chan * num_coeffs
  let buffer_size := num_chan * samples_per_buffer
  let buffer : List Int := List.replicate (buffer_size + hist_size) 0
  let input_ringbuf : List Int := List.replicate hist_size 0
  let byte_count := file.length
  let num_buffers := byte_count / (buffer_size * ITEM_SIZE)
  (List.range (num_buffers + 1)).foldlM
    (chunk_step num_chan num_coeffs a_coeffs b_coeffs samples_per_buffer num_buffers)
    { file := file, pos := 0, buffer := buffer,
      input_ringbuf := input_ringbuf, irb_idx := 0, trace := [] }

/-- The content of the file once `filter_file` has returned. -/
def filtered (file : List Nat) (num_chan num_coeffs : Nat)
    (a_coeffs b_coeffs : List FP) (samples_per_buffer : Nat) : Except Failure (List Nat) :=
  (filter_file file num_chan num_coeffs a_coeffs b_coeffs samples_per_buffer).map State.file

/-! ## The command line -/

/-- The test `strncmp(s, lit, n) == 0`. -/
def strncmp_eq (s lit : String) (n : Nat) : Bool :=
  s.toList.take n == lit.toList.take n

/-- The ways `main` ends: the help text with status 0; the usage text with
`exit(-1)`; an access of `argv` at or beyond `argc` (a null pointer handed to
`strncmp` or `strtof`, or a read past the array); or the call
`filter_file(input, num_channels, num_a, a_coeffs, b_coeffs, buffer_size)` on the
file opened from `file`. -/
inductive Outcome where
  | help
  | usage_exit
  | undefined
  | run (file : String) (num_channels num_coeffs : Nat) (a_coeffs b_coeffs : List FP)
      (samples_per_buffer : Nat)
  deriving DecidableEq

/-- The function `main` up to the call of `filter_file`.  The library functions
`strtoumax` (base 10) and `strtof` are parameters; `argv` lists the `argc`
argument strings. -/
def main (strtoumax : String → Nat) (strtof : String → FP) (argv : List String) : Outcome :=
  let argc := argv.length
  if argc > 1 ∧ (strncmp_eq (argv.getD 1 "") "-h" 2 ∨ strncmp_eq (argv.getD 1 "") "--h" 3) then
    .help
  else if argc < 6 then .usage_exit
  else
    let file := argv.getD 1 ""
    let num_channels := strtoumax (argv.getD 2 "") % 2 ^ 32
    if num_channels = 0 then .usage_exit
    else if strncmp_eq (argv.getD 3 "") "-a" 2 then
      let num_a := ((argv.drop 4).takeWhile (fun s => ! strncmp_eq s "-b" 2)).length
      let a_coeffs := (List.range num_a).map (fun i => strtof (argv.getD (4 + i) ""))
      match argv.get? (4 + num_a) with
      | none => .undefined
      | some s =>
        if strncmp_eq s "-b" 2 then
          let num_b := argc - (5 + num_a)
          if (List.range num_b).any (fun i => argc ≤ 5 + num_b + i) then .undefined
          else
            let b_coeffs :=
              (List.range num_b).map (fun i => strtof (argv.getD (5 + num_b + i) ""))
            if num_a < num_b then .usage_exit
            else .run file num_channels num_a a_coeffs b_coeffs DEFAULT_BUFFER_SIZE
        else .usage_exit
    else .usage_exit

/-! ## The direct-form recursion, as the specification words it -/

/-- The sample of channel `c` at time `t - k` of a stream of sample vectors,
zero at negative times. -/
def past (num_chan : Nat) (v : List Int) (t k c : Nat) : Int :=
  if k ≤ t then v.getD ((t - k) * num_chan + c) 0 else 0

/-- Truncation of an exact number toward zero. -/
def trunc (q : ℚ) : Int := if 0 ≤ q then ⌊q⌋ else ⌈q⌉

/-- Saturation of an integer to the 16-bit sample range. -/
def sat16 (v : Int) : Int :=
  if v > 32767 then 32767 else if v < -32768 then -32768 else v

/-- The terms of lag `k` of the direct form, taken into the accumulator in
floating point: the `float` product `b[k]·x[t-k][c]` is added, then the `float`
product `a[k]·y[t-k][c]` is subtracted, both in `double`. -/
def direct_form_step (num_chan : Nat) (a b : List FP) (x y : List Int) (t c : Nat)
    (acc : FP) (k : Nat) : FP :=
  dsub (dadd acc (fmul (b.getD k 0) (past num_chan x t k c)))
    (fmul (a.getD k 0) (past num_chan y t k c))

/-- The accumulator of the specification before normalisation,
`b[0]·x[t][c] + Σ_{1≤k<C} (b[k]·x[t-k][c] − a[k]·y[t-k][c])`, evaluated in
floating point in the order `k = 0, 1, ..., C-1`. -/
def direct_form_acc (num_chan num_coeffs : Nat) (a b : List FP) (x y : List Int)
    (t c : Nat) : FP :=
  (List.range' 1 (num_coeffs - 1)).foldl (direct_form_step num_chan a b x y t c)
    (fmul (b.getD 0 0) (past num_chan x t 0 c))

/-- The output sample the specification prescribes at time `t`, channel `c`:
the accumulator divided by `a[0]` in `double`, saturated to the sample range and
truncated toward zero. -/
def direct_form (num_chan num_coeffs : Nat) (a b : List FP) (x y : List Int)
    (t c : Nat) : Int :=
  to_int16 (clamp (ddiv (direct_form_acc num_chan num_coeffs a b x y t c) (a.getD 0 0)))

/-- The first `t` output vectors of the direct-form recursion on the stream `x`. -/
def ref_vectors (num_chan num_coeffs : Nat) (a b : List FP) (x : List Int) : Nat → List Int
  | 0 => []
  | t + 1 =>
    ref_vectors num_chan num_coeffs a b x t ++
      (List.range num_chan).map
        (direct_form num_chan num_coeffs a b x (ref_vectors num_chan num_coeffs a b x t) t)

/-- The reference output for a stream of samples: every full sample vector is
replaced by its direct-form output, the samples of a trailing partial vector are
kept. -/
def reference (num_chan num_coeffs : Nat) (a b : List FP) (x : List Int) : List Int :=
  ref_vectors num_chan num_coeffs a b x (x.length / num_chan)
    ++ x.drop (x.length / num_chan * num_chan)

/-- The element at flat index `j` of a stream preceded by `hist` zero samples. -/
def pad_get (hist : Nat) (v : List Int) (j : Nat) : Int :=
  if j < hist then 0 else v.getD (j - hist) 0

/-- The exact value of the direct form at time `t`, channel `c`, for finite
coefficients: `(Σ_{k<C} b[k]·x[t-k][c] − Σ_{1≤k<C} a[k]·y[t-k][c]) / a[0]`. -/
def exact_form (num_chan num_coeffs : Nat) (a b : List ℚ) (x y : List Int) (t c : Nat) : ℚ :=
  ((∑ k ∈ Finset.range num_coeffs, b.getD k 0 * ((past num_chan x t k c : Int) : ℚ))
    - ∑ k ∈ Finset.Ico 1 num_coeffs, a.getD k 0 * ((past num_chan y t k c : Int) : ℚ))
    / a.getD 0 0

/-! ## Loop invariants -/

/-- Invariant of the history ring before the sample vector of time `t` is
stored: slot `u % num_coeffs` holds the input vector of time `u - num_coeffs`,
for the `num_coeffs` times before `t`. -/
def RingInv (num_chan num_coeffs : Nat) (x : List Int) (t : Nat) (ring : List Int) : Prop :=
  ring.length = num_chan * num_coeffs ∧
  ∀ u c, t ≤ u → u < t + num_coeffs → c < num_chan →
    ring.getD ((u % num_coeffs) * num_chan + c) 0 = past num_chan x u num_coeffs c

/-- Invariant of the chunk buffer once `q` items of the chunk starting at flat
index `g0` are filtered: the leftpad and the first `q` working items hold
outputs, the remaining `m - q` items read still hold inputs. -/
def BufInv (hist g0 m len : Nat) (x y : List Int) (q : Nat) (buffer : List Int) : Prop :=
  buffer.length = len ∧
  (∀ j, j < hist + q → buffer.getD j 0 = pad_get hist y (g0 + j)) ∧
  (∀ j, q ≤ j → j < m → buffer.getD (hist + j) 0 = x.getD (g0 + j) 0)

/-- A record of calls in which every `fread` is followed by an `fwrite` at the
same file position and of the same number of items. -/
def aligned : List IOCall → Bool
  | [] => true
  | .fread p m :: .fwrite q k :: rest => p == q && m == k && aligned rest
  | _ => false

/-- Invariant of the chunk loop before iteration `i`, on a stream each read of
which finds what the writes before it left: the file holds the outputs of the
chunks done and the inputs of the others, the tail of the buffer holds the last
outputs, the ring holds the last inputs, and every chunk was written where it
was read. -/
def ChunkInv (nc C S : Nat) (x y : List Int) (i : Nat) (st : State) : Prop :=
  st.file = encode_items (y.take (i * (nc * S)) ++ x.drop (i * (nc * S))) ∧
  st.pos = 2 * (i * (nc * S)) ∧
  st.buffer.length = nc * S + nc * C ∧
  (∀ j, j < nc * C →
    st.buffer.getD (nc * S + j) 0 = pad_get (nc * C) y (i * (nc * S) + j)) ∧
  RingInv nc C x (i * S) st.input_ringbuf ∧
  st.irb_idx = (i * S) % C ∧
  aligned st.trace = true

/-! ## Named parts of the engine -/

/-- Line 13: the number of items of the leftpad of the chunk buffer, which is
also the number of items of the history ring. -/
def hist_size (num_chan num_coeffs : Nat) : Nat := num_chan * num_coeffs

/-- Line 66: the buffer index of the sample being computed. -/
def buff_loc (hist_size samp_idx num_chan chan_idx : Nat) : Nat :=
  hist_size + samp_idx * num_chan + chan_idx

/-- Line 71: the buffer index `buff_loc - (coeff_idx * num_chan)` of the output
fed back at lag `coeff_idx`. -/
def feedback_index (buff_loc coeff_idx num_chan : Nat) : Nat :=
  buff_loc - coeff_idx * num_chan

/-- Line 70: the ring index
`((num_coeffs + irb_idx - coeff_idx) % num_coeffs) * num_chan + chan_idx` of the
input at lag `coeff_idx`. -/
def ring_index (num_coeffs irb_idx coeff_idx num_chan chan_idx : Nat) : Nat :=
  ((num_coeffs + irb_idx - coeff_idx) % num_coeffs) * num_chan + chan_idx

/-- Lines 48-51: the buffer, the ring and the ring cursor with which an
iteration of the chunk loop enters the sample loop, that is once the leftpad is
copied and the chunk is read. -/
def chunk_loaded (num_chan num_coeffs samples_per_buffer : Nat) (st : State) :
    List Int × List Int × Nat :=
  let buffer_size := num_chan * samples_per_buffer
  let buffer := memcpy st.buffer 0 st.buffer buffer_size (hist_size num_chan num_coeffs)
  let rd := fread st.file st.pos buffer_size
  (store_odd_byte
     (buffer.take (hist_size num_chan num_coeffs) ++ rd.1
        ++ buffer.drop (hist_size num_chan num_coeffs + rd.1.length))
     (hist_size num_chan num_coeffs + rd.1.length)
     (partial_byte ((st.file.drop st.pos).take (ITEM_SIZE * buffer_size))),
   st.input_ringbuf, st.irb_idx)

/-- The state of the sample loop of an iteration of the chunk loop before the
sample vector `samp_idx` of the chunk is processed. -/
def at_sample (num_chan num_coeffs : Nat) (a_coeffs b_coeffs : List FP)
    (samples_per_buffer : Nat) (st : State) (samp_idx : Nat) : List Int × List Int × Nat :=
  (List.range samp_idx).foldl
    (samp_step num_chan num_coeffs a_coeffs b_coeffs (hist_size num_chan num_coeffs))
    (chunk_loaded num_chan num_coeffs samples_per_buffer st)

/-- The state of `filter_file` before iteration `buf_idx` of the chunk loop. -/
def run_chunks (file : List Nat) (num_chan num_coeffs : Nat)
    (a_coeffs b_coeffs : List FP) (samples_per_buffer buf_idx : Nat) : Except Failure State :=
  (List.range buf_idx).foldlM
    (chunk_step num_chan num_coeffs a_coeffs b_coeffs samples_per_buffer
      (file.length / (num_chan * samples_per_buffer * ITEM_SIZE)))
    { file := file, pos := 0,
      buffer := List.replicate (num_chan * samples_per_buffer + num_chan * num_coeffs) 0,
      input_ringbuf := List.replicate (num_chan * num_coeffs) 0, irb_idx := 0, trace := [] }

/-! ## The engine with the C library as an environment -/

/-- What the C library answers on the stream, where the content of the file and
the C standard do not fix it: the value of `ftello` on line 31 (the length in
bytes, or -1), the value of `fseeko(input, 0, SEEK_SET)` on line 36 (0, or -1),
and for each iteration of the chunk loop a bound on the bytes that `fread`
transfers, whether `fseeko(input, -bytes_read, SEEK_CUR)` fails, and a bound on
the items that `fwrite` writes (`none`: the call is not cut short).
`read_after_write i file pos` is the content and the position of the stream as
the `fread` of iteration `i` finds them when it directly follows an `fwrite`
that wrote items, `file` and `pos` being the content and the position that the
calls made so far would leave on a flushed stream: the C standard leaves that
read undefined, and what it finds depends on the buffering of the library. -/
structure Env where
  ftello : Int
  fseeko_set : Int
  fread_limit : Nat → Option Nat
  fseeko_cur_fails : Nat → Bool
  fwrite_limit : Nat → Option Nat
  read_after_write : Nat → List Nat → Nat → List Nat × Nat

/-- The library that does not fail on the file `file` and that serves a read
directly after a write as if the stream had been flushed in between. -/
def Env.sound (file : List Nat) : Env :=
  { ftello := file.length, fseeko_set := 0, fread_limit := fun _ => none,
    fseeko_cur_fails := fun _ => false, fwrite_limit := fun _ => none,
    read_after_write := fun _ f p => (f, p) }

/-- A library that does not fail on the file `file` and buffers the stream in
blocks of `block` bytes, at the read of the second iteration of the chunk loop:
of the first write, which starts at offset 0, the leading `block` bytes have gone
to the file and the rest is still in the buffer of the stream; the read that
follows drops the buffered bytes and continues at offset `block`.  This is how
the GNU C library serves that read when a chunk has at least `block = 4096`
bytes. -/
def Env.unflushed (file : List Nat) (block : Nat) : Env :=
  { ftello := file.length, fseeko_set := 0, fread_limit := fun _ => none,
    fseeko_cur_fails := fun _ => false, fwrite_limit := fun _ => none,
    read_after_write := fun _ f _ => (f.take block ++ file.drop block, block) }

/-- The bytes that a call `fread(ptr, ITEM_SIZE, count, input)` transfers when
the transfer stops after at most `limit` bytes. -/
def fread_bytes (limit : Option Nat) (file : List Nat) (pos count : Nat) : List Nat :=
  ((file.drop pos).take (ITEM_SIZE * count)).take (limit.getD (ITEM_SIZE * count))

/-- The call `fread(ptr, ITEM_SIZE, count, input)` when the transfer stops after
at most `limit` bytes. -/
def fread_env (limit : Option Nat) (file : List Nat) (pos count : Nat) : List Int × Nat :=
  (decode_items (fread_bytes limit file pos count),
   pos + (fread_bytes limit file pos count).length)

/-- The content and the position of the stream as the `fread` of iteration
`buf_idx` finds them. -/
def stream_at (env : Env) (st : State) (buf_idx : Nat) : List Nat × Nat :=
  if after_write st.trace then env.read_after_write buf_idx st.file st.pos
  else (st.file, st.pos)

/-- Lines 45-90 with the library `env`: the body of the chunk loop.  A failure
comes with the state in which the process exits. -/
def chunk_step_env (env : Env) (num_chan num_coeffs : Nat) (a_coeffs b_coeffs : List FP)
    (samples_per_buffer num_buffers : Nat) (st : State) (buf_idx : Nat) :
    Except (Failure × State) State :=
  let hist_size := num_chan * num_coeffs
  let buffer_size := num_chan * samples_per_buffer
  let buffer := memcpy st.buffer 0 st.buffer buffer_size hist_size
  let stream := stream_at env st buf_idx
  let rd := fread_env (env.fread_limit buf_idx) stream.1 stream.2 buffer_size
  let items_read := rd.1.length
  let buffer := buffer.take hist_size ++ rd.1 ++ buffer.drop (hist_size + items_read)
  let buffer := store_odd_byte buffer (hist_size + items_read)
    (partial_byte (fread_bytes (env.fread_limit buf_idx) stream.1 stream.2 buffer_size))
  if items_read = 0 ∧ buf_idx < num_buffers then
    .error (.read_failure,
      { file := stream.1, pos := rd.2, buffer := buffer, input_ringbuf := st.input_ringbuf,
        irb_idx := st.irb_idx, trace := st.trace ++ [.fread stream.2 items_read] })
  else
    let bytes_read := items_read * ITEM_SIZE
    let samples_read := items_read / num_chan
    let r := (List.range samples_read).foldl
      (samp_step num_chan num_coeffs a_coeffs b_coeffs hist_size)
      (buffer, st.input_ringbuf, st.irb_idx)
    match (if env.fseeko_cur_fails buf_idx then none
           else fseeko_cur rd.2 (-(bytes_read : Int))) with
    | none =>
      .error (.seek_failure,
        { file := stream.1, pos := rd.2, buffer := r.1, input_ringbuf := r.2.1,
          irb_idx := r.2.2, trace := st.trace ++ [.fread stream.2 items_read] })
    | some pos =>
      let items := ((r.1.drop hist_size).take items_read).take
        ((env.fwrite_limit buf_idx).getD items_read)
      let wr := fwrite stream.1 pos items
      let items_written := items.length
      if items_written ≠ items_read then
        .error (.write_failure,
          { file := wr.1, pos := wr.2, buffer := r.1, input_ringbuf := r.2.1,
            irb_idx := r.2.2,
            trace := st.trace ++ [.fread stream.2 items_read, .fwrite pos items_written] })
      else
        .ok { file := wr.1, pos := wr.2, buffer := r.1,
              input_ringbuf := r.2.1, irb_idx := r.2.2,
              trace := st.trace ++ [.fread stream.2 items_read, .fwrite pos items_written] }

/-- The function `filter_file` with the library `env`.  Line 31 stores the
value of `ftello`, an `off_t`, in `byte_count`, a `size_t`: the value is taken
modulo `2^64`, and the comparison `byte_count < 0` of line 32 is one of unsigned
numbers. -/
def filter_file_env (env : Env) (file : List Nat) (num_chan num_coeffs : Nat)
    (a_coeffs b_coeffs : List FP) (samples_per_buffer : Nat) :
    Except (Failure × State) State :=
  let hist_size := num_chan * num_coeffs
  let buffer_size := num_chan * samples_per_buffer
  let buffer : List Int := List.replicate (buffer_size + hist_size) 0
  let input_ringbuf : List Int := List.replicate hist_size 0
  let init : State :=
    { file := file, pos := 0, buffer := buffer,
      input_ringbuf := input_ringbuf, irb_idx := 0, trace := [] }
  let byte_count : Nat := (env.ftello % 2 ^ 64).toNat
  if byte_count < 0 then .error (.length_failure, init)
  else if env.fseeko_set < 0 then .error (.seek_failure, init)
  else
    let num_buffers := byte_count / (buffer_size * ITEM_SIZE)
    (List.range (num_buffers + 1)).foldlM
      (chunk_step_env env num_chan num_coeffs a_coeffs b_coeffs samples_per_buffer num_buffers)
      init

/-- The state of `filter_file`, with the library `env`, before iteration
`buf_idx` of the chunk loop. -/
def run_chunks_env (env : Env) (file : List Nat) (num_chan num_coeffs : Nat)
    (a_coeffs b_coeffs : List FP) (samples_per_buffer buf_idx : Nat) :
    Except (Failure × State) State :=
  (List.range buf_idx).foldlM
    (chunk_step_env env num_chan num_coeffs a_coeffs b_coeffs samples_per_buffer
      ((env.ftello % 2 ^ 64).toNat / (num_chan * samples_per_buffer * ITEM_SIZE)))
    { file := file, pos := 0,
      buffer := List.replicate (num_chan * samples_per_buffer + num_chan * num_coeffs) 0,
      input_ringbuf := List.replicate (num_chan * num_coeffs) 0, irb_idx := 0, trace := [] }

/-- Line 51 with the library `env`: the call of `fread` of iteration `buf_idx`
in the state `st`. -/
def read_env (env : Env) (num_chan samples_per_buffer : Nat) (st : State) (buf_idx : Nat) :
    List Int × Nat :=
  fread_env (env.fread_limit buf_idx) (stream_at env st buf_idx).1 (stream_at env st buf_idx).2
    (num_chan * samples_per_buffer)

/-- Lines 48-51 with the library `env`: the buffer, the ring and the ring cursor
with which iteration `buf_idx` enters the sample loop. -/
def chunk_loaded_env (env : Env) (num_chan num_coeffs samples_per_buffer : Nat) (st : State)
    (buf_idx : Nat) : List Int × List Int × Nat :=
  let buffer_size := num_chan * samples_per_buffer
  let buffer := memcpy st.buffer 0 st.buffer buffer_size (hist_size num_chan num_coeffs)
  let rd := read_env env num_chan samples_per_buffer st buf_idx
  (store_odd_byte
     (buffer.take (hist_size num_chan num_coeffs) ++ rd.1
        ++ buffer.drop (hist_size num_chan num_coeffs + rd.1.length))
     (hist_size num_chan num_coeffs + rd.1.length)
     (partial_byte (fread_bytes (env.fread_limit buf_idx) (stream_at env st buf_idx).1
        (stream_at env st buf_idx).2 buffer_size)),
   st.input_ringbuf, st.irb_idx)

/-- The state of the sample loop of iteration `buf_idx`, with the library `env`,
before the sample vector `samp_idx` of the chunk is processed. -/
def at_sample_env (env : Env) (num_chan num_coeffs : Nat) (a_coeffs b_coeffs : List FP)
    (samples_per_buffer : Nat) (st : State) (buf_idx samp_idx : Nat) :
    List Int × List Int × Nat :=
  (List.range samp_idx).foldl
    (samp_step num_chan num_coeffs a_coeffs b_coeffs (hist_size num_chan num_coeffs))
    (chunk_loaded_env env num_chan num_coeffs samples_per_buffer st buf_idx)

/-- The scaling of a floating-point value by the power of two `2^e`, as an
exact operation. -/
def FP.scale (e : Int) : FP → FP
  | .fin q => .fin (pow2 e * q)
  | v => v

/-- A coefficient that the scaling by `2^e` keeps clear of the underflow and
overflow thresholds of `float`, in its products with `int16_t` items: a zero, or
a finite number whose magnitude lies between `2^-126` and `2^112` before and
after the scaling. -/
def ScaleSafe (e : Int) (c : FP) : Prop :=
  match c with
  | .fin q => q = 0 ∨ (pow2 (-126) ≤ |q| ∧ |q| ≤ pow2 112 ∧
      pow2 (-126) ≤ pow2 e * |q| ∧ pow2 e * |q| ≤ pow2 112)
  | .nzero => True
  | _ => False

instance (e : Int) (c : FP) : Decidable (ScaleSafe e c) := by
  cases c <;> unfold ScaleSafe <;> exact inferInstance

/-! ## Well-formed streams and arrays -/

/-- A list of bytes. -/
def Bytes (l : List Nat) : Prop := ∀ v ∈ l, v < 256

instance (l : List Nat) : Decidable (Bytes l) := by
  unfold Bytes; exact inferInstance

/-- A list of `int16_t` items. -/
def Items (l : List Int) : Prop := ∀ v ∈ l, isInt16 v

instance (l : List Int) : Decidable (Items l) := by
  unfold Items; exact inferInstance

/-- A state whose file is made of bytes and whose arrays are made of `int16_t`
items. -/
def Wf (st : State) : Prop := Bytes st.file ∧ Items st.buffer ∧ Items st.input_ringbuf

/-- A library whose stream holds bytes: what a read directly after a write
finds is made of bytes whenever the file is. -/
def Env.bytes (env : Env) : Prop :=
  ∀ (i : Nat) (f : List Nat) (p : Nat), Bytes f → Bytes (env.read_after_write i f p).1

/-! ## Accumulators under a scaling of the coefficients -/

/-- A multiple of `2^-149`, the least positive `float`. -/
def Grid (q : ℚ) : Prop := ∃ m : Int, q = (m : ℚ) * pow2 (-149)

/-- An accumulator that is a sum of at most `k` `float` products of magnitude at
most `2^127`: a zero, or a multiple of `2^-149` of magnitude at most
`k * 2^127`. -/
def AccOK (k : Nat) (u : FP) : Prop :=
  match u with
  | .fin q => Grid q ∧ |q| ≤ (k : ℚ) * pow2 127
  | .nzero => True
  | _ => False

/-- Two accumulators of at most `k` products, the second of which is the first
scaled by `2^e`. -/
def ScaleRel (e : Int) (k : Nat) (u u' : FP) : Prop :=
  u' = u.scale e ∧ AccOK k u ∧ AccOK k u'

/-! ## Encoding lemmas -/

theorem encode_items_length (l : List Int) : (encode_items l).length = 2 * l.length := by
  induction l with
  | nil => rfl
  | cons v rest ih => simp [encode_items, encode16, ih]; omega

theorem encode_items_append (l₁ l₂ : List Int) :
    encode_items (l₁ ++ l₂) = encode_items l₁ ++ encode_items l₂ := by
  induction l₁ with
  | nil => rfl
  | cons v rest ih => simp [encode_items, ih]

theorem decode16_encode16 (v : Int) (hv : isInt16 v) :
    decode16 ((v % 65536).toNat % 256) ((v % 65536).toNat / 256) = v := by
  obtain ⟨h1, h2⟩ := hv
  simp only [INT16_MIN, INT16_MAX] at h1 h2
  have hsum : (v % 65536).toNat % 256 + 256 * ((v % 65536).toNat / 256) = (v % 65536).toNat :=
    Nat.mod_add_div _ _
  unfold decode16
  rw [hsum]
  have hnn : 0 ≤ v % 65536 := Int.emod_nonneg _ (by norm_num)
  have hcast : (((v % 65536).toNat : Nat) : Int) = v % 65536 := Int.toNat_of_nonneg hnn
  split_ifs with h
  · rw [hcast]; omega
  · rw [hcast]; omega

theorem decode_encode_items (l : List Int) (hl : ∀ v ∈ l, isInt16 v) :
    decode_items (encode_items l) = l := by
  induction l with
  | nil => rfl
  | cons v rest ih =>
    have hv := hl v (List.mem_cons_self _ _)
    have hr : ∀ w ∈ rest, isInt16 w := fun w hw => hl w (List.mem_cons_of_mem _ hw)
    simp only [encode_items, encode16, List.cons_append, List.nil_append, decode_items]
    rw [decode16_encode16 v hv]
    show v :: decode_items (encode_items rest) = v :: rest
    rw [ih hr]

theorem encode_items_take (l : List Int) (k : Nat) :
    (encode_items l).take (2 * k) = encode_items (l.take k) := by
  induction l generalizing k with
  | nil => simp [encode_items]
  | cons v rest ih =>
    cases k with
    | zero => simp [encode_items]
    | succ k =>
      have : 2 * (k + 1) = 2 * k + 1 + 1 := by ring
      simp only [encode_items, encode16, List.cons_append, List.nil_append, this,
        List.take_succ_cons, ih]

theorem encode_items_drop (l : List Int) (k : Nat) :
    (encode_items l).drop (2 * k) = encode_items (l.drop k) := by
  induction l generalizing k with
  | nil => simp [encode_items]
  | cons v rest ih =>
    cases k with
    | zero => simp [encode_items]
    | succ k =>
      have : 2 * (k + 1) = 2 * k + 1 + 1 := by ring
      simp only [encode_items, encode16, List.cons_append, List.nil_append, this,
        List.drop_succ_cons, ih]

theorem decode_items_length (bs : List Nat) : (decode_items bs).length = bs.length / 2 := by
  induction bs using decode_items.induct with
  | case1 lo hi rest ih => simp [decode_items, ih]; omega
  | case2 l h =>
    match l, h with
    | [], _ => simp [decode_items]
    | [x], _ => simp [decode_items]
    | lo :: hi :: rest, h => exact absurd rfl (h lo hi rest)

/-! ## Generic lemmas on lists and loops -/

theorem getD_set_eq (l : List Int) (i j : Nat) (v : Int) :
    (l.set i v).getD j 0 = if i = j ∧ i < l.length then v else l.getD j 0 := by
  simp only [List.getD_eq_getElem?_getD, List.getElem?_set]
  by_cases h : i = j
  · subst h
    by_cases h2 : i < l.length
    · simp [h2]
    · simp [h2, List.getElem?_eq_none (Nat.le_of_not_lt h2)]
  · simp [h]

theorem length_memcpy (dst src : List Int) (doff soff n : Nat)
    (h1 : doff + n ≤ dst.length) (h2 : soff + n ≤ src.length) :
    (memcpy dst doff src soff n).length = dst.length := by
  simp only [memcpy, List.length_append, List.length_take, List.length_drop]
  omega

theorem getD_memcpy (dst src : List Int) (doff soff n : Nat)
    (h1 : doff + n ≤ dst.length) (h2 : soff + n ≤ src.length) (j : Nat) :
    (memcpy dst doff src soff n).getD j 0 =
      if doff ≤ j ∧ j < doff + n then src.getD (soff + (j - doff)) 0 else dst.getD j 0 := by
  have hl1 : (dst.take doff).length = doff := by
    rw [List.length_take]; omega
  have hl2 : ((src.drop soff).take n).length = n := by
    rw [List.length_take, List.length_drop]; omega
  simp only [memcpy, List.getD_eq_getElem?_getD, List.getElem?_append, List.length_append,
    hl1, hl2]
  by_cases hj1 : j < doff
  · rw [if_neg (by omega : ¬ (doff ≤ j ∧ j < doff + n)), if_pos (by omega : j < doff + n),
      if_pos hj1, List.getElem?_take, if_pos hj1]
  · by_cases hj2 : j < doff + n
    · rw [if_pos (by omega : doff ≤ j ∧ j < doff + n), if_pos hj2, if_neg hj1,
        List.getElem?_take, if_pos (by omega : j - doff < n), List.getElem?_drop]
    · rw [if_neg (by omega : ¬ (doff ≤ j ∧ j < doff + n)), if_neg hj2, List.getElem?_drop]
      congr 2
      omega

theorem foldl_range_inv {σ : Type} (f : σ → Nat → σ) (P : Nat → σ → Prop) (n : Nat)
    (s0 : σ) (h0 : P 0 s0) (hstep : ∀ i s, i < n → P i s → P (i + 1) (f s i)) :
    P n ((List.range n).foldl f s0) := by
  induction n with
  | zero => simpa using h0
  | succ n ih =>
    rw [List.range_succ, List.foldl_append]
    simp only [List.foldl_cons, List.foldl_nil]
    exact hstep n _ (Nat.lt_succ_self n)
      (ih (fun i s hi hp => hstep i s (Nat.lt_succ_of_lt hi) hp))

theorem foldlM_range_inv {σ : Type} (f : σ → Nat → Except Failure σ)
    (P : Nat → σ → Prop) (n : Nat) (s0 : σ) (h0 : P 0 s0)
    (hstep : ∀ i s, i < n → P i s → ∃ s', f s i = .ok s' ∧ P (i + 1) s') :
    ∃ s', (List.range n).foldlM f s0 = .ok s' ∧ P n s' := by
  induction n with
  | zero => exact ⟨s0, rfl, h0⟩
  | succ n ih =>
    obtain ⟨s1, hs1, hp1⟩ := ih (fun i s hi hp => hstep i s (Nat.lt_succ_of_lt hi) hp)
    obtain ⟨s2, hs2, hp2⟩ := hstep n s1 (Nat.lt_succ_self n) hp1
    refine ⟨s2, ?_, hp2⟩
    rw [List.range_succ, List.foldlM_append, hs1]
    simp only [List.foldlM_cons, List.foldlM_nil]
    show (f s1 n >>= fun s => pure s) = Except.ok s2
    rw [hs2]; rfl

theorem foldl_congr_mem {α β : Type} (f g : β → α → β) (l : List α) (b0 : β)
    (h : ∀ acc x, x ∈ l → f acc x = g acc x) : l.foldl f b0 = l.foldl g b0 := by
  induction l generalizing b0 with
  | nil => rfl
  | cons x rest ih =>
    simp only [List.foldl_cons]
    rw [h b0 x (List.mem_cons_self _ _)]
    exact ih _ (fun acc y hy => h acc y (List.mem_cons_of_mem _ hy))

/-! ## The final conversion: clamp, then truncate -/

theorem tdiv_eq_trunc (q : ℚ) : Int.tdiv q.num q.den = trunc q := by
  unfold trunc
  by_cases h : 0 ≤ q
  · rw [if_pos h, Rat.floor_def]
    exact Int.tdiv_eq_ediv (Rat.num_nonneg.mpr h) (Int.ofNat_nonneg _)
  · rw [if_neg h]
    have hq : q < 0 := lt_of_not_le h
    have hnum : 0 ≤ -q.num := by
      have := Rat.num_neg.mpr hq
      omega
    have h1 : ⌈q⌉ = -⌊-q⌋ := by rw [Int.floor_neg, neg_neg]
    rw [h1, Rat.floor_def, Rat.num_neg_eq_neg_num, Rat.den_neg_eq_den]
    rw [← Int.tdiv_eq_ediv hnum (Int.ofNat_nonneg _), Int.neg_tdiv, neg_neg]

theorem to_int16_fin (q : ℚ) : to_int16 (.fin q) = trunc q := tdiv_eq_trunc q

theorem trunc_intCast (n : Int) : trunc (n : ℚ) = n := by
  unfold trunc
  split_ifs <;> simp

theorem clamp_fin (q : ℚ) :
    clamp (.fin q) = .fin (if q > 32767 then 32767 else if q < -32768 then -32768 else q) := by
  unfold clamp
  by_cases h1 : q > 32767
  · have e1 : fgt (.fin q) INT16_MAX = true := by
      simp only [fgt, INT16_MAX, decide_eq_true_eq]
      push_cast
      exact h1
    have e2 : ¬ flt (.fin ((INT16_MAX : Int) : ℚ)) INT16_MIN = true := by decide!
    simp only
    rw [if_pos e1, if_neg e2, if_pos h1]
    simp [INT16_MAX]
  · have e1 : ¬ fgt (.fin q) INT16_MAX = true := by
      simp only [fgt, INT16_MAX, decide_eq_true_eq]
      push_cast
      exact h1
    simp only
    rw [if_neg e1, if_neg h1]
    by_cases h2 : q < -32768
    · have e2 : flt (.fin q) INT16_MIN = true := by
        simp only [flt, INT16_MIN, decide_eq_true_eq]
        push_cast
        exact h2
      rw [if_pos e2, if_pos h2]
      simp [INT16_MIN]
    · have e2 : ¬ flt (.fin q) INT16_MIN = true := by
        simp only [flt, INT16_MIN, decide_eq_true_eq]
        push_cast
        exact h2
      rw [if_neg e2, if_neg h2]

theorem to_int16_clamp_fin (q : ℚ) : to_int16 (clamp (.fin q)) = sat16 (trunc q) := by
  rw [clamp_fin, to_int16_fin]
  unfold sat16
  by_cases h1 : q > 32767
  · rw [if_pos h1]
    have hle : (32767 : Int) ≤ trunc q := by
      unfold trunc
      have hq0 : (0 : ℚ) ≤ q := le_of_lt (lt_trans (by norm_num) h1)
      rw [if_pos hq0]
      exact Int.le_floor.mpr (by push_cast; exact le_of_lt h1)
    have : trunc (32767 : ℚ) = 32767 := by
      have := trunc_intCast 32767
      simpa using this
    rw [this]
    split_ifs <;> omega
  · rw [if_neg h1]
    have h1' : q ≤ 32767 := le_of_not_lt h1
    by_cases h2 : q < -32768
    · rw [if_pos h2]
      have : trunc (-32768 : ℚ) = -32768 := by
        have := trunc_intCast (-32768)
        simpa using this
      rw [this]
      have hle : trunc q ≤ -32768 := by
        unfold trunc
        have hq0 : ¬ (0 : ℚ) ≤ q := not_le.mpr (lt_trans h2 (by norm_num))
        rw [if_neg hq0]
        exact Int.ceil_le.mpr (by push_cast; exact le_of_lt h2)
      split_ifs <;> omega
    · rw [if_neg h2]
      have h2' : (-32768 : ℚ) ≤ q := le_of_not_lt h2
      have hb : -32768 ≤ trunc q ∧ trunc q ≤ 32767 := by
        unfold trunc
        split_ifs with h0
        · constructor
          · have : (0 : Int) ≤ ⌊q⌋ := Int.floor_nonneg.mpr h0
            omega
          · have : ((⌊q⌋ : Int) : ℚ) ≤ 32767 := le_trans (Int.floor_le q) h1'
            exact_mod_cast this
        · constructor
          · have : ((-32768 : Int) : ℚ) ≤ ((⌈q⌉ : Int) : ℚ) := by
              have := Int.le_ceil q
              push_cast
              linarith
            exact_mod_cast this
          · have : ⌈q⌉ ≤ 0 := Int.ceil_le.mpr (by push_cast; linarith [lt_of_not_le h0])
            omega
      split_ifs <;> omega

theorem sat16_isInt16 (v : Int) : isInt16 (sat16 v) := by
  unfold sat16 isInt16 INT16_MIN INT16_MAX
  split_ifs <;> omega

theorem sat16_of_isInt16 (v : Int) (h : isInt16 v) : sat16 v = v := by
  unfold isInt16 INT16_MIN INT16_MAX at h
  unfold sat16
  split_ifs <;> omega

/-- The sample stored for each kind of accumulator value. -/
theorem to_int16_clamp_cases (v : FP) :
    to_int16 (clamp v) =
      match v with
      | .fin q => sat16 (trunc q)
      | .nzero => 0
      | .inf s => if s then -32768 else 32767
      | .nan => 0 := by
  cases v with
  | fin q => exact to_int16_clamp_fin q
  | nzero => decide!
  | inf s => cases s <;> decide!
  | nan => decide!

theorem to_int16_clamp_isInt16 (v : FP) : isInt16 (to_int16 (clamp v)) := by
  rw [to_int16_clamp_cases]
  cases v with
  | fin q => exact sat16_isInt16 _
  | nzero => decide
  | inf s => cases s <;> decide
  | nan => decide

theorem to_int16_clamp_of_gt (v : FP) (h : fgt v INT16_MAX = true) :
    to_int16 (clamp v) = 32767 := by
  rw [to_int16_clamp_cases]
  cases v with
  | fin q =>
    have hq : q > 32767 := by
      simp only [fgt, INT16_MAX, decide_eq_true_eq] at h
      push_cast at h
      exact h
    have hle : (32767 : Int) ≤ trunc q := by
      unfold trunc
      rw [if_pos (le_of_lt (lt_trans (by norm_num) hq))]
      exact Int.le_floor.mpr (by push_cast; exact le_of_lt hq)
    show sat16 (trunc q) = 32767
    unfold sat16
    split_ifs <;> omega
  | nzero => exact absurd h (by decide)
  | inf s =>
    cases s
    · rfl
    · exact absurd h (by decide)
  | nan => exact absurd h (by decide)

theorem to_int16_clamp_of_lt (v : FP) (h : flt v INT16_MIN = true) :
    to_int16 (clamp v) = -32768 := by
  rw [to_int16_clamp_cases]
  cases v with
  | fin q =>
    have hq : q < -32768 := by
      simp only [flt, INT16_MIN, decide_eq_true_eq] at h
      push_cast at h
      exact h
    have hle : trunc q ≤ -32768 := by
      unfold trunc
      rw [if_neg (not_le.mpr (lt_trans hq (by norm_num)))]
      exact Int.ceil_le.mpr (by push_cast; exact le_of_lt hq)
    show sat16 (trunc q) = -32768
    unfold sat16
    split_ifs <;> omega
  | nzero => exact absurd h (by decide)
  | inf s =>
    cases s
    · exact absurd h (by decide)
    · rfl
  | nan => exact absurd h (by decide)
/-! ## The per-sample computation -/

theorem past_shift (nc C : Nat) (v : List Int) (t k c : Nat) (hk : k ≤ C) :
    past nc v (t + C - k) C c = past nc v t k c := by
  unfold past
  by_cases h : k ≤ t
  · rw [if_pos h, if_pos (by omega)]
    have : t + C - k - C = t - k := by omega
    rw [this]
  · rw [if_neg h, if_neg (by omega)]

theorem pad_get_past (nc C : Nat) (v : List Int) (u c : Nat) (hc : c < nc) :
    pad_get (nc * C) v (u * nc + c) = past nc v u C c := by
  unfold pad_get past
  by_cases h : C ≤ u
  · obtain ⟨d, rfl⟩ := Nat.exists_eq_add_of_le h
    have h1 : ¬ ((C + d) * nc + c < nc * C) := by
      rw [Nat.add_mul, Nat.mul_comm nc C]; omega
    rw [if_neg h1, if_pos h]
    congr 1
    rw [Nat.add_mul, Nat.mul_comm nc C, Nat.add_sub_cancel_left]
    omega
  · have h1 : u * nc + c < nc * C := by
      have := Nat.mul_le_mul_right nc (Nat.succ_le_of_lt (Nat.lt_of_not_le h))
      rw [Nat.succ_mul, Nat.mul_comm C nc] at this
      omega
    rw [if_pos h1, if_neg h]

theorem ring_read (nc C : Nat) (x ring : List Int) (t k c : Nat) (hk : k < C)
    (hc : c < nc) (hR : RingInv nc C x (t + 1) ring) :
    ring.getD (((C + t % C - k) % C) * nc + c) 0 = past nc x t k c := by
  have hmod : (C + t % C - k) % C = (t + C - k) % C := by
    have h1 : t + C - k = (C + t % C - k) + C * (t / C) := by
      have := Nat.mod_add_div t C
      omega
    rw [h1, Nat.add_mul_mod_self_left]
  rw [hmod, hR.2 (t + C - k) c (by omega) (by omega) hc, past_shift _ _ _ _ _ _ (le_of_lt hk)]

theorem chan_acc (nc C : Nat) (a b : List FP) (x y ring buffer : List Int)
    (irb c buff_loc t : Nat)
    (hring : ∀ k, k < C → ring.getD (((C + irb - k) % C) * nc + c) 0 = past nc x t k c)
    (hring0 : ring.getD (irb * nc + c) 0 = past nc x t 0 c)
    (hbuf : ∀ k, 1 ≤ k → k < C → buffer.getD (buff_loc - k * nc) 0 = past nc y t k c) :
    (List.range' 1 (C - 1)).foldl (coeff_step nc C a b ring buffer irb c buff_loc)
      (fmul (b.getD 0 0) (ring.getD (irb * nc + c) 0))
      = direct_form_acc nc C a b x y t c := by
  unfold direct_form_acc
  rw [hring0]
  apply foldl_congr_mem
  intro acc k hk
  rw [List.mem_range'_1] at hk
  unfold coeff_step direct_form_step
  simp only
  rw [hring k (by omega), hbuf k hk.1 (by omega)]

theorem chan_step_inv (nc C : Nat) (a b : List FP) (x y ring buffer : List Int)
    (t0 s c m len : Nat) (hC : 1 ≤ C) (hc : c < nc)
    (hm : s * nc + nc ≤ m) (hlen : nc * C + m ≤ len)
    (hR : RingInv nc C x (t0 + s + 1) ring)
    (hB : BufInv (nc * C) (t0 * nc) m len x y (s * nc + c) buffer)
    (hY : y.getD ((t0 + s) * nc + c) 0 = direct_form nc C a b x y (t0 + s) c) :
    BufInv (nc * C) (t0 * nc) m len x y (s * nc + c + 1)
      (chan_step nc C a b (nc * C) s ring ((t0 + s) % C) buffer c) := by
  obtain ⟨hB1, hB2, hB3⟩ := hB
  have hacc := chan_acc nc C a b x y ring buffer ((t0 + s) % C) c (nc * C + s * nc + c)
    (t0 + s) (fun k hk => ring_read nc C x ring (t0 + s) k c hk hc hR)
    (by
      have := ring_read nc C x ring (t0 + s) 0 c (by omega) hc hR
      rwa [Nat.sub_zero, Nat.add_mod_left, Nat.mod_mod] at this)
    (by
      intro k hk1 hk2
      obtain ⟨d, rfl⟩ := Nat.exists_eq_add_of_le (le_of_lt hk2)
      have hidx : nc * (k + d) + s * nc + c - k * nc = nc * d + s * nc + c := by
        rw [Nat.mul_add, Nat.mul_comm nc k]; omega
      have hpos : 0 < k * nc := Nat.mul_pos (by omega) (by omega)
      rw [hidx, hB2 (nc * d + s * nc + c) (by rw [Nat.mul_add, Nat.mul_comm nc k]; omega)]
      have hflat : t0 * nc + (nc * d + s * nc + c) = (t0 + s + (k + d) - k) * nc + c := by
        have : t0 + s + (k + d) - k = t0 + s + d := by omega
        rw [this, Nat.add_mul, Nat.add_mul, Nat.mul_comm nc d]; omega
      rw [hflat, pad_get_past nc (k + d) y _ c hc, past_shift nc (k + d) y (t0 + s) k c (by omega)])
  have hval : to_int16 (clamp (ddiv
      ((List.range' 1 (C - 1)).foldl
        (coeff_step nc C a b ring buffer ((t0 + s) % C) c (nc * C + s * nc + c))
        (fmul (b.getD 0 0) (ring.getD ((t0 + s) % C * nc + c) 0))) (a.getD 0 0)))
      = y.getD ((t0 + s) * nc + c) 0 := by
    rw [hacc, hY]
    rfl
  unfold chan_step accumulate
  simp only
  rw [hval]
  refine ⟨by rw [List.length_set]; exact hB1, ?_, ?_⟩
  · intro j hj
    rw [getD_set_eq]
    by_cases hjj : nc * C + s * nc + c = j
    · rw [if_pos ⟨hjj, by omega⟩]
      subst hjj
      unfold pad_get
      rw [if_neg (by omega)]
      congr 1
      rw [Nat.add_mul]; omega
    · rw [if_neg (fun h => hjj h.1)]
      exact hB2 j (by omega)
  · intro j hj1 hj2
    rw [getD_set_eq, if_neg (fun h => by omega)]
    exact hB3 j (by omega) hj2

/-! ## The sample loop -/

theorem chan_loop_inv (nc C : Nat) (a b : List FP) (x y ring buffer : List Int)
    (t0 s m len : Nat) (hC : 1 ≤ C)
    (hm : s * nc + nc ≤ m) (hlen : nc * C + m ≤ len)
    (hR : RingInv nc C x (t0 + s + 1) ring)
    (hB : BufInv (nc * C) (t0 * nc) m len x y (s * nc) buffer)
    (hY : ∀ c, c < nc → y.getD ((t0 + s) * nc + c) 0 = direct_form nc C a b x y (t0 + s) c) :
    BufInv (nc * C) (t0 * nc) m len x y ((s + 1) * nc)
      ((List.range nc).foldl (chan_step nc C a b (nc * C) s ring ((t0 + s) % C)) buffer) := by
  have h := foldl_range_inv (chan_step nc C a b (nc * C) s ring ((t0 + s) % C))
    (fun c buf => BufInv (nc * C) (t0 * nc) m len x y (s * nc + c) buf) nc buffer hB
    (fun c buf hc hP => chan_step_inv nc C a b x y ring buf t0 s c m len hC hc hm hlen hR hP
      (hY c hc))
  have he : (s + 1) * nc = s * nc + nc := by rw [Nat.add_mul, Nat.one_mul]
  rw [he]
  exact h

theorem mod_ne_of_between (C t u : Nat) (h1 : t < u) (h2 : u < t + C) : u % C ≠ t % C := by
  intro h
  have hdvd : C ∣ u - t := (Nat.modEq_iff_dvd' (le_of_lt h1)).mp h.symm
  have := Nat.le_of_dvd (by omega) hdvd
  omega

theorem ring_store_inv (nc C : Nat) (x ring buffer : List Int) (t src : Nat) (hC : 1 ≤ C)
    (hsrc : src + nc ≤ buffer.length)
    (hx : ∀ c, c < nc → buffer.getD (src + c) 0 = x.getD (t * nc + c) 0)
    (hR : RingInv nc C x t ring) :
    RingInv nc C x (t + 1) (memcpy ring (t % C * nc) buffer src nc) := by
  obtain ⟨hR1, hR2⟩ := hR
  have hirb : t % C < C := Nat.mod_lt _ (by omega)
  have hdst : t % C * nc + nc ≤ ring.length := by
    have := Nat.mul_le_mul_right nc (Nat.succ_le_of_lt hirb)
    rw [Nat.succ_mul, Nat.mul_comm C nc] at this
    omega
  refine ⟨by rw [length_memcpy _ _ _ _ _ hdst hsrc]; exact hR1, ?_⟩
  intro u c hu1 hu2 hc
  rw [getD_memcpy _ _ _ _ _ hdst hsrc]
  by_cases hut : u = t + C
  · subst hut
    have hmod : (t + C) % C = t % C := Nat.add_mod_right t C
    rw [hmod, if_pos (by omega), Nat.add_sub_cancel_left, hx c hc]
    unfold past
    rw [if_pos (by omega), Nat.add_sub_cancel]
  · have hne := mod_ne_of_between C t u (by omega) (by omega)
    have hout : ¬ (t % C * nc ≤ u % C * nc + c ∧ u % C * nc + c < t % C * nc + nc) := by
      intro ⟨h1, h2⟩
      rcases Nat.lt_or_gt_of_ne hne with hlt | hgt
      · have := Nat.mul_le_mul_right nc (Nat.succ_le_of_lt hlt)
        rw [Nat.succ_mul] at this
        omega
      · have := Nat.mul_le_mul_right nc (Nat.succ_le_of_lt hgt)
        rw [Nat.succ_mul] at this
        omega
    rw [if_neg hout]
    exact hR2 u c (by omega) (by omega) hc

theorem samp_step_inv (nc C : Nat) (a b : List FP) (x y : List Int)
    (t0 s m len : Nat) (st : List Int × List Int × Nat) (hC : 1 ≤ C)
    (hm : s * nc + nc ≤ m) (hlen : nc * C + m ≤ len)
    (hB : BufInv (nc * C) (t0 * nc) m len x y (s * nc) st.1)
    (hR : RingInv nc C x (t0 + s) st.2.1) (hi : st.2.2 = (t0 + s) % C)
    (hY : ∀ c, c < nc → y.getD ((t0 + s) * nc + c) 0 = direct_form nc C a b x y (t0 + s) c) :
    BufInv (nc * C) (t0 * nc) m len x y ((s + 1) * nc) (samp_step nc C a b (nc * C) st s).1 ∧
    RingInv nc C x (t0 + (s + 1)) (samp_step nc C a b (nc * C) st s).2.1 ∧
    (samp_step nc C a b (nc * C) st s).2.2 = (t0 + (s + 1)) % C := by
  have hR' : RingInv nc C x (t0 + s + 1)
      (memcpy st.2.1 ((t0 + s) % C * nc) st.1 (nc * C + s * nc) nc) := by
    apply ring_store_inv nc C x st.2.1 st.1 (t0 + s) (nc * C + s * nc) hC
    · rw [hB.1]; omega
    · intro c hc
      have := hB.2.2 (s * nc + c) (by omega) (by omega)
      rw [← Nat.add_assoc] at this
      rw [this]
      congr 1
      rw [Nat.add_mul]; omega
    · exact hR
  unfold samp_step
  simp only
  rw [hi]
  refine ⟨chan_loop_inv nc C a b x y _ st.1 t0 s m len hC hm hlen hR' hB hY, hR', ?_⟩
  rw [Nat.mod_add_mod, Nat.add_assoc]

theorem samp_loop_inv (nc C : Nat) (a b : List FP) (x y : List Int)
    (t0 sr m len : Nat) (st : List Int × List Int × Nat) (hC : 1 ≤ C)
    (hm : sr * nc ≤ m) (hlen : nc * C + m ≤ len)
    (hB : BufInv (nc * C) (t0 * nc) m len x y 0 st.1)
    (hR : RingInv nc C x t0 st.2.1) (hi : st.2.2 = t0 % C)
    (hY : ∀ t c, t < t0 + sr → c < nc →
      y.getD (t * nc + c) 0 = direct_form nc C a b x y t c) :
    BufInv (nc * C) (t0 * nc) m len x y (sr * nc)
      ((List.range sr).foldl (samp_step nc C a b (nc * C)) st).1 ∧
    RingInv nc C x (t0 + sr) ((List.range sr).foldl (samp_step nc C a b (nc * C)) st).2.1 ∧
    ((List.range sr).foldl (samp_step nc C a b (nc * C)) st).2.2 = (t0 + sr) % C := by
  apply foldl_range_inv (samp_step nc C a b (nc * C))
    (fun s st => BufInv (nc * C) (t0 * nc) m len x y (s * nc) st.1 ∧
      RingInv nc C x (t0 + s) st.2.1 ∧ st.2.2 = (t0 + s) % C) sr st
  · refine ⟨?_, hR, hi⟩
    rw [Nat.zero_mul]; exact hB
  · intro s st' hs hP
    have hsm : s * nc + nc ≤ m := by
      have := Nat.mul_le_mul_right nc (Nat.succ_le_of_lt hs)
      rw [Nat.succ_mul] at this
      omega
    exact samp_step_inv nc C a b x y t0 s m len st' hC hsm hlen hP.1 hP.2.1 hP.2.2
      (fun c hc => hY (t0 + s) c (by omega) hc)

/-! ## Stream primitives on an encoded stream -/

theorem list_ext_getD (l₁ l₂ : List Int) (hl : l₁.length = l₂.length)
    (h : ∀ j, j < l₁.length → l₁.getD j 0 = l₂.getD j 0) : l₁ = l₂ := by
  apply List.ext_getElem? 
  intro j
  by_cases hj : j < l₁.length
  · have h1 := h j hj
    simp only [List.getD_eq_getElem?_getD] at h1
    rw [List.getElem?_eq_getElem hj, List.getElem?_eq_getElem (hl ▸ hj)] at h1 ⊢
    simpa using h1
  · rw [List.getElem?_eq_none (Nat.le_of_not_lt hj),
      List.getElem?_eq_none (hl ▸ Nat.le_of_not_lt hj)]

theorem fread_encoded (y1 x2 : List Int) (count : Nat) (hx : ∀ v ∈ x2, isInt16 v) :
    fread (encode_items (y1 ++ x2)) (2 * y1.length) count
      = (x2.take count, 2 * y1.length + 2 * (x2.take count).length) := by
  have hbytes : ((encode_items (y1 ++ x2)).drop (2 * y1.length)).take (ITEM_SIZE * count)
      = encode_items (x2.take count) := by
    rw [encode_items_drop, List.drop_left, ITEM_SIZE, encode_items_take]
  unfold fread
  rw [hbytes, encode_items_length,
    decode_encode_items _ (fun v hv => hx v (List.mem_of_mem_take hv))]

theorem fwrite_encoded (y1 x2 w : List Int) :
    fwrite (encode_items (y1 ++ x2)) (2 * y1.length) w
      = (encode_items (y1 ++ w ++ x2.drop w.length), 2 * y1.length + 2 * w.length) := by
  unfold fwrite
  have hle : 2 * y1.length ≤ (encode_items (y1 ++ x2)).length := by
    rw [encode_items_length, List.length_append]; omega
  have h0 : 2 * y1.length - (encode_items (y1 ++ x2)).length = 0 := by omega
  have h1 : (encode_items (y1 ++ x2)).take (2 * y1.length) = encode_items y1 := by
    rw [encode_items_take, List.take_left]
  have h2 : (encode_items (y1 ++ x2)).drop (2 * y1.length + (encode_items w).length)
      = encode_items (x2.drop w.length) := by
    rw [encode_items_length, ← Nat.mul_add, encode_items_drop, List.drop_append]
  rw [h0, List.replicate_zero, List.append_nil, h1, h2, encode_items_length,
    encode_items_append, encode_items_append]

theorem fseeko_cur_back (p m : Nat) :
    fseeko_cur (p + 2 * m) (-((m * ITEM_SIZE : Nat) : Int)) = some p := by
  unfold fseeko_cur ITEM_SIZE
  have h : (((p + 2 * m : Nat) : Int) + -((m * 2 : Nat) : Int)) = (p : Int) := by
    push_cast; ring
  rw [h, if_pos (Int.ofNat_nonneg p), Int.toNat_ofNat]

/-! ## The chunk loop -/

theorem getD_take_drop (x : List Int) (g0 bs j : Nat) (hj : j < bs) :
    ((x.drop g0).take bs).getD j 0 = x.getD (g0 + j) 0 := by
  simp only [List.getD_eq_getElem?_getD, List.getElem?_take, if_pos hj, List.getElem?_drop]

theorem aligned_append_pair (l : List IOCall) (p m : Nat) (h : aligned l = true) :
    aligned (l ++ [.fread p m, .fwrite p m]) = true := by
  induction l using aligned.induct with
  | case1 => simp [aligned]
  | case2 p' m' q k rest ih =>
    simp only [aligned, Bool.and_eq_true] at h
    simp only [List.cons_append, aligned, Bool.and_eq_true]
    exact ⟨h.1, ih h.2⟩
  | case3 l h1 h2 =>
    unfold aligned at h
    split at h
    · exact absurd rfl h1
    · exact absurd rfl (h2 _ _ _ _ _)
    · exact absurd h (by decide)

theorem bytes_encoded (y1 x2 : List Int) (count : Nat) :
    ((encode_items (y1 ++ x2)).drop (2 * y1.length)).take (ITEM_SIZE * count)
      = encode_items (x2.take count) := by
  rw [encode_items_drop, List.drop_left, ITEM_SIZE, encode_items_take]

theorem partial_byte_encoded (l : List Int) : partial_byte (encode_items l) = none := by
  unfold partial_byte
  rw [encode_items_length, if_neg (by omega)]

theorem chunk_body_ok (nc C S : Nat) (a b : List FP) (x y : List Int) (i nb : Nat)
    (st : State) (hnc : 1 ≤ nc) (hS : 1 ≤ S) (hC : 1 ≤ C)
    (hx : ∀ v ∈ x, isInt16 v) (hlen : y.length = x.length)
    (hY : ∀ t c, t < x.length / nc → c < nc →
      y.getD (t * nc + c) 0 = direct_form nc C a b x y t c)
    (hY2 : ∀ j, x.length / nc * nc ≤ j → y.getD j 0 = x.getD j 0)
    (hi : i * (nc * S) ≤ x.length)
    (hfull : i < nb → (i + 1) * (nc * S) ≤ x.length)
    (hP : ChunkInv nc C S x y i st) :
    ∃ st', chunk_body nc C a b S nb st i = .ok st' ∧
      st'.file = encode_items
        (y.take (i * (nc * S) + min (nc * S) (x.length - i * (nc * S)))
          ++ x.drop (i * (nc * S) + min (nc * S) (x.length - i * (nc * S)))) ∧
      aligned st'.trace = true ∧
      ((i + 1) * (nc * S) ≤ x.length → ChunkInv nc C S x y (i + 1) st') := by
  obtain ⟨hf, hpos, hbl, hpad, hR, hirb, htr⟩ := hP
  have hbspos : 0 < nc * S := Nat.mul_pos (by omega) (by omega)
  have hsucc : (i + 1) * (nc * S) = i * (nc * S) + nc * S := by
    rw [Nat.add_mul, Nat.one_mul]
  have hsuccS : (i + 1) * S = i * S + S := by rw [Nat.add_mul, Nat.one_mul]
  have hg : i * (nc * S) = (i * S) * nc := by ring
  generalize hg0 : i * (nc * S) = g0 at *
  generalize hbs : nc * S = bs at *
  generalize hmm : min bs (x.length - g0) = m
  have hmle : m ≤ bs := by omega
  have hgm : g0 + m ≤ x.length := by omega
  have hyl : (y.take g0).length = g0 := by rw [List.length_take]; omega
  have hcl : ((x.drop g0).take bs).length = m := by
    rw [List.length_take, List.length_drop]; exact hmm
  have hrd : fread st.file st.pos bs = ((x.drop g0).take bs, 2 * g0 + 2 * m) := by
    have := fread_encoded (y.take g0) (x.drop g0) bs (fun v hv => hx v (List.mem_of_mem_drop hv))
    rw [hyl, hcl] at this
    rw [hf, hpos]; exact this
  have hpb : partial_byte ((st.file.drop st.pos).take (ITEM_SIZE * bs)) = none := by
    have := bytes_encoded (y.take g0) (x.drop g0) bs
    rw [hyl] at this
    rw [hf, hpos, this]
    exact partial_byte_encoded _
  -- the buffer once the chunk is read
  have hb1l : (memcpy st.buffer 0 st.buffer bs (nc * C)).length = bs + nc * C := by
    rw [length_memcpy _ _ _ _ _ (by omega) (by omega)]; exact hbl
  have hbuf2 : (memcpy st.buffer 0 st.buffer bs (nc * C)).take (nc * C) ++ (x.drop g0).take bs
      ++ (memcpy st.buffer 0 st.buffer bs (nc * C)).drop (nc * C + m)
      = memcpy (memcpy st.buffer 0 st.buffer bs (nc * C)) (nc * C) ((x.drop g0).take bs) 0 m := by
    unfold memcpy
    simp only [List.drop_zero]
    rw [← hcl, List.take_length]
  have hB0 : BufInv (nc * C) (i * S * nc) m (bs + nc * C) x y 0
      (memcpy (memcpy st.buffer 0 st.buffer bs (nc * C)) (nc * C) ((x.drop g0).take bs) 0 m) := by
    refine ⟨?_, ?_, ?_⟩
    · rw [length_memcpy _ _ _ _ _ (by omega) (by omega)]; exact hb1l
    · intro j hj
      rw [getD_memcpy _ _ _ _ _ (by omega) (by omega), if_neg (by omega),
        getD_memcpy _ _ _ _ _ (by omega) (by omega), if_pos (by omega), Nat.sub_zero,
        hpad j (by omega), hg]
    · intro j _ hj2
      rw [getD_memcpy _ _ _ _ _ (by omega) (by omega), if_pos (by omega), Nat.zero_add,
        Nat.add_sub_cancel_left, getD_take_drop _ _ _ _ (by omega), hg]
  have hsr : m / nc * nc ≤ m := Nat.div_mul_le_self m nc
  have htime : i * S + m / nc ≤ x.length / nc := by
    rw [Nat.le_div_iff_mul_le (by omega), Nat.add_mul]
    omega
  have hloop := samp_loop_inv nc C a b x y (i * S) (m / nc) m (bs + nc * C)
    (memcpy (memcpy st.buffer 0 st.buffer bs (nc * C)) (nc * C) ((x.drop g0).take bs) 0 m,
      st.input_ringbuf, st.irb_idx) hC hsr (by omega) hB0 hR hirb
    (fun t c ht hc => hY t c (by omega) hc)
  generalize hr : (List.range (m / nc)).foldl (samp_step nc C a b (nc * C))
    (memcpy (memcpy st.buffer 0 st.buffer bs (nc * C)) (nc * C) ((x.drop g0).take bs) 0 m,
      st.input_ringbuf, st.irb_idx) = r at hloop
  obtain ⟨⟨hrl, hr2, hr3⟩, hrR, hri⟩ := hloop
  -- the items written back
  have hW : (r.1.drop (nc * C)).take m = (y.drop g0).take m := by
    apply list_ext_getD
    · rw [List.length_take, List.length_take, List.length_drop, List.length_drop, hrl]
      omega
    · intro j hj
      rw [List.length_take] at hj
      rw [getD_take_drop _ _ _ _ (by omega), getD_take_drop _ _ _ _ (by omega)]
      by_cases hjq : j < m / nc * nc
      · rw [hr2 (nc * C + j) (by omega)]
        unfold pad_get
        rw [if_neg (by omega), hg]
        congr 1
        omega
      · rw [hr3 j (by omega) (by omega), ← hg]
        symm
        apply hY2
        by_cases hmb : m = bs
        · exfalso
          rw [hmb, ← hbs, Nat.mul_comm nc S, Nat.mul_div_cancel _ (by omega : 0 < nc)] at hjq
          rw [← hbs, Nat.mul_comm nc S] at hmb
          omega
        · have hn : x.length = (i * S) * nc + m := by omega
          have hdiv : x.length / nc = i * S + m / nc := by
            rw [hn, Nat.add_comm, Nat.add_mul_div_right _ _ (by omega : 0 < nc), Nat.add_comm]
          rw [hdiv, Nat.add_mul]
          omega
  have hwr : fwrite st.file (2 * g0) ((y.drop g0).take m)
      = (encode_items (y.take (g0 + m) ++ x.drop (g0 + m)), 2 * (g0 + m)) := by
    have := fwrite_encoded (y.take g0) (x.drop g0) ((y.drop g0).take m)
    have hwl : ((y.drop g0).take m).length = m := by
      rw [List.length_take, List.length_drop]; omega
    rw [hyl, hwl, List.drop_drop, ← List.take_add] at this
    rw [hf, this, Nat.mul_add]
  have hwl : ((y.drop g0).take m).length = m := by
    rw [List.length_take, List.length_drop]; omega
  refine ⟨{ file := encode_items (y.take (g0 + m) ++ x.drop (g0 + m)), pos := 2 * (g0 + m),
            buffer := r.1, input_ringbuf := r.2.1, irb_idx := r.2.2,
            trace := st.trace ++ [.fread (2 * g0) m, .fwrite (2 * g0) m] }, ?_, rfl,
            aligned_append_pair _ _ _ htr, ?_⟩
  · unfold chunk_body
    simp only [hbs, hrd, hcl, hpb, store_odd_byte, hbuf2]
    rw [if_neg (by
      intro ⟨h1, h2⟩
      have := hfull h2
      omega)]
    rw [fseeko_cur_back]
    simp only [hr, hW, hwr, hwl, hpos, ne_eq, not_true_eq_false, if_false]
  · intro hnext
    have hmb : m = bs := by omega
    have hsrS : m / nc = S := by
      rw [hmb, ← hbs, Nat.mul_comm nc S, Nat.mul_div_cancel _ (by omega : 0 < nc)]
    unfold ChunkInv
    simp only [hbs]
    rw [hsucc, hsuccS]
    rw [hsrS] at hrR hri
    refine ⟨?_, ?_, hrl, ?_, hrR, hri, aligned_append_pair _ _ _ htr⟩
    · show encode_items (y.take (g0 + m) ++ x.drop (g0 + m)) = _
      rw [hmb]
    · show 2 * (g0 + m) = _
      rw [hmb]
    · intro j hj
      show r.1.getD (bs + j) 0 = _
      have hq : S * nc = bs := by rw [← hbs, Nat.mul_comm]
      rw [hsrS] at hr2
      rw [hr2 (bs + j) (by omega), ← hg]
      congr 1
      omega

/-- On a stream each read of which finds what the writes before it left, the
chunk loop leaves the encoded output `y` of the direct form in the file, for
every number of chunks. -/
theorem flushed_run_refines (nc C S : Nat) (a b : List FP) (x y : List Int)
    (hnc : 1 ≤ nc) (hS : 1 ≤ S) (hC : 1 ≤ C)
    (hx : ∀ v ∈ x, isInt16 v) (hlen : y.length = x.length)
    (hY : ∀ t c, t < x.length / nc → c < nc →
      y.getD (t * nc + c) 0 = direct_form nc C a b x y t c)
    (hY2 : ∀ j, x.length / nc * nc ≤ j → y.getD j 0 = x.getD j 0) :
    ∃ st, (List.range ((encode_items x).length / (nc * S * ITEM_SIZE) + 1)).foldlM
        (chunk_body nc C a b S ((encode_items x).length / (nc * S * ITEM_SIZE)))
        { file := encode_items x, pos := 0,
          buffer := List.replicate (nc * S + nc * C) 0,
          input_ringbuf := List.replicate (nc * C) 0, irb_idx := 0, trace := [] } = .ok st ∧
      st.file = encode_items y ∧ aligned st.trace = true := by
  have hbspos : 0 < nc * S := Nat.mul_pos (by omega) (by omega)
  have hnb : (encode_items x).length / (nc * S * ITEM_SIZE) = x.length / (nc * S) := by
    rw [encode_items_length, ITEM_SIZE, Nat.mul_comm 2 x.length,
      Nat.mul_div_mul_right _ _ (by omega : 0 < 2)]
  have hnbl : x.length / (nc * S) * (nc * S) ≤ x.length := Nat.div_mul_le_self _ _
  have hinit : ChunkInv nc C S x y 0
      { file := encode_items x, pos := 0,
        buffer := List.replicate (nc * S + nc * C) 0,
        input_ringbuf := List.replicate (nc * C) 0, irb_idx := 0, trace := [] } := by
    refine ⟨by simp, by simp, by simp, ?_, ⟨by simp, ?_⟩, by simp, rfl⟩
    · intro j hj
      show (List.replicate (nc * S + nc * C) (0 : Int)).getD (nc * S + j) 0 = _
      unfold pad_get
      rw [if_pos (by omega)]
      simp only [List.getD_eq_getElem?_getD, List.getElem?_replicate]
      split_ifs <;> rfl
    · intro u c _ hu _
      show (List.replicate (nc * C) (0 : Int)).getD (u % C * nc + c) 0 = _
      unfold past
      rw [if_neg (by omega)]
      simp only [List.getD_eq_getElem?_getD, List.getElem?_replicate]
      split_ifs <;> rfl
  obtain ⟨s1, hs1, hp1⟩ := foldlM_range_inv
    (chunk_body nc C a b S (x.length / (nc * S)))
    (fun i st => ChunkInv nc C S x y i st) (x.length / (nc * S)) _ hinit
    (by
      intro i st hi hP
      have hle : (i + 1) * (nc * S) ≤ x.length :=
        le_trans (Nat.mul_le_mul_right _ (Nat.succ_le_of_lt hi)) hnbl
      have hle0 : i * (nc * S) ≤ x.length :=
        le_trans (Nat.mul_le_mul_right _ (Nat.le_succ i)) hle
      obtain ⟨st', h1, _, _, h3⟩ := chunk_body_ok nc C S a b x y i (x.length / (nc * S)) st
        hnc hS hC hx hlen hY hY2 hle0 (fun _ => hle) hP
      exact ⟨st', h1, h3 hle⟩)
  obtain ⟨s2, hs2, hf2, htr2, _⟩ := chunk_body_ok nc C S a b x y (x.length / (nc * S))
    (x.length / (nc * S)) s1 hnc hS hC hx hlen hY hY2 hnbl (fun h => absurd h (lt_irrefl _)) hp1
  refine ⟨s2, ?_, ?_, htr2⟩
  · rw [hnb, List.range_succ, List.foldlM_append, hs1]
    simp only [List.foldlM_cons, List.foldlM_nil]
    show (chunk_body nc C a b S (x.length / (nc * S)) s1 (x.length / (nc * S)) >>=
      fun s => pure s) = Except.ok s2
    rw [hs2]; rfl
  · rw [hf2]
    have hrem : x.length - x.length / (nc * S) * (nc * S) < nc * S := by
      have h1 := Nat.mod_lt x.length hbspos
      have h2 := Nat.div_add_mod x.length (nc * S)
      rw [Nat.mul_comm] at h2
      omega
    have hn : x.length / (nc * S) * (nc * S)
        + min (nc * S) (x.length - x.length / (nc * S) * (nc * S)) = x.length := by
      omega
    rw [hn, List.take_of_length_le (by omega), List.drop_of_length_le (by omega),
      List.append_nil]

/-! ## The reference output satisfies the recursion -/
/-! ## The reference output satisfies the recursion -/

theorem ref_vectors_length (nc C : Nat) (a b : List FP) (x : List Int) (t : Nat) :
    (ref_vectors nc C a b x t).length = t * nc := by
  induction t with
  | zero => simp [ref_vectors]
  | succ t ih =>
    simp only [ref_vectors, List.length_append, List.length_map, List.length_range, ih]
    rw [Nat.add_mul, Nat.one_mul]

theorem ref_vectors_stable (nc C : Nat) (a b : List FP) (x : List Int) (t d j : Nat)
    (hj : j < t * nc) :
    (ref_vectors nc C a b x (t + d)).getD j 0 = (ref_vectors nc C a b x t).getD j 0 := by
  induction d with
  | zero => rfl
  | succ d ih =>
    rw [← Nat.add_assoc]
    simp only [ref_vectors]
    rw [List.getD_append _ _ _ _ (by
      rw [ref_vectors_length, Nat.add_mul]; omega)]
    exact ih

theorem past_congr (nc : Nat) (y y' : List Int) (t k c : Nat) (hk : 1 ≤ k) (hc : c < nc)
    (h : ∀ j, j < t * nc → y.getD j 0 = y'.getD j 0) :
    past nc y t k c = past nc y' t k c := by
  unfold past
  split_ifs with hkt
  · apply h
    obtain ⟨d, rfl⟩ := Nat.exists_eq_add_of_le hkt
    obtain ⟨e, rfl⟩ := Nat.exists_eq_add_of_le hk
    rw [Nat.add_sub_cancel_left, Nat.add_mul, Nat.add_mul, Nat.one_mul]
    omega
  · rfl

theorem direct_form_congr (nc C : Nat) (a b : List FP) (x y y' : List Int) (t c : Nat)
    (hc : c < nc) (h : ∀ j, j < t * nc → y.getD j 0 = y'.getD j 0) :
    direct_form nc C a b x y t c = direct_form nc C a b x y' t c := by
  unfold direct_form direct_form_acc
  congr 3
  apply foldl_congr_mem
  intro acc k hk
  rw [List.mem_range'_1] at hk
  unfold direct_form_step
  rw [past_congr nc y y' t k c hk.1 hc h]

theorem reference_length (nc C : Nat) (a b : List FP) (x : List Int) :
    (reference nc C a b x).length = x.length := by
  unfold reference
  rw [List.length_append, ref_vectors_length, List.length_drop]
  have := Nat.div_mul_le_self x.length nc
  omega

theorem reference_stable (nc C : Nat) (a b : List FP) (x : List Int) (t j : Nat)
    (ht : t ≤ x.length / nc) (hj : j < t * nc) :
    (reference nc C a b x).getD j 0 = (ref_vectors nc C a b x t).getD j 0 := by
  obtain ⟨d, hd⟩ := Nat.exists_eq_add_of_le ht
  unfold reference
  rw [List.getD_append _ _ _ _ (by
    rw [ref_vectors_length]
    exact lt_of_lt_of_le hj (Nat.mul_le_mul_right _ ht)), hd]
  exact ref_vectors_stable nc C a b x t d j hj

theorem reference_full (nc C : Nat) (a b : List FP) (x : List Int) (t c : Nat)
    (ht : t < x.length / nc) (hc : c < nc) :
    (reference nc C a b x).getD (t * nc + c) 0
      = direct_form nc C a b x (reference nc C a b x) t c := by
  rw [reference_stable nc C a b x (t + 1) (t * nc + c) ht (by rw [Nat.add_mul]; omega)]
  simp only [ref_vectors]
  rw [List.getD_append_right _ _ _ _ (by rw [ref_vectors_length]; omega), ref_vectors_length,
    Nat.add_sub_cancel_left]
  have hmap : ((List.range nc).map
      (direct_form nc C a b x (ref_vectors nc C a b x t) t)).getD c 0
      = direct_form nc C a b x (ref_vectors nc C a b x t) t c := by
    simp [List.getD_eq_getElem?_getD, List.getElem?_map, List.getElem?_range hc]
  rw [hmap]
  apply direct_form_congr nc C a b x _ _ t c hc
  intro j hj
  exact (reference_stable nc C a b x t j (le_of_lt ht) hj).symm

theorem reference_tail (nc C : Nat) (a b : List FP) (x : List Int) (j : Nat)
    (hj : x.length / nc * nc ≤ j) :
    (reference nc C a b x).getD j 0 = x.getD j 0 := by
  unfold reference
  rw [List.getD_append_right _ _ _ _ (by rw [ref_vectors_length]; exact hj),
    ref_vectors_length]
  simp only [List.getD_eq_getElem?_getD, List.getElem?_drop]
  congr 2
  omega

theorem ref_vectors_isInt16 (nc C : Nat) (a b : List FP) (x : List Int) (t : Nat) :
    ∀ v ∈ ref_vectors nc C a b x t, isInt16 v := by
  induction t with
  | zero => intro v hv; simp [ref_vectors] at hv
  | succ t ih =>
    intro v hv
    simp only [ref_vectors, List.mem_append, List.mem_map] at hv
    rcases hv with hv | ⟨c, _, rfl⟩
    · exact ih v hv
    · exact to_int16_clamp_isInt16 _

theorem reference_isInt16 (nc C : Nat) (a b : List FP) (x : List Int)
    (hx : ∀ v ∈ x, isInt16 v) : ∀ v ∈ reference nc C a b x, isInt16 v := by
  intro v hv
  unfold reference at hv
  rcases List.mem_append.mp hv with h | h
  · exact ref_vectors_isInt16 nc C a b x _ v h
  · exact hx v (List.mem_of_mem_drop h)

/-- A stream of 16-bit samples shorter than one chunk is read by the one
iteration of the chunk loop: `filter_file` returns, the file holds the encoded
output `y` of the direct form, and the chunk is written where it was read. -/
theorem filter_file_single (nc C S : Nat) (a b : List FP) (x y : List Int)
    (hnc : 1 ≤ nc) (hS : 1 ≤ S) (hC : 1 ≤ C)
    (hx : ∀ v ∈ x, isInt16 v) (hlen : y.length = x.length)
    (hY : ∀ t c, t < x.length / nc → c < nc →
      y.getD (t * nc + c) 0 = direct_form nc C a b x y t c)
    (hY2 : ∀ j, x.length / nc * nc ≤ j → y.getD j 0 = x.getD j 0)
    (hone : x.length < nc * S) :
    ∃ st, filter_file (encode_items x) nc C a b S = .ok st ∧ st.file = encode_items y ∧
      aligned st.trace = true := by
  obtain ⟨st, h1, h2, h3⟩ := flushed_run_refines nc C S a b x y hnc hS hC hx hlen hY hY2
  have hnb : (encode_items x).length / (nc * S * ITEM_SIZE) = 0 := by
    rw [encode_items_length, ITEM_SIZE]
    apply Nat.div_eq_of_lt
    omega
  refine ⟨st, ?_, h2, h3⟩
  rw [hnb] at h1
  unfold filter_file
  simp only [hnb]
  have hr1 : List.range (0 + 1) = [0] := rfl
  rw [hr1] at h1 ⊢
  simp only [List.foldlM_cons, List.foldlM_nil] at h1 ⊢
  unfold chunk_step
  rw [if_neg (by show ¬ after_write [] = true; decide)]
  exact h1

/-- The engine refines the direct-form recursion: on a stream of 16-bit samples
shorter than one chunk `filter_file` returns, and leaves the encoded reference
output in the file. -/
theorem filtered_eq_reference (nc C S : Nat) (a b : List FP) (x : List Int)
    (hnc : 1 ≤ nc) (hS : 1 ≤ S) (hC : 1 ≤ C) (hx : ∀ v ∈ x, isInt16 v)
    (hone : x.length < nc * S) :
    filtered (encode_items x) nc C a b S = .ok (encode_items (reference nc C a b x)) := by
  obtain ⟨st, h1, h2, _⟩ := filter_file_single nc C S a b x (reference nc C a b x) hnc hS hC hx
    (reference_length nc C a b x) (reference_full nc C a b x) (reference_tail nc C a b x) hone
  unfold filtered
  rw [h1, ← h2]
  rfl

/-- A stream of fewer than `nc` whole samples is left as it is. -/
theorem short_stream_unchanged (nc C S : Nat) (a b : List FP) (x : List Int)
    (hnc : 1 ≤ nc) (hS : 1 ≤ S) (hC : 1 ≤ C) (hx : ∀ v ∈ x, isInt16 v)
    (hshort : x.length < nc) :
    filtered (encode_items x) nc C a b S = .ok (encode_items x) := by
  have href : reference nc C a b x = x := by
    unfold reference
    rw [Nat.div_eq_of_lt hshort]
    simp [ref_vectors]
  have hone : x.length < nc * S := lt_of_lt_of_le hshort (Nat.le_mul_of_pos_right nc hS)
  rw [filtered_eq_reference nc C S a b x hnc hS hC hx hone, href]

theorem getD_isInt16 (x : List Int) (hx : ∀ v ∈ x, isInt16 v) (j : Nat) :
    isInt16 (x.getD j 0) := by
  by_cases hj : j < x.length
  · rw [List.getD_eq_getElem _ _ hj]
    exact hx _ (List.getElem_mem _)
  · rw [List.getD_eq_default _ _ (Nat.le_of_not_lt hj)]
    unfold isInt16 INT16_MIN INT16_MAX
    omega

/-! ## The library that flushes the stream before each read -/

theorem foldlM_mapError {σ ε ε' : Type} (g : ε → ε') (f : σ → Nat → Except ε σ)
    (f' : σ → Nat → Except ε' σ) (h : ∀ s i, (f s i).mapError g = f' s i)
    (l : List Nat) (s : σ) : (l.foldlM f s).mapError g = l.foldlM f' s := by
  induction l generalizing s with
  | nil => rfl
  | cons i rest ih =>
    simp only [List.foldlM_cons]
    rw [← h s i]
    cases f s i with
    | error e => rfl
    | ok s' => exact ih s'

theorem stream_at_sound (file : List Nat) (st : State) (i : Nat) :
    stream_at (Env.sound file) st i = (st.file, st.pos) := by
  unfold stream_at Env.sound
  simp only [ite_self]

theorem fread_bytes_none (file : List Nat) (pos count : Nat) :
    fread_bytes none file pos count = (file.drop pos).take (ITEM_SIZE * count) := by
  unfold fread_bytes
  simp only [Option.getD_none, List.take_take, min_self]

theorem fread_env_none (file : List Nat) (pos count : Nat) :
    fread_env none file pos count = fread file pos count := by
  unfold fread_env fread
  rw [fread_bytes_none]

theorem chunk_step_env_sound (file : List Nat) (nc C : Nat) (a b : List FP) (S nb : Nat)
    (st : State) (i : Nat) :
    (chunk_step_env (Env.sound file) nc C a b S nb st i).mapError Prod.fst
      = chunk_body nc C a b S nb st i := by
  have hl : (Env.sound file).fread_limit i = none := rfl
  have hs : (Env.sound file).fseeko_cur_fails i = false := rfl
  have hw : (Env.sound file).fwrite_limit i = none := rfl
  unfold chunk_step_env chunk_body
  simp only [stream_at_sound, hl, hs, hw, fread_env_none, fread_bytes_none, Option.getD_none,
    List.take_take, min_self, Bool.false_eq_true, if_false]
  split_ifs <;> first | rfl | (split <;> rfl)

/-- With the library that does not fail and serves each read as on a flushed
stream, on a file of fewer than `2^64` bytes, the engine is the chunk loop as
written. -/
theorem filter_file_env_sound (file : List Nat) (nc C : Nat) (a b : List FP) (S : Nat)
    (hlen : file.length < 2 ^ 64) :
    (filter_file_env (Env.sound file) file nc C a b S).mapError Prod.fst
      = (List.range (file.length / (nc * S * ITEM_SIZE) + 1)).foldlM
          (chunk_body nc C a b S (file.length / (nc * S * ITEM_SIZE)))
          { file := file, pos := 0, buffer := List.replicate (nc * S + nc * C) 0,
            input_ringbuf := List.replicate (nc * C) 0, irb_idx := 0, trace := [] } := by
  have hbc : (((file.length : Nat) : Int) % 2 ^ 64).toNat = file.length := by
    have h : ((file.length : Nat) : Int) % 2 ^ 64 = ((file.length % 2 ^ 64 : Nat) : Int) := by
      push_cast; rfl
    rw [h, Int.toNat_ofNat, Nat.mod_eq_of_lt hlen]
  unfold filter_file_env
  have hs1 : (Env.sound file).ftello = (file.length : Int) := rfl
  have hs2 : (Env.sound file).fseeko_set = 0 := rfl
  simp only [hs1, hs2, hbc, Nat.not_lt_zero, lt_irrefl, if_false]
  exact foldlM_mapError Prod.fst _ _ (fun s i => chunk_step_env_sound file nc C a b S _ s i) _ _

theorem mapError_eq_ok {ε ε' σ : Type} (g : ε → ε') (r : Except ε σ) (s : σ)
    (h : r.mapError g = .ok s) : r = .ok s := by
  cases r with
  | error e => cases h
  | ok t =>
    have ht : t = s := by
      simp only [Except.mapError] at h
      injection h
    rw [ht]

/-- On a stream of 16-bit samples of fewer than `2^64` bytes, with the library
that serves each read as on a flushed stream, `filter_file` returns and leaves
the encoded output of the direct form in the file, for every number of
chunks. -/
theorem flushed_eq_reference (nc C S : Nat) (a b : List FP) (x : List Int)
    (hnc : 1 ≤ nc) (hS : 1 ≤ S) (hC : 1 ≤ C) (hx : ∀ v ∈ x, isInt16 v)
    (hlen : (encode_items x).length < 2 ^ 64) :
    (filter_file_env (Env.sound (encode_items x)) (encode_items x) nc C a b S).map State.file
      = .ok (encode_items (reference nc C a b x)) := by
  obtain ⟨st, h1, h2, _⟩ := flushed_run_refines nc C S a b x (reference nc C a b x) hnc hS hC hx
    (reference_length nc C a b x) (reference_full nc C a b x) (reference_tail nc C a b x)
  have h := filter_file_env_sound (encode_items x) nc C a b S hlen
  rw [h1] at h
  rw [mapError_eq_ok _ _ _ h, ← h2]
  rfl

/-! ## Consequences for the claims -/

/-- C1 (counterexample): one channel, one coefficient `a[0] = b[0] = 1 + 2^-23`
(a `float`), the one sample 5.  The formula of the claim gives
`sat16(trunc(b[0]·5 / a[0])) = 5`; the code rounds the product `b[0]·5` to the
`float` `5 + 2^-21`, the quotient is below 5, and the sample written is 4. -/
theorem C1_exact_formula_counterexample :
    filtered (encode_items [5]) 1 1 [.fin (8388609 / 8388608)] [.fin (8388609 / 8388608)] 1000
      = .ok (encode_items [4]) ∧
    fmul (.fin (8388609 / 8388608)) 5 = .fin (5 + 1 / 2097152) ∧
    sat16 (trunc (exact_form 1 1 [8388609 / 8388608] [8388609 / 8388608] [5] [4] 0 0)) = 5 := by
  refine ⟨by decide!, by decide!, ?_⟩
  have h : exact_form 1 1 [8388609 / 8388608] [8388609 / 8388608] [5] [4] 0 0 = 5 := by
    unfold exact_form past
    simp
  rw [h]
  decide!

/-- C1 (amended): for at least one channel, chunk size and coefficient, and a
stream `x` of `T` whole sample vectors, let `y` be the samples with
`y[t][c] = sat16(trunc(v))` at every time `t` and channel `c`, where `v` is the
value `acc / a[0]` of the direct form evaluated in floating point as the code
does: `acc` starts as the `float` product `b[0]·x[t][c]`, then for
`k = 1, ..., C-1` the `float` product `b[k]·x[t-k][c]` is added and the `float`
product `a[k]·y[t-k][c]` is subtracted, in `double`, and the quotient is a
`double`; both `x` and `y` are zero at negative times; an infinite `v`
saturates, a zero or a NaN gives 0.  When `T` is below the chunk size, so that
the file is read in one chunk, `filter_file` returns and leaves `y` in the file.
With a library that serves each read as on a flushed stream, `filter_file`
returns and leaves `y` in the file for every number of chunks. -/
theorem C1_direct_form_float (num_channels samples_per_chunk C T : Nat)
    (a b : List FP) (x : List Int)
    (hnc : 1 ≤ num_channels) (hS : 1 ≤ samples_per_chunk) (hC : 1 ≤ C)
    (hx : ∀ v ∈ x, isInt16 v) (hT : x.length = T * num_channels) :
    ∃ y : List Int,
      y.length = x.length ∧ (∀ v ∈ y, isInt16 v) ∧
      (∀ t c, t < T → c < num_channels →
        y.getD (t * num_channels + c) 0 =
          match ddiv (direct_form_acc num_channels C a b x y t c) (a.getD 0 0) with
          | .fin v => sat16 (trunc v)
          | .nzero => 0
          | .inf negative => if negative then -32768 else 32767
          | .nan => 0) ∧
      (T < samples_per_chunk →
        filtered (encode_items x) num_channels C a b samples_per_chunk
          = .ok (encode_items y)) ∧
      ((encode_items x).length < 2 ^ 64 →
        (filter_file_env (Env.sound (encode_items x)) (encode_items x) num_channels C a b
          samples_per_chunk).map State.file = .ok (encode_items y)) := by
  refine ⟨reference num_channels C a b x, reference_length num_channels C a b x,
    reference_isInt16 num_channels C a b x hx, ?_, ?_, ?_⟩
  · intro t c ht hc
    have hdiv : x.length / num_channels = T := by
      rw [hT, Nat.mul_div_cancel _ (by omega : 0 < num_channels)]
    rw [reference_full num_channels C a b x t c (by rw [hdiv]; exact ht) hc]
    exact to_int16_clamp_cases _
  · intro hone
    have hlt : x.length < num_channels * samples_per_chunk := by
      rw [hT, Nat.mul_comm]
      exact Nat.mul_lt_mul_of_pos_left hone (by omega)
    exact filtered_eq_reference num_channels C samples_per_chunk a b x hnc hS hC hx hlt
  · intro hlen
    exact flushed_eq_reference num_channels C samples_per_chunk a b x hnc hS hC hx hlen

/-- Witness of C1 (amended): two channels, two coefficients, three sample
vectors, chunks of four. -/
theorem C1_direct_form_float_witness :
    ∃ y : List Int,
      y.length = [1, 10, 2, 20, 3, (30 : Int)].length ∧ (∀ v ∈ y, isInt16 v) ∧
      (∀ t c, t < 3 → c < 2 →
        y.getD (t * 2 + c) 0 =
          match ddiv (direct_form_acc 2 2 [1, -1] [1, 1] [1, 10, 2, 20, 3, 30] y t c)
              (([1, -1] : List FP).getD 0 0) with
          | .fin v => sat16 (trunc v)
          | .nzero => 0
          | .inf negative => if negative then -32768 else 32767
          | .nan => 0) ∧
      (3 < 4 →
        filtered (encode_items [1, 10, 2, 20, 3, 30]) 2 2 [1, -1] [1, 1] 4
          = .ok (encode_items y)) ∧
      ((encode_items [1, 10, 2, 20, 3, 30]).length < 2 ^ 64 →
        (filter_file_env (Env.sound (encode_items [1, 10, 2, 20, 3, 30]))
          (encode_items [1, 10, 2, 20, 3, 30]) 2 2 [1, -1] [1, 1] 4).map State.file
          = .ok (encode_items y)) :=
  C1_direct_form_float 2 4 2 3 [1, -1] [1, 1] [1, 10, 2, 20, 3, 30] (by decide) (by decide)
    (by decide) (by decide) rfl

/-- C2 (evaluation at the failing input): one channel, `a=[1]`, `b=[2]`, the
five bytes `[5,0,7,0,9]`.  With 1000 samples per chunk the file becomes
`[5,10,0,14,0]`.  With one sample per chunk the second iteration calls `fread`
directly after `fwrite`, which is undefined; on a library that serves that read
as if the stream had been flushed, the file becomes `[10,0,14,0,9]`. -/
theorem C2_chunk_sizes_differ :
    filtered [5, 0, 7, 0, 9] 1 1 [1] [2] 1000 = .ok [5, 10, 0, 14, 0] ∧
    filtered [5, 0, 7, 0, 9] 1 1 [1] [2] 1 = .error .undefined_read ∧
    (filter_file_env (Env.sound [5, 0, 7, 0, 9]) [5, 0, 7, 0, 9] 1 1 [1] [2] 1).map State.file
      = .ok [10, 0, 14, 0, 9] := by
  decide!

/-- C3 (evaluation at the failing input): one channel and the five bytes
`[3,0,4,0,6]` (the samples 3 and 4 and a trailing odd byte), with each of the
two identity coefficient sets: the file becomes `[3,3,0,4,0]`. -/
theorem C3_identity_changes_odd_stream :
    filtered [3, 0, 4, 0, 6] 1 1 [1] [1] 1000 = .ok [3, 3, 0, 4, 0] ∧
    filtered [3, 0, 4, 0, 6] 1 2 [1, 0] [1, 0] 1000 = .ok [3, 3, 0, 4, 0] := by
  decide!

/-- C4 (evaluation at the failing input): one channel, `a=[1,-1]`, `b=[1,0]`,
the seven bytes `[1,0,2,0,3,0,9]` (the samples 1, 2, 3 and a trailing odd byte).
With 1000 samples per chunk the running sums 1, 3, 6 are written from offset 1
on: the file becomes `[1,1,0,3,0,6,0]`.  With two samples per chunk, on a
library that serves the read after the write as if the stream had been flushed,
the file becomes `[1,0,3,0,3,6,0]`.  The running sums would be
`[1,0,3,0,6,0,9]`. -/
theorem C4_running_sums_misplaced :
    filtered [1, 0, 2, 0, 3, 0, 9] 1 2 [1, -1] [1, 0] 1000 = .ok [1, 1, 0, 3, 0, 6, 0] ∧
    (filter_file_env (Env.sound [1, 0, 2, 0, 3, 0, 9]) [1, 0, 2, 0, 3, 0, 9] 1 2 [1, -1] [1, 0]
        2).map State.file
      = .ok [1, 0, 3, 0, 3, 6, 0] ∧
    encode_items [1, 3, 6] ++ [9] = [1, 0, 3, 0, 6, 0, 9] := by
  decide!

/-- C6 (evaluation at the failing input): one channel, `a=[1]`, `b=[2]`, the
five bytes `[5,0,7,0,9]` (the samples 5 and 7 and a trailing odd byte).  `fread`
consumes all five bytes and returns two items, the rewind by four bytes lands on
offset 1, and the two outputs 10 and 14 are written there: the trailing byte 9
becomes 0. -/
theorem C6_trailing_odd_byte_overwritten :
    filtered [5, 0, 7, 0, 9] 1 1 [1] [2] 1000 = .ok [5, 10, 0, 14, 0] := by
  decide!

/-- C7 (evaluation at the failing input): two channels and the three bytes
`[1,0,2]`, which hold no full sample vector.  `filter_file` returns, and the
file content is `[1,1,0]`, not `[1,0,2]`. -/
theorem C7_no_full_vector_file_modified :
    filtered [1, 0, 2] 2 2 [2, 1] [3, 1] 1000 = .ok [1, 1, 0] := by
  decide!

/-- C8 (evaluation at the failing input): one channel and the five bytes
`[3,0,4,0,6]`.  The only iteration reads two items at offset 0 and writes two
items at offset 1; the file keeps its length of five bytes. -/
theorem C8_write_offset_differs :
    (filter_file [3, 0, 4, 0, 6] 1 1 [1] [1] 1000).map State.trace
      = .ok [.fread 0 2, .fwrite 1 2] ∧
    (filter_file [3, 0, 4, 0, 6] 1 1 [1] [1] 1000).map (fun st => st.file.length)
      = .ok 5 := by
  decide!

/-- C9 (evaluation at the failing inputs): with two `-a` coefficients and one
`-b` coefficient `main` does not end with the usage text: unless the channel
count parses to zero it goes on to open the file and to call `filter_file` with
two coefficients.  With one `-a` and two `-b` coefficients it reads `argv[argc]`
while parsing the `-b` group, before the comparison of the two counts. -/
theorem C9_more_a_than_b_runs (strtoumax : String → Nat) (strtof : String → FP) :
    main strtoumax strtof ["quickfilt", "f", "1", "-a", "1", "0", "-b", "1"]
      = (if strtoumax "1" % 2 ^ 32 = 0 then Outcome.usage_exit
         else Outcome.run "f" (strtoumax "1" % 2 ^ 32) 2 [strtof "1", strtof "0"]
           [strtof "-b"] 1000) ∧
    main strtoumax strtof ["quickfilt", "f", "1", "-a", "1", "-b", "1", "2"]
      = (if strtoumax "1" % 2 ^ 32 = 0 then Outcome.usage_exit else Outcome.undefined) :=
  ⟨rfl, rfl⟩

/-- C10 (evaluation at the failing input): two channels, the identity filter,
and the two streams of five bytes `[0,0,7,0,9]` and `[0,1,7,0,9]`: one sample
vector and a trailing odd byte.  The samples of channel 1 agree (both are 7),
those of channel 0 are 0 and 256.  The outputs are written from offset 1 on, so
that the high byte of the channel-0 output becomes the low byte of the channel-1
sample of the file: channel 1 holds 1792 after the one run and 1793 after the
other. -/
theorem C10_channel_mixed_by_shift :
    (decode_items [0, 0, 7, 0, 9]).getD 1 0 = (decode_items [0, 1, 7, 0, 9]).getD 1 0 ∧
    filtered [0, 0, 7, 0, 9] 2 1 [1] [1] 1000 = .ok [0, 0, 0, 7, 0] ∧
    filtered [0, 1, 7, 0, 9] 2 1 [1] [1] 1000 = .ok [0, 0, 1, 7, 0] ∧
    (decode_items [0, 0, 0, 7, 0]).getD 1 0 = 1792 ∧
    (decode_items [0, 0, 1, 7, 0]).getD 1 0 = 1793 := by
  decide!

/-! ## The named parts are the parts of the engine -/

theorem coeff_step_indices (nc C : Nat) (a b : List FP) (ring buffer : List Int)
    (irb c loc : Nat) (acc : FP) (k : Nat) :
    coeff_step nc C a b ring buffer irb c loc acc k
      = dsub (dadd acc (fmul (b.getD k 0) (ring.getD (ring_index C irb k nc c) 0)))
          (fmul (a.getD k 0) (buffer.getD (feedback_index loc k nc) 0)) := rfl

theorem chan_step_buff_loc (nc C : Nat) (a b : List FP) (hist s : Nat) (ring : List Int)
    (irb : Nat) (buffer : List Int) (c : Nat) :
    chan_step nc C a b hist s ring irb buffer c
      = buffer.set (buff_loc hist s nc c)
          (to_int16 (clamp (accumulate nc C a b ring buffer irb c (buff_loc hist s nc c)))) :=
  rfl

theorem filter_file_eq_run_chunks (file : List Nat) (nc C : Nat) (a b : List FP) (S : Nat) :
    filter_file file nc C a b S
      = run_chunks file nc C a b S (file.length / (nc * S * ITEM_SIZE) + 1) := rfl

theorem filter_file_env_eq_run (env : Env) (file : List Nat) (nc C : Nat) (a b : List FP)
    (S : Nat) (hseek : ¬ env.fseeko_set < 0) :
    filter_file_env env file nc C a b S
      = run_chunks_env env file nc C a b S
          ((env.ftello % 2 ^ 64).toNat / (nc * S * ITEM_SIZE) + 1) := by
  unfold filter_file_env run_chunks_env
  simp only [Nat.not_lt_zero, if_false, if_neg hseek]

/-! ## Truncation, argument parsing, leftpad -/

theorem trunc_isInt16 (q : ℚ) (h1 : -32768 ≤ q) (h2 : q ≤ 32767) : isInt16 (trunc q) := by
  unfold isInt16 INT16_MIN INT16_MAX trunc
  split_ifs with h0
  · constructor
    · have : (0 : Int) ≤ ⌊q⌋ := Int.floor_nonneg.mpr h0
      omega
    · have : ((⌊q⌋ : Int) : ℚ) ≤ 32767 := le_trans (Int.floor_le q) h2
      exact_mod_cast this
  · constructor
    · have : ((-32768 : Int) : ℚ) ≤ ((⌈q⌉ : Int) : ℚ) := by
        have := Int.le_ceil q
        push_cast
        linarith
      exact_mod_cast this
    · have : ⌈q⌉ ≤ 0 := Int.ceil_le.mpr (by push_cast; linarith [lt_of_not_le h0])
      omega

/-- C15: when the accumulator divided by `a[0]` is a finite number `v` in
`[-32768, 32767]`, the sample that the channel loop stores is `v` truncated
toward zero (the floor of a non-negative value, the ceiling of a negative one);
it is `v` itself when `v` is an integer. -/
theorem C15_clamp_then_truncate (num_chan num_coeffs : Nat) (a_coeffs b_coeffs : List FP)
    (hist_size samp_idx irb_idx chan_idx : Nat) (input_ringbuf buffer : List Int) (v : ℚ)
    (hloc : hist_size + samp_idx * num_chan + chan_idx < buffer.length)
    (hacc : accumulate num_chan num_coeffs a_coeffs b_coeffs input_ringbuf buffer
      irb_idx chan_idx (hist_size + samp_idx * num_chan + chan_idx) = .fin v)
    (hlo : -32768 ≤ v) (hhi : v ≤ 32767) :
    (chan_step num_chan num_coeffs a_coeffs b_coeffs hist_size samp_idx
        input_ringbuf irb_idx buffer chan_idx).getD
          (hist_size + samp_idx * num_chan + chan_idx) 0
      = trunc v ∧
    ∀ n : Int, v = (n : ℚ) →
      (chan_step num_chan num_coeffs a_coeffs b_coeffs hist_size samp_idx
        input_ringbuf irb_idx buffer chan_idx).getD
          (hist_size + samp_idx * num_chan + chan_idx) 0 = n := by
  have hst : (chan_step num_chan num_coeffs a_coeffs b_coeffs hist_size samp_idx
      input_ringbuf irb_idx buffer chan_idx).getD
        (hist_size + samp_idx * num_chan + chan_idx) 0
      = trunc v := by
    unfold chan_step
    simp only
    rw [getD_set_eq, if_pos ⟨rfl, hloc⟩, hacc, to_int16_clamp_fin,
      sat16_of_isInt16 _ (trunc_isInt16 _ hlo hhi)]
  refine ⟨hst, ?_⟩
  intro n hn
  rw [hst, hn, trunc_intCast]

/-- Witness of C15: with `a=[2]`, `b=[1]` the input 3 gives the accumulator 3/2
and the stored sample 1; the input -3 gives -3/2 and the stored sample -1 (the
floor of -3/2 is -2). -/
theorem C15_clamp_then_truncate_witness :
    accumulate 1 1 [2] [1] [3] [0, 3] 0 0 1 = .fin (3 / 2) ∧
    (chan_step 1 1 [2] [1] 1 0 [3] 0 [0, 3] 0).getD 1 0 = 1 ∧
    accumulate 1 1 [2] [1] [-3] [0, -3] 0 0 1 = .fin (-3 / 2) ∧
    (chan_step 1 1 [2] [1] 1 0 [-3] 0 [0, -3] 0).getD 1 0 = -1 ∧
    ⌊((-3 : ℚ) / 2)⌋ = -2 :=
  ⟨by decide!,
   ((C15_clamp_then_truncate 1 1 [2] [1] 1 0 0 0 [3] [0, 3] (3 / 2) (by decide) (by decide!)
      (by norm_num) (by norm_num)).1).trans (by decide!),
   by decide!,
   ((C15_clamp_then_truncate 1 1 [2] [1] 1 0 0 0 [-3] [0, -3] (-3 / 2) (by decide) (by decide!)
      (by norm_num) (by norm_num)).1).trans (by decide!),
   by decide!⟩

/-- C16 (evaluation at the failing inputs): six arguments with an `-a` group of
two coefficients and no `-b` argument, and seven with three coefficients.  The
loop of lines 133-139 runs to `argc`, and line 155 hands `argv[argc]`, the null
pointer that ends the array, to `strncmp`: unless the channel count parses to
zero, `main` reads the argument at index `argc` and does not reach the usage
text of line 163. -/
theorem C16_missing_b_reads_argv_argc (strtoumax : String → Nat) (strtof : String → FP) :
    main strtoumax strtof ["quickfilt", "f", "1", "-a", "1", "2"]
      = (if strtoumax "1" % 2 ^ 32 = 0 then Outcome.usage_exit else Outcome.undefined) ∧
    main strtoumax strtof ["quickfilt", "f", "2", "-a", "1", "2", "3"]
      = (if strtoumax "2" % 2 ^ 32 = 0 then Outcome.usage_exit else Outcome.undefined) :=
  ⟨rfl, rfl⟩

theorem store_odd_byte_length (buffer : List Int) (idx : Nat) (byte : Option Nat) :
    (store_odd_byte buffer idx byte).length = buffer.length := by
  cases byte with
  | none => rfl
  | some b => simp [store_odd_byte]

theorem store_odd_byte_take (buffer : List Int) (idx k : Nat) (byte : Option Nat)
    (h : k ≤ idx) : (store_odd_byte buffer idx byte).take k = buffer.take k := by
  cases byte with
  | none => rfl
  | some b =>
    simp only [store_odd_byte]
    rw [List.set_take]
    exact List.set_eq_of_length_le (by rw [List.length_take]; omega)

theorem store_odd_byte_getD (buffer : List Int) (idx j : Nat) (byte : Option Nat)
    (h : j ≠ idx) : (store_odd_byte buffer idx byte).getD j 0 = buffer.getD j 0 := by
  cases byte with
  | none => rfl
  | some b =>
    simp only [store_odd_byte]
    rw [getD_set_eq, if_neg (fun hh => h hh.1.symm)]

/-- C20 (counterexample): with one channel and two coefficients the leftpad has
`hist_size = 2` items, not `1 * (2 - 1) = 1`; the sample 7 read by the first
iteration lands at buffer index 2, and index 1 still holds leftpad. -/
theorem C20_leftpad_counterexample :
    hist_size 1 2 ≠ 1 * (2 - 1) ∧
    (chunk_loaded 1 2 1
      { file := [7, 0], pos := 0, buffer := [0, 0, 0], input_ringbuf := [0, 0],
        irb_idx := 0, trace := [] }).1 = [0, 0, 7] := by
  decide

/-- C20 (amended): the leftpad of the chunk buffer holds exactly
`hist_size = num_channels * C` items, copied from the last `num_channels * C`
items of the buffer of the previous iteration, and the items read by `fread`
start immediately after those `num_channels * C` items; the rest of the buffer
keeps its length. -/
theorem C20_leftpad_amended (num_chan num_coeffs samples_per_buffer : Nat) (st : State)
    (hlen : st.buffer.length = num_chan * samples_per_buffer + num_chan * num_coeffs) :
    hist_size num_chan num_coeffs = num_chan * num_coeffs ∧
    (chunk_loaded num_chan num_coeffs samples_per_buffer st).1.take (num_chan * num_coeffs)
      = st.buffer.drop (num_chan * samples_per_buffer) ∧
    ((chunk_loaded num_chan num_coeffs samples_per_buffer st).1.drop
        (num_chan * num_coeffs)).take
        (fread st.file st.pos (num_chan * samples_per_buffer)).1.length
      = (fread st.file st.pos (num_chan * samples_per_buffer)).1 ∧
    (chunk_loaded num_chan num_coeffs samples_per_buffer st).1.length = st.buffer.length := by
  have hrl : (fread st.file st.pos (num_chan * samples_per_buffer)).1.length
      ≤ num_chan * samples_per_buffer := by
    unfold fread
    simp only [decode_items_length, List.length_take, List.length_drop, ITEM_SIZE]
    omega
  have hcopy : memcpy st.buffer 0 st.buffer (num_chan * samples_per_buffer)
      (num_chan * num_coeffs)
      = st.buffer.drop (num_chan * samples_per_buffer)
          ++ st.buffer.drop (num_chan * num_coeffs) := by
    unfold memcpy
    rw [List.take_zero, List.nil_append, Nat.zero_add,
      List.take_of_length_le (by rw [List.length_drop]; omega)]
  have hdl : (st.buffer.drop (num_chan * samples_per_buffer)).length
      = num_chan * num_coeffs := by
    rw [List.length_drop]; omega
  unfold chunk_loaded hist_size
  simp only [hcopy]
  refine ⟨trivial, ?_, ?_, ?_⟩
  · rw [store_odd_byte_take _ _ _ _ (Nat.le_add_right _ _), ← hdl, List.take_left,
      List.append_assoc, List.take_left]
  · rw [List.take_drop, store_odd_byte_take _ _ _ _ (le_refl _), ← List.take_drop, ← hdl,
      List.take_left, List.append_assoc, List.drop_left, List.take_left]
  · rw [store_odd_byte_length]
    simp only [List.length_append, List.length_take, List.length_drop]
    omega

/-- Witness of C20 (amended): one channel, two coefficients, chunks of one
sample, at the state in which the first iteration starts. -/
theorem C20_leftpad_amended_witness :
    hist_size 1 2 = 1 * 2 ∧
    (chunk_loaded 1 2 1
      { file := [7, 0], pos := 0, buffer := [0, 0, 0], input_ringbuf := [0, 0],
        irb_idx := 0, trace := [] }).1.take (1 * 2) = ([0, 0, 0] : List Int).drop (1 * 1) ∧
    ((chunk_loaded 1 2 1
      { file := [7, 0], pos := 0, buffer := [0, 0, 0], input_ringbuf := [0, 0],
        irb_idx := 0, trace := [] }).1.drop (1 * 2)).take
        (fread [7, 0] 0 (1 * 1)).1.length = (fread [7, 0] 0 (1 * 1)).1 ∧
    (chunk_loaded 1 2 1
      { file := [7, 0], pos := 0, buffer := [0, 0, 0], input_ringbuf := [0, 0],
        irb_idx := 0, trace := [] }).1.length = ([0, 0, 0] : List Int).length :=
  C20_leftpad_amended 1 2 1
    { file := [7, 0], pos := 0, buffer := [0, 0, 0], input_ringbuf := [0, 0],
      irb_idx := 0, trace := [] } rfl

/-! ## The states inside a run -/

theorem foldlM_range_ok_inv {σ ε : Type} (f : σ → Nat → Except ε σ)
    (P : Nat → σ → Prop) (n : Nat) (s0 s : σ) (h0 : P 0 s0)
    (hstep : ∀ i s s', i < n → P i s → f s i = .ok s' → P (i + 1) s')
    (hrun : (List.range n).foldlM f s0 = .ok s) : P n s := by
  induction n generalizing s with
  | zero =>
    simp only [List.range_zero, List.foldlM_nil] at hrun
    cases hrun
    exact h0
  | succ n ih =>
    rw [List.range_succ, List.foldlM_append] at hrun
    cases hprev : (List.range n).foldlM f s0 with
    | error e => rw [hprev] at hrun; cases hrun
    | ok s1 =>
      rw [hprev] at hrun
      simp only [List.foldlM_cons, List.foldlM_nil] at hrun
      have hp1 := ih s1 (fun i s s' hi hp hf => hstep i s s' (Nat.lt_succ_of_lt hi) hp hf) hprev
      have hrun' : (f s1 n >>= fun t => pure t) = Except.ok s := hrun
      cases hlast : f s1 n with
      | error e =>
        rw [hlast] at hrun'
        cases hrun'
      | ok s2 =>
        rw [hlast] at hrun'
        have hs : s2 = s := by injection hrun'
        rw [← hs]
        exact hstep n s1 s2 (Nat.lt_succ_self n) hp1 hlast

theorem samp_step_ring (nc C : Nat) (a b : List FP) (hist : Nat)
    (st : List Int × List Int × Nat) (s : Nat) :
    (samp_step nc C a b hist st s).2.1 = memcpy st.2.1 (st.2.2 * nc) st.1 (hist + s * nc) nc ∧
    (samp_step nc C a b hist st s).2.2 = (st.2.2 + 1) % C := ⟨rfl, rfl⟩

theorem chan_fold_length (nc C : Nat) (a b : List FP) (hist s : Nat) (ring : List Int)
    (irb c : Nat) (buffer : List Int) :
    ((List.range c).foldl (chan_step nc C a b hist s ring irb) buffer).length
      = buffer.length := by
  apply foldl_range_inv (chan_step nc C a b hist s ring irb)
    (fun _ buf => buf.length = buffer.length) c buffer rfl
  intro j buf _ hb
  unfold chan_step
  simp only [List.length_set]
  exact hb

theorem samp_fold_length (nc C : Nat) (a b : List FP) (hist n : Nat)
    (st : List Int × List Int × Nat) :
    ((List.range n).foldl (samp_step nc C a b hist) st).1.length = st.1.length := by
  apply foldl_range_inv (samp_step nc C a b hist) (fun _ s => s.1.length = st.1.length) n st rfl
  intro j s _ hs
  unfold samp_step
  simp only
  rw [chan_fold_length]
  exact hs

theorem fread_bytes_length_le (limit : Option Nat) (file : List Nat) (pos count : Nat) :
    (fread_bytes limit file pos count).length ≤ 2 * count := by
  unfold fread_bytes
  simp only [List.length_take, List.length_drop, ITEM_SIZE]
  omega

theorem fread_env_items_le (limit : Option Nat) (file : List Nat) (pos count : Nat) :
    (fread_env limit file pos count).1.length ≤ count ∧
    pos + 2 * (fread_env limit file pos count).1.length ≤ (fread_env limit file pos count).2 := by
  have := fread_bytes_length_le limit file pos count
  unfold fread_env
  simp only [decode_items_length]
  omega

theorem read_env_items_le (env : Env) (nc S : Nat) (st : State) (i : Nat) :
    (read_env env nc S st i).1.length ≤ nc * S :=
  (fread_env_items_le _ _ _ _).1

theorem fread_items_le (file : List Nat) (pos count : Nat) :
    (fread file pos count).1.length ≤ count := by
  unfold fread
  simp only [decode_items_length, List.length_take, List.length_drop, ITEM_SIZE]
  omega

theorem chunk_loaded_env_lengths (env : Env) (nc C S : Nat) (st : State) (i : Nat)
    (hlen : st.buffer.length = nc * S + nc * C) :
    (chunk_loaded_env env nc C S st i).1.length = nc * S + nc * C := by
  have hrd := read_env_items_le env nc S st i
  have hm : (memcpy st.buffer 0 st.buffer (nc * S) (nc * C)).length = st.buffer.length :=
    length_memcpy _ _ _ _ _ (by omega) (by omega)
  unfold chunk_loaded_env hist_size
  simp only
  rw [store_odd_byte_length]
  simp only [List.length_append, List.length_take, List.length_drop, hm, hlen]
  omega

theorem chunk_loaded_lengths (nc C S : Nat) (st : State)
    (hlen : st.buffer.length = nc * S + nc * C) :
    (chunk_loaded nc C S st).1.length = nc * S + nc * C := by
  have hrd := fread_items_le st.file st.pos (nc * S)
  have hm : (memcpy st.buffer 0 st.buffer (nc * S) (nc * C)).length = st.buffer.length :=
    length_memcpy _ _ _ _ _ (by omega) (by omega)
  unfold chunk_loaded hist_size
  simp only
  rw [store_odd_byte_length]
  simp only [List.length_append, List.length_take, List.length_drop, hm, hlen]
  omega

theorem samp_step_lengths (nc C : Nat) (a b : List FP) (hist s : Nat)
    (st : List Int × List Int × Nat) (L : Nat) (hC : 1 ≤ C)
    (hbuf : st.1.length = L) (hring : st.2.1.length = C * nc) (hcur : st.2.2 < C)
    (hsrc : hist + s * nc + nc ≤ L) :
    (samp_step nc C a b hist st s).1.length = L ∧
    (samp_step nc C a b hist st s).2.1.length = C * nc ∧
    (samp_step nc C a b hist st s).2.2 < C := by
  have hcn : st.2.2 * nc + nc ≤ C * nc := by
    have := Nat.mul_le_mul_right nc (Nat.succ_le_of_lt hcur)
    rw [Nat.succ_mul] at this
    exact this
  refine ⟨?_, ?_, ?_⟩
  · show ((List.range nc).foldl _ st.1).length = L
    rw [chan_fold_length]
    exact hbuf
  · rw [(samp_step_ring nc C a b hist st s).1,
      length_memcpy _ _ _ _ _ (by omega) (by omega)]
    exact hring
  · rw [(samp_step_ring nc C a b hist st s).2]
    exact Nat.mod_lt _ (by omega)

theorem samp_loop_lengths (nc C S : Nat) (a b : List FP) (s : Nat)
    (st : List Int × List Int × Nat) (hC : 1 ≤ C)
    (hlen : st.1.length = nc * S + nc * C) (hring : st.2.1.length = C * nc)
    (hcur : st.2.2 < C) (hs : s ≤ S) :
    ((List.range s).foldl (samp_step nc C a b (hist_size nc C)) st).1.length
      = nc * S + nc * C ∧
    ((List.range s).foldl (samp_step nc C a b (hist_size nc C)) st).2.1.length = C * nc ∧
    ((List.range s).foldl (samp_step nc C a b (hist_size nc C)) st).2.2 < C := by
  refine foldl_range_inv (samp_step nc C a b (hist_size nc C))
    (fun _ t => t.1.length = nc * S + nc * C ∧ t.2.1.length = C * nc ∧ t.2.2 < C) s
    st ⟨hlen, hring, hcur⟩ ?_
  intro j t hj hp
  obtain ⟨h1, h2, h3⟩ := hp
  apply samp_step_lengths nc C a b _ j t _ hC h1 h2 h3
  unfold hist_size
  have := Nat.mul_le_mul_left nc (show j + 1 ≤ S by omega)
  rw [Nat.mul_add, Nat.mul_one, Nat.mul_comm nc j] at this
  omega

theorem at_sample_env_lengths (env : Env) (nc C S : Nat) (a b : List FP) (st : State)
    (i s : Nat) (hC : 1 ≤ C)
    (hlen : st.buffer.length = nc * S + nc * C) (hring : st.input_ringbuf.length = C * nc)
    (hcur : st.irb_idx < C) (hs : s ≤ S) :
    (at_sample_env env nc C a b S st i s).1.length = nc * S + nc * C ∧
    (at_sample_env env nc C a b S st i s).2.1.length = C * nc ∧
    (at_sample_env env nc C a b S st i s).2.2 < C :=
  samp_loop_lengths nc C S a b s _ hC (chunk_loaded_env_lengths env nc C S st i hlen) hring hcur
    hs

theorem at_sample_lengths (nc C S : Nat) (a b : List FP) (st : State) (s : Nat) (hC : 1 ≤ C)
    (hlen : st.buffer.length = nc * S + nc * C) (hring : st.input_ringbuf.length = C * nc)
    (hcur : st.irb_idx < C) (hs : s ≤ S) :
    (at_sample nc C a b S st s).1.length = nc * S + nc * C ∧
    (at_sample nc C a b S st s).2.1.length = C * nc ∧
    (at_sample nc C a b S st s).2.2 < C :=
  samp_loop_lengths nc C S a b s _ hC (chunk_loaded_lengths nc C S st hlen) hring hcur hs

/-- The buffers with which an iteration that succeeds leaves the chunk loop are
those of the sample loop after the last sample vector read. -/
theorem chunk_step_env_buffers (env : Env) (nc C : Nat) (a b : List FP) (S nb : Nat)
    (st s : State) (i : Nat) (h : chunk_step_env env nc C a b S nb st i = .ok s) :
    s.buffer = (at_sample_env env nc C a b S st i
      ((read_env env nc S st i).1.length / nc)).1 ∧
    s.input_ringbuf = (at_sample_env env nc C a b S st i
      ((read_env env nc S st i).1.length / nc)).2.1 ∧
    s.irb_idx = (at_sample_env env nc C a b S st i
      ((read_env env nc S st i).1.length / nc)).2.2 := by
  unfold chunk_step_env at h
  simp only at h
  split at h
  · cases h
  · split at h
    · cases h
    · split at h
      · cases h
      · injection h with h
        rw [← h]
        exact ⟨rfl, rfl, rfl⟩

theorem chunk_step_env_lengths (env : Env) (nc C : Nat) (a b : List FP) (S nb : Nat)
    (st s : State) (i : Nat) (hC : 1 ≤ C)
    (hP : st.buffer.length = nc * S + nc * C ∧ st.input_ringbuf.length = C * nc ∧
      st.irb_idx < C)
    (h : chunk_step_env env nc C a b S nb st i = .ok s) :
    s.buffer.length = nc * S + nc * C ∧ s.input_ringbuf.length = C * nc ∧ s.irb_idx < C := by
  obtain ⟨h1, h2, h3⟩ := chunk_step_env_buffers env nc C a b S nb st s i h
  rw [h1, h2, h3]
  exact at_sample_env_lengths env nc C S a b st i _ hC hP.1 hP.2.1 hP.2.2
    (Nat.div_le_of_le_mul (read_env_items_le env nc S st i))

theorem run_chunks_env_lengths (env : Env) (file : List Nat) (nc C : Nat) (a b : List FP)
    (S i : Nat) (st : State) (hC : 1 ≤ C)
    (hrun : run_chunks_env env file nc C a b S i = .ok st) :
    st.buffer.length = nc * S + nc * C ∧ st.input_ringbuf.length = C * nc ∧
      st.irb_idx < C := by
  unfold run_chunks_env at hrun
  exact foldlM_range_ok_inv _
    (fun _ s => s.buffer.length = nc * S + nc * C ∧ s.input_ringbuf.length = C * nc ∧
      s.irb_idx < C) i _ st
    (by simp [Nat.mul_comm]; omega)
    (fun j s s' _ hp hf => chunk_step_env_lengths env nc C a b S _ s s' j hC hp hf) hrun

/-- C17: for every behaviour of the library, every file content (any bytes),
every channel count, chunk size and coefficient count, at every sample vector
`samp_idx` of every iteration `buf_idx` of the chunk loop that the run reaches,
for every channel and every lag `coeff_idx` in `[1, C)`: the feedback index
`buff_loc − coeff_idx * num_channels` does not underflow and is below
`(samples_per_chunk + C) * num_channels`, which is the length of the chunk
buffer at that access; the ring index
`((C + cursor − coeff_idx) mod C) * num_channels + chan_idx` is below
`C * num_channels`, which is the length of the ring. -/
theorem C17_index_safety (env : Env) (num_channels C samples_per_chunk : Nat) (a b : List FP)
    (file : List Nat) (buf_idx samp_idx chan_idx coeff_idx : Nat) (st : State)
    (hrun : run_chunks_env env file num_channels C a b samples_per_chunk buf_idx = .ok st)
    (hs : samp_idx
      < (read_env env num_channels samples_per_chunk st buf_idx).1.length / num_channels)
    (hc : chan_idx < num_channels) (_hk1 : 1 ≤ coeff_idx) (hk2 : coeff_idx < C) :
    coeff_idx * num_channels
      ≤ buff_loc (hist_size num_channels C) samp_idx num_channels chan_idx ∧
    feedback_index (buff_loc (hist_size num_channels C) samp_idx num_channels chan_idx)
      coeff_idx num_channels < (samples_per_chunk + C) * num_channels ∧
    ((List.range chan_idx).foldl
      (chan_step num_channels C a b (hist_size num_channels C) samp_idx
        (samp_step num_channels C a b (hist_size num_channels C)
          (at_sample_env env num_channels C a b samples_per_chunk st buf_idx samp_idx)
          samp_idx).2.1
        (at_sample_env env num_channels C a b samples_per_chunk st buf_idx samp_idx).2.2)
      (at_sample_env env num_channels C a b samples_per_chunk st buf_idx samp_idx).1).length
      = (samples_per_chunk + C) * num_channels ∧
    ring_index C (at_sample_env env num_channels C a b samples_per_chunk st buf_idx samp_idx).2.2
      coeff_idx num_channels chan_idx < C * num_channels ∧
    (samp_step num_channels C a b (hist_size num_channels C)
      (at_sample_env env num_channels C a b samples_per_chunk st buf_idx samp_idx)
      samp_idx).2.1.length
      = C * num_channels := by
  have hC : 1 ≤ C := by omega
  obtain ⟨hP1, hP2, hP3⟩ := run_chunks_env_lengths env file num_channels C a b
    samples_per_chunk buf_idx st hC hrun
  have hle := read_env_items_le env num_channels samples_per_chunk st buf_idx
  have hs1 : (samp_idx + 1) * num_channels
      ≤ (read_env env num_channels samples_per_chunk st buf_idx).1.length :=
    le_trans (Nat.mul_le_mul_right num_channels (Nat.succ_le_of_lt hs))
      (Nat.div_mul_le_self _ _)
  rw [Nat.add_mul, Nat.one_mul] at hs1
  have hsS : samp_idx < samples_per_chunk := by
    by_contra hcon
    have h1 : samples_per_chunk * num_channels ≤ samp_idx * num_channels :=
      Nat.mul_le_mul_right num_channels (Nat.le_of_not_lt hcon)
    rw [Nat.mul_comm samples_per_chunk num_channels] at h1
    omega
  obtain ⟨hlen, hrl, hcur⟩ := at_sample_env_lengths env num_channels C samples_per_chunk a b st
    buf_idx samp_idx hC hP1 hP2 hP3 (by omega)
  have hkC : coeff_idx * num_channels + num_channels ≤ C * num_channels := by
    have := Nat.mul_le_mul_right num_channels (Nat.succ_le_of_lt hk2)
    rw [Nat.succ_mul] at this
    exact this
  have hsS' : samp_idx * num_channels + num_channels ≤ samples_per_chunk * num_channels := by
    have := Nat.mul_le_mul_right num_channels (Nat.succ_le_of_lt hsS)
    rw [Nat.succ_mul] at this
    exact this
  obtain ⟨_, hrl', _⟩ := samp_step_lengths num_channels C a b (hist_size num_channels C)
    samp_idx (at_sample_env env num_channels C a b samples_per_chunk st buf_idx samp_idx)
    (num_channels * samples_per_chunk + num_channels * C) hC hlen hrl hcur
    (by unfold hist_size
        rw [Nat.mul_comm num_channels samples_per_chunk]
        omega)
  have hmod : (C + (at_sample_env env num_channels C a b samples_per_chunk st buf_idx
      samp_idx).2.2 - coeff_idx) % C < C := Nat.mod_lt _ (by omega)
  have hring : (C + (at_sample_env env num_channels C a b samples_per_chunk st buf_idx
      samp_idx).2.2 - coeff_idx) % C * num_channels + num_channels ≤ C * num_channels := by
    have := Nat.mul_le_mul_right num_channels (Nat.succ_le_of_lt hmod)
    rw [Nat.succ_mul] at this
    exact this
  rw [chan_fold_length, hlen, hrl']
  unfold buff_loc feedback_index ring_index hist_size
  rw [Nat.add_mul, Nat.mul_comm num_channels C,
    Nat.mul_comm num_channels samples_per_chunk]
  refine ⟨by omega, by omega, rfl, by omega, rfl⟩

/-- Witness of C17: the library that serves every read as written, two
channels, two coefficients, chunks of two vectors; the second iteration, first
vector of the chunk, channel 1, lag 1. -/
theorem C17_index_safety_witness :
    1 * 2 ≤ buff_loc (hist_size 2 2) 0 2 1 ∧
    feedback_index (buff_loc (hist_size 2 2) 0 2 1) 1 2 < (2 + 2) * 2 ∧
    ((List.range 1).foldl
      (chan_step 2 2 [1, -1] [1, 1] (hist_size 2 2) 0
        (samp_step 2 2 [1, -1] [1, 1] (hist_size 2 2)
          (at_sample_env (Env.sound (encode_items [1, 2, 3, 4, 5, 6])) 2 2 [1, -1] [1, 1] 2
            { file := [1, 0, 2, 0, 5, 0, 8, 0, 5, 0, 6, 0], pos := 8,
              buffer := [0, 0, 0, 0, 1, 2, 5, 8], input_ringbuf := [1, 2, 3, 4], irb_idx := 0,
              trace := [.fread 0 4, .fwrite 0 4] } 1 0) 0).2.1
        (at_sample_env (Env.sound (encode_items [1, 2, 3, 4, 5, 6])) 2 2 [1, -1] [1, 1] 2
          { file := [1, 0, 2, 0, 5, 0, 8, 0, 5, 0, 6, 0], pos := 8,
            buffer := [0, 0, 0, 0, 1, 2, 5, 8], input_ringbuf := [1, 2, 3, 4], irb_idx := 0,
            trace := [.fread 0 4, .fwrite 0 4] } 1 0).2.2)
      (at_sample_env (Env.sound (encode_items [1, 2, 3, 4, 5, 6])) 2 2 [1, -1] [1, 1] 2
        { file := [1, 0, 2, 0, 5, 0, 8, 0, 5, 0, 6, 0], pos := 8,
          buffer := [0, 0, 0, 0, 1, 2, 5, 8], input_ringbuf := [1, 2, 3, 4], irb_idx := 0,
          trace := [.fread 0 4, .fwrite 0 4] } 1 0).1).length = (2 + 2) * 2 ∧
    ring_index 2 (at_sample_env (Env.sound (encode_items [1, 2, 3, 4, 5, 6])) 2 2 [1, -1] [1, 1] 2
        { file := [1, 0, 2, 0, 5, 0, 8, 0, 5, 0, 6, 0], pos := 8,
          buffer := [0, 0, 0, 0, 1, 2, 5, 8], input_ringbuf := [1, 2, 3, 4], irb_idx := 0,
          trace := [.fread 0 4, .fwrite 0 4] } 1 0).2.2 1 2 1 < 2 * 2 ∧
    (samp_step 2 2 [1, -1] [1, 1] (hist_size 2 2)
      (at_sample_env (Env.sound (encode_items [1, 2, 3, 4, 5, 6])) 2 2 [1, -1] [1, 1] 2
        { file := [1, 0, 2, 0, 5, 0, 8, 0, 5, 0, 6, 0], pos := 8,
          buffer := [0, 0, 0, 0, 1, 2, 5, 8], input_ringbuf := [1, 2, 3, 4], irb_idx := 0,
          trace := [.fread 0 4, .fwrite 0 4] } 1 0) 0).2.1.length = 2 * 2 :=
  C17_index_safety (Env.sound (encode_items [1, 2, 3, 4, 5, 6])) 2 2 2 [1, -1] [1, 1]
    (encode_items [1, 2, 3, 4, 5, 6]) 1 0 1 1 _
    (by decide!) (by decide) (by decide) (by decide) (by decide)

/-! ## The read that directly follows a write -/

theorem after_write_pair (l : List IOCall) (p m q n : Nat) :
    after_write (l ++ [.fread p m, .fwrite q n]) = decide (0 < n) := by
  unfold after_write
  have h : (l ++ [IOCall.fread p m, IOCall.fwrite q n]).getLast? = some (.fwrite q n) := by
    rw [List.getLast?_append]
    rfl
  rw [h]

theorem fread_full (file : List Nat) (pos count : Nat) (h : pos + 2 * count ≤ file.length) :
    (fread file pos count).1.length = count ∧ (fread file pos count).2 = pos + 2 * count := by
  unfold fread
  simp only [decode_items_length, List.length_take, List.length_drop, ITEM_SIZE]
  omega

/-- The first iteration of the chunk loop on a file that holds at least one
whole chunk: every item of the chunk is read at offset 0 and written back at
offset 0. -/
theorem chunk_body_first (file : List Nat) (nc C : Nat) (a b : List FP) (S nb : Nat)
    (h0 : 0 < nc * S) (hlen : nc * S * 2 ≤ file.length) :
    ∃ st, chunk_body nc C a b S nb
        { file := file, pos := 0, buffer := List.replicate (nc * S + nc * C) 0,
          input_ringbuf := List.replicate (nc * C) 0, irb_idx := 0, trace := [] } 0 = .ok st ∧
      st.trace = [.fread 0 (nc * S), .fwrite 0 (nc * S)] := by
  obtain ⟨hr1, hr2⟩ := fread_full file 0 (nc * S) (by omega)
  have hb1 : (memcpy (List.replicate (nc * S + nc * C) (0 : Int)) 0
      (List.replicate (nc * S + nc * C) 0) (nc * S) (nc * C)).length = nc * S + nc * C := by
    rw [length_memcpy _ _ _ _ _ (by simp) (by simp)]
    simp
  have hseek : fseeko_cur (0 + 2 * (nc * S)) (-((nc * S * ITEM_SIZE : Nat) : Int)) = some 0 :=
    fseeko_cur_back 0 (nc * S)
  unfold chunk_body
  simp only [hr1, hr2, hseek]
  rw [if_neg (by omega)]
  have hw : ∀ r : List Int × List Int × Nat, r.1.length = nc * S + nc * C →
      ((r.1.drop (nc * C)).take (nc * S)).length = nc * S := by
    intro r hr
    rw [List.length_take, List.length_drop, hr]
    omega
  have hrl := samp_fold_length nc C a b (nc * C) (nc * S / nc)
    (store_odd_byte
      ((memcpy (List.replicate (nc * S + nc * C) 0) 0 (List.replicate (nc * S + nc * C) 0)
          (nc * S) (nc * C)).take (nc * C) ++ (fread file 0 (nc * S)).1
        ++ (memcpy (List.replicate (nc * S + nc * C) 0) 0 (List.replicate (nc * S + nc * C) 0)
          (nc * S) (nc * C)).drop (nc * C + nc * S))
      (nc * C + nc * S)
      (partial_byte ((file.drop 0).take (ITEM_SIZE * (nc * S)))),
     List.replicate (nc * C) 0, 0)
  have hl0 : (store_odd_byte
      ((memcpy (List.replicate (nc * S + nc * C) 0) 0 (List.replicate (nc * S + nc * C) 0)
          (nc * S) (nc * C)).take (nc * C) ++ (fread file 0 (nc * S)).1
        ++ (memcpy (List.replicate (nc * S + nc * C) 0) 0 (List.replicate (nc * S + nc * C) 0)
          (nc * S) (nc * C)).drop (nc * C + nc * S))
      (nc * C + nc * S)
      (partial_byte ((file.drop 0).take (ITEM_SIZE * (nc * S))))).length = nc * S + nc * C := by
    rw [store_odd_byte_length]
    simp only [List.length_append, List.length_take, List.length_drop, hb1, hr1]
    omega
  rw [hl0] at hrl
  have hwl := hw _ hrl
  rw [if_neg (by rw [hwl]; exact fun h => h rfl)]
  exact ⟨_, rfl, by simp only [List.nil_append, hwl]⟩

/-- On a file that holds at least one whole chunk, the second iteration of the
chunk loop calls `fread` directly after the `fwrite` of the first: the behaviour
of `filter_file` is undefined from there on. -/
theorem filter_file_undefined_read (file : List Nat) (nc C : Nat) (a b : List FP) (S : Nat)
    (h0 : 0 < nc * S) (hlen : nc * S * 2 ≤ file.length) :
    filter_file file nc C a b S = .error .undefined_read := by
  obtain ⟨st, h1, htr⟩ := chunk_body_first file nc C a b S
    (file.length / (nc * S * ITEM_SIZE)) h0 hlen
  have hnb : 1 ≤ file.length / (nc * S * ITEM_SIZE) := by
    rw [Nat.le_div_iff_mul_le (by rw [ITEM_SIZE]; omega), ITEM_SIZE]
    omega
  obtain ⟨k, hk⟩ := Nat.exists_eq_add_of_le hnb
  have hrange : List.range (file.length / (nc * S * ITEM_SIZE) + 1)
      = 0 :: 1 :: List.range' 2 k := by
    rw [hk, List.range_eq_range', Nat.add_comm 1 k, List.range'_succ, List.range'_succ]
  unfold filter_file
  simp only
  rw [hrange]
  simp only [List.foldlM_cons]
  have hs0 : chunk_step nc C a b S (file.length / (nc * S * ITEM_SIZE))
      { file := file, pos := 0, buffer := List.replicate (nc * S + nc * C) 0,
        input_ringbuf := List.replicate (nc * C) 0, irb_idx := 0, trace := [] } 0 = .ok st := by
    unfold chunk_step
    rw [if_neg (by show ¬ after_write [] = true; decide)]
    exact h1
  have hs1 : chunk_step nc C a b S (file.length / (nc * S * ITEM_SIZE)) st 1
      = .error .undefined_read := by
    unfold chunk_step
    have haw : after_write st.trace = true := by
      rw [htr]
      have := after_write_pair [] 0 (nc * S) 0 (nc * S)
      rw [List.nil_append] at this
      rw [this]
      exact decide_eq_true h0
    rw [if_pos haw]
  rw [hs0]
  show (chunk_step nc C a b S (file.length / (nc * S * ITEM_SIZE)) st 1 >>= _) = _
  rw [hs1]
  rfl

/-! ## One iteration with the library as an environment -/

theorem fseeko_cur_some (p m : Nat) (h : 2 * m ≤ p) :
    fseeko_cur p (-((m * ITEM_SIZE : Nat) : Int)) = some (p - 2 * m) := by
  obtain ⟨d, rfl⟩ := Nat.exists_eq_add_of_le h
  rw [Nat.add_comm, fseeko_cur_back, Nat.add_sub_cancel]

theorem fwrite_length (file : List Nat) (pos : Nat) (items : List Int) :
    (fwrite file pos items).1.length = max file.length (pos + 2 * items.length) := by
  unfold fwrite
  simp only [List.length_append, List.length_take, List.length_drop, List.length_replicate,
    encode_items_length]
  omega

theorem fread_env_none_lengths (file : List Nat) (pos count : Nat) :
    (fread_env none file pos count).1.length = min (2 * count) (file.length - pos) / 2 ∧
    (fread_env none file pos count).2 = pos + min (2 * count) (file.length - pos) := by
  unfold fread_env fread_bytes
  simp only [Option.getD_none, decode_items_length, List.length_take, List.length_drop,
    ITEM_SIZE]
  omega

/-- An iteration in which the read is not the failure of line 52, the backward
seek does not fail and the write is not cut short succeeds: as many items are
written as were read, `2 * items_read` bytes before the position at which the
read ended. -/
theorem chunk_step_env_ok (env : Env) (nc C : Nat) (a b : List FP) (S nb : Nat)
    (st : State) (i : Nat) (hbuf : st.buffer.length = nc * S + nc * C)
    (hread : ¬ ((read_env env nc S st i).1.length = 0 ∧ i < nb))
    (hsf : env.fseeko_cur_fails i = false) (hwl : env.fwrite_limit i = none) :
    ∃ s, chunk_step_env env nc C a b S nb st i = .ok s ∧
      s.trace = st.trace ++
        [.fread (stream_at env st i).2 (read_env env nc S st i).1.length,
         .fwrite ((read_env env nc S st i).2 - 2 * (read_env env nc S st i).1.length)
           (read_env env nc S st i).1.length] ∧
      s.buffer.length = nc * S + nc * C ∧
      s.file.length = max (stream_at env st i).1.length (read_env env nc S st i).2 := by
  obtain ⟨hle, hp⟩ := fread_env_items_le (env.fread_limit i) (stream_at env st i).1
    (stream_at env st i).2 (nc * S)
  unfold read_env at hread ⊢
  generalize hrd : fread_env (env.fread_limit i) (stream_at env st i).1
    (stream_at env st i).2 (nc * S) = rd at *
  have hb1 : (memcpy st.buffer 0 st.buffer (nc * S) (nc * C)).length = nc * S + nc * C := by
    rw [length_memcpy _ _ _ _ _ (by omega) (by omega)]; exact hbuf
  have hl : ∀ pb, (store_odd_byte ((memcpy st.buffer 0 st.buffer (nc * S) (nc * C)).take (nc * C)
      ++ rd.1 ++ (memcpy st.buffer 0 st.buffer (nc * S) (nc * C)).drop (nc * C + rd.1.length))
      (nc * C + rd.1.length) pb).length = nc * S + nc * C := by
    intro pb
    rw [store_odd_byte_length]
    simp only [List.length_append, List.length_take, List.length_drop, hb1]
    omega
  have hrl : ∀ pb, ((List.range (rd.1.length / nc)).foldl (samp_step nc C a b (nc * C))
      (store_odd_byte ((memcpy st.buffer 0 st.buffer (nc * S) (nc * C)).take (nc * C) ++ rd.1
        ++ (memcpy st.buffer 0 st.buffer (nc * S) (nc * C)).drop (nc * C + rd.1.length))
        (nc * C + rd.1.length) pb,
        st.input_ringbuf, st.irb_idx)).1.length = nc * S + nc * C := by
    intro pb
    rw [samp_fold_length]; exact hl pb
  unfold chunk_step_env
  simp only [hrd, hsf, hwl, Option.getD_none, Bool.false_eq_true, if_false]
  rw [if_neg hread, fseeko_cur_some _ _ (by omega)]
  have hwlen : ∀ pb, (((((List.range (rd.1.length / nc)).foldl (samp_step nc C a b (nc * C))
      (store_odd_byte ((memcpy st.buffer 0 st.buffer (nc * S) (nc * C)).take (nc * C) ++ rd.1
        ++ (memcpy st.buffer 0 st.buffer (nc * S) (nc * C)).drop (nc * C + rd.1.length))
        (nc * C + rd.1.length) pb,
        st.input_ringbuf, st.irb_idx)).1.drop (nc * C)).take rd.1.length).take
          rd.1.length).length = rd.1.length := by
    intro pb
    simp only [List.length_take, List.length_drop, hrl pb]
    omega
  simp only
  rw [if_neg (by rw [hwlen]; exact fun h => h rfl)]
  refine ⟨_, rfl, ?_, hrl _, ?_⟩
  · simp only [hwlen]
  · simp only [fwrite_length, hwlen]
    omega

theorem run_env_step_ok (env : Env) (file : List Nat) (nc C : Nat) (a b : List FP)
    (S i : Nat) (st s : State)
    (hrun : run_chunks_env env file nc C a b S i = .ok st)
    (hstep : chunk_step_env env nc C a b S
      ((env.ftello % 2 ^ 64).toNat / (nc * S * ITEM_SIZE)) st i = .ok s) :
    run_chunks_env env file nc C a b S (i + 1) = .ok s := by
  unfold run_chunks_env at hrun ⊢
  rw [List.range_succ, List.foldlM_append, hrun]
  simp only [List.foldlM_cons, List.foldlM_nil]
  show (chunk_step_env env nc C a b S _ st i >>= fun t => pure t) = _
  rw [hstep]; rfl

/-! ## The second read on a stream whose write has not been flushed -/

/-- With a library that buffers the stream in blocks, on a file that holds at
least one whole chunk: the first iteration reads and writes the chunk at offset
0, and the second iteration reads at the end of the first block, not at the end
of the chunk, and writes what it has read over the place it has read it from. -/
theorem unflushed_second_read (file : List Nat) (nc C : Nat) (a b : List FP) (S block : Nat)
    (h0 : 0 < nc * S) (hlen : nc * S * 2 ≤ file.length) (hb : block ≤ file.length)
    (hm : 0 < min (2 * (nc * S)) (file.length - block) / 2) :
    ∃ st, run_chunks_env (Env.unflushed file block) file nc C a b S 2 = .ok st ∧
      st.trace = [.fread 0 (nc * S), .fwrite 0 (nc * S),
        .fread block (min (2 * (nc * S)) (file.length - block) / 2),
        .fwrite (block + min (2 * (nc * S)) (file.length - block)
            - 2 * (min (2 * (nc * S)) (file.length - block) / 2))
          (min (2 * (nc * S)) (file.length - block) / 2)] := by
  have hrun0 : run_chunks_env (Env.unflushed file block) file nc C a b S 0
      = .ok { file := file, pos := 0,
              buffer := List.replicate (nc * S + nc * C) 0,
              input_ringbuf := List.replicate (nc * C) 0, irb_idx := 0, trace := [] } := rfl
  -- the first iteration
  have hsa0 : stream_at (Env.unflushed file block)
      { file := file, pos := 0, buffer := List.replicate (nc * S + nc * C) 0,
        input_ringbuf := List.replicate (nc * C) 0, irb_idx := 0, trace := [] } 0
      = (file, 0) := rfl
  have hre0 : read_env (Env.unflushed file block) nc S
      { file := file, pos := 0, buffer := List.replicate (nc * S + nc * C) 0,
        input_ringbuf := List.replicate (nc * C) 0, irb_idx := 0, trace := [] } 0
      = fread_env none file 0 (nc * S) := rfl
  obtain ⟨hl0, hp0⟩ := fread_env_none_lengths file 0 (nc * S)
  have hl0' : (fread_env none file 0 (nc * S)).1.length = nc * S := by
    rw [hl0]; omega
  have hp0' : (fread_env none file 0 (nc * S)).2 = 2 * (nc * S) := by
    rw [hp0]; omega
  obtain ⟨s1, hs1, htr1, hbuf1, hfl1⟩ := chunk_step_env_ok (Env.unflushed file block) nc C a b S
    (((Env.unflushed file block).ftello % 2 ^ 64).toNat / (nc * S * ITEM_SIZE))
    { file := file, pos := 0, buffer := List.replicate (nc * S + nc * C) 0,
      input_ringbuf := List.replicate (nc * C) 0, irb_idx := 0, trace := [] } 0
    (by simp) (by rw [hre0, hl0']; omega) rfl rfl
  simp only [hre0, hsa0, hl0', hp0', List.nil_append, Nat.sub_self] at htr1 hfl1
  have hrun1 := run_env_step_ok _ file nc C a b S 0 _ s1 hrun0 hs1
  -- the second iteration
  have haw : after_write s1.trace = true := by
    rw [htr1]
    have := after_write_pair [] 0 (nc * S) 0 (nc * S)
    rw [List.nil_append] at this
    rw [this]
    exact decide_eq_true h0
  have hsa1 : stream_at (Env.unflushed file block) s1 1
      = (s1.file.take block ++ file.drop block, block) := by
    unfold stream_at
    rw [if_pos haw]
    rfl
  have hre1 : read_env (Env.unflushed file block) nc S s1 1
      = fread_env none (s1.file.take block ++ file.drop block) block (nc * S) := by
    unfold read_env
    rw [hsa1]
    rfl
  have hlen1 : (s1.file.take block ++ file.drop block).length = file.length := by
    rw [List.length_append, List.length_take, List.length_drop, hfl1]
    omega
  obtain ⟨hl1, hp1⟩ := fread_env_none_lengths (s1.file.take block ++ file.drop block) block
    (nc * S)
  rw [hlen1] at hl1 hp1
  obtain ⟨s2, hs2, htr2, _, _⟩ := chunk_step_env_ok (Env.unflushed file block) nc C a b S
    (((Env.unflushed file block).ftello % 2 ^ 64).toNat / (nc * S * ITEM_SIZE)) s1 1
    hbuf1 (by rw [hre1, hl1]; omega) rfl rfl
  simp only [hre1, hsa1, hl1, hp1, htr1, List.cons_append, List.nil_append] at htr2
  exact ⟨s2, run_env_step_ok _ file nc C a b S 1 s1 s2 hrun1 hs2, htr2⟩

theorem unflushed_ftello (file : List Nat) (block : Nat) :
    (Env.unflushed file block).ftello = (file.length : Int) := rfl

/-- C14, the code as written: on a file that is exactly one chunk of 3 channels
and 1000 sample vectors (6000 bytes), the read of the final iteration directly
follows the write of the first, so the C standard does not define it; and with a
library that buffers the stream in blocks of 4096 bytes the final iteration
reads 952 items at byte 4096 and writes 952 items there. -/
theorem C14_final_iteration_reads_again :
    filter_file (encode_items (List.replicate 3000 1)) 3 1 [1] [1] 1000
      = .error .undefined_read ∧
    ∃ st, filter_file_env (Env.unflushed (encode_items (List.replicate 3000 1)) 4096)
        (encode_items (List.replicate 3000 1)) 3 1 [1] [1] 1000 = .ok st ∧
      st.trace = [.fread 0 3000, .fwrite 0 3000, .fread 4096 952, .fwrite 4096 952] := by
  have hlen : (encode_items (List.replicate 3000 1)).length = 6000 := by
    rw [encode_items_length, List.length_replicate]
  refine ⟨filter_file_undefined_read _ 3 1 _ _ 1000 (by norm_num) (by have := hlen; omega), ?_⟩
  obtain ⟨st, hst, htr⟩ := unflushed_second_read (encode_items (List.replicate 3000 1)) 3 1
    [1] [1] 1000 4096 (by norm_num) (by have := hlen; omega) (by have := hlen; omega)
    (by have := hlen; omega)
  rw [hlen] at htr
  refine ⟨st, ?_, htr⟩
  rw [filter_file_env_eq_run _ _ _ _ _ _ _ (by show ¬ ((0 : Int) < 0); decide)]
  have hnb : ((Env.unflushed (encode_items (List.replicate 3000 1)) 4096).ftello % 2 ^ 64).toNat
      / (3 * 1000 * ITEM_SIZE) + 1 = 2 := by
    rw [unflushed_ftello, hlen]
    norm_num [ITEM_SIZE]
    rfl
  rw [hnb]
  exact hst

theorem foldlM_error_inv {σ ε : Type} (f : σ → Nat → Except ε σ) (Q : ε → Prop)
    (hf : ∀ s i e, f s i = .error e → Q e) (l : List Nat) (s0 : σ) (e : ε)
    (h : l.foldlM f s0 = .error e) : Q e := by
  induction l generalizing s0 with
  | nil =>
    simp only [List.foldlM_nil] at h
    cases h
  | cons i rest ih =>
    simp only [List.foldlM_cons] at h
    cases hfi : f s0 i with
    | error e' =>
      rw [hfi] at h
      have he : e' = e := by injection h
      rw [← he]
      exact hf s0 i e' hfi
    | ok s' =>
      rw [hfi] at h
      exact ih s' h

theorem foldlM_range_error_mono {σ ε : Type} (f : σ → Nat → Except ε σ) (k n : Nat)
    (hkn : k ≤ n) (s0 : σ) (e : ε) (h : (List.range k).foldlM f s0 = .error e) :
    (List.range n).foldlM f s0 = .error e := by
  obtain ⟨d, rfl⟩ := Nat.exists_eq_add_of_le hkn
  rw [List.range_add, List.foldlM_append, h]
  rfl

theorem chunk_step_env_failure (env : Env) (nc C : Nat) (a b : List FP) (S nb : Nat)
    (st : State) (i : Nat) (e : Failure × State)
    (h : chunk_step_env env nc C a b S nb st i = .error e) : e.1 ≠ .length_failure := by
  unfold chunk_step_env at h
  simp only at h
  split at h
  · injection h with h; rw [← h]; intro hc; cases hc
  · split at h
    · injection h with h; rw [← h]; intro hc; cases hc
    · split at h
      · injection h with h; rw [← h]; intro hc; cases hc
      · cases h

/-- C11 (evaluation on the code): `byte_count` is unsigned, so the test
`byte_count < 0` of line 32 holds for no value of `ftello`, and `filter_file`
exits with the length failure in no run at all.  When `ftello` returns -1 and
the rewind of line 36 fails too, the exit is the seek failure; when the rewind
succeeds, `byte_count` is `2^64 - 1` and the loop starts: on the four bytes
`[1,0,2,0]` the file is read, filtered and written (`[2,0,4,0]`) before the
second iteration exits with the read failure. -/
theorem C11_length_check_never_fires :
    (∀ (env : Env) (file : List Nat) (num_chan num_coeffs : Nat) (a_coeffs b_coeffs : List FP)
        (samples_per_buffer : Nat) (st : State),
      filter_file_env env file num_chan num_coeffs a_coeffs b_coeffs samples_per_buffer
        ≠ .error (.length_failure, st)) ∧
    filter_file_env
        { ftello := -1, fseeko_set := -1, fread_limit := fun _ => none,
          fseeko_cur_fails := fun _ => false, fwrite_limit := fun _ => none,
          read_after_write := fun _ f p => (f, p) }
        [1, 0, 2, 0] 1 1 [1] [2] 2
      = .error (.seek_failure,
          { file := [1, 0, 2, 0], pos := 0, buffer := [0, 0, 0], input_ringbuf := [0],
            irb_idx := 0, trace := [] }) ∧
    filter_file_env
        { ftello := -1, fseeko_set := 0, fread_limit := fun _ => none,
          fseeko_cur_fails := fun _ => false, fwrite_limit := fun _ => none,
          read_after_write := fun _ f p => (f, p) }
        [1, 0, 2, 0] 1 1 [1] [2] 2
      = .error (.read_failure,
          { file := [2, 0, 4, 0], pos := 4, buffer := [4, 2, 4], input_ringbuf := [2],
            irb_idx := 0, trace := [.fread 0 2, .fwrite 0 2, .fread 4 0] }) := by
  refine ⟨?_, ?_, ?_⟩
  · intro env file nc C a b S st h
    unfold filter_file_env at h
    simp only [Nat.not_lt_zero, if_false] at h
    split_ifs at h
    · injection h with h
      injection h with h1 _
      cases h1
    · exact foldlM_error_inv _ (fun e => e.1 ≠ Failure.length_failure)
        (fun s i e he => chunk_step_env_failure env nc C a b S _ s i e he) _ _ _ h rfl
  · decide!
  · have hbc : (((-1 : Int) % 2 ^ 64).toNat) = 18446744073709551615 := by decide
    unfold filter_file_env
    simp only [hbc, Nat.not_lt_zero, lt_irrefl, if_false]
    apply foldlM_range_error_mono _ 2 _ (by decide)
    decide!

/-- C12 (evaluation on the code): four samples, one channel, chunks of two
samples, so two chunks are expected to be full, and a library that serves a read
after a write as on a flushed stream.  In iteration 0 `fread` returns one item
instead of two.  `filter_file` does not exit: it filters the item, writes it
back at offset 0, goes on reading at offset 2, and returns.  The leftpad is
stale, and the file holds `[1,2,5,9]` where the run without the short read
leaves `[1,3,6,10]`. -/
theorem C12_short_read_not_detected :
    filter_file_env
        { ftello := 8, fseeko_set := 0,
          fread_limit := fun i => if i = 0 then some 2 else none,
          fseeko_cur_fails := fun _ => false, fwrite_limit := fun _ => none,
          read_after_write := fun _ f p => (f, p) }
        (encode_items [1, 2, 3, 4]) 1 2 [1, -1] [1, 0] 2
      = .ok { file := encode_items [1, 2, 5, 9], pos := 8, buffer := [2, 5, 9, 5],
              input_ringbuf := [3, 4], irb_idx := 0,
              trace := [.fread 0 1, .fwrite 0 1, .fread 2 2, .fwrite 2 2,
                        .fread 6 1, .fwrite 6 1] } ∧
    filter_file_env (Env.sound (encode_items [1, 2, 3, 4]))
        (encode_items [1, 2, 3, 4]) 1 2 [1, -1] [1, 0] 2
      = .ok { file := encode_items [1, 3, 6, 10], pos := 8, buffer := [6, 10, 6, 10],
              input_ringbuf := [3, 4], irb_idx := 0,
              trace := [.fread 0 2, .fwrite 0 2, .fread 4 2, .fwrite 4 2,
                        .fread 8 0, .fwrite 8 0] } ∧
    filter_file_env
        { ftello := 8, fseeko_set := 0, fread_limit := fun _ => none,
          fseeko_cur_fails := fun _ => false,
          fwrite_limit := fun i => if i = 0 then some 1 else none,
          read_after_write := fun _ f p => (f, p) }
        (encode_items [1, 2, 3, 4]) 1 2 [1, -1] [1, 0] 2
      = .error (.write_failure,
          { file := [1, 0, 2, 0, 3, 0, 4, 0], pos := 2, buffer := [0, 0, 1, 3],
            input_ringbuf := [1, 2], irb_idx := 0,
            trace := [.fread 0 2, .fwrite 0 1] }) := by
  decide!

/-! ## Bytes in the file, `int16_t` items in the arrays -/

theorem decode16_isInt16 (lo hi : Nat) (h1 : lo < 256) (h2 : hi < 256) :
    isInt16 (decode16 lo hi) := by
  unfold isInt16 decode16 INT16_MIN INT16_MAX
  split_ifs <;> omega

theorem decode_items_items (bs : List Nat) (h : Bytes bs) : Items (decode_items bs) := by
  induction bs using decode_items.induct with
  | case1 lo hi rest ih =>
    intro v hv
    simp only [decode_items, List.mem_cons] at hv
    rcases hv with hv | hv
    · rw [hv]
      exact decode16_isInt16 lo hi (h lo (by simp)) (h hi (by simp))
    · exact ih (fun w hw => h w (by simp [hw])) v hv
  | case2 l hl =>
    match l, hl with
    | [], _ => intro v hv; simp [decode_items] at hv
    | [x], _ => intro v hv; simp [decode_items] at hv
    | lo :: hi :: rest, hl => exact absurd rfl (hl lo hi rest)

theorem encode16_bytes (v : Int) : Bytes (encode16 v) := by
  intro w hw
  unfold encode16 at hw
  simp only [List.mem_cons, List.mem_singleton, List.not_mem_nil, or_false] at hw
  have h1 : (v % 65536).toNat < 65536 := by
    have := Int.emod_lt_of_pos v (show (0 : Int) < 65536 by decide)
    have := Int.emod_nonneg v (show (65536 : Int) ≠ 0 by decide)
    omega
  rcases hw with hw | hw <;> rw [hw] <;> omega

theorem encode_items_bytes (l : List Int) : Bytes (encode_items l) := by
  induction l with
  | nil => intro v hv; simp [encode_items] at hv
  | cons x rest ih =>
    intro v hv
    simp only [encode_items, List.mem_append] at hv
    rcases hv with hv | hv
    · exact encode16_bytes x v hv
    · exact ih v hv

theorem memcpy_items (dst : List Int) (doff : Nat) (src : List Int) (soff n : Nat)
    (hd : Items dst) (hs : Items src) : Items (memcpy dst doff src soff n) := by
  intro v hv
  unfold memcpy at hv
  simp only [List.mem_append] at hv
  rcases hv with (hv | hv) | hv
  · exact hd v (List.mem_of_mem_take hv)
  · exact hs v (List.mem_of_mem_drop (List.mem_of_mem_take hv))
  · exact hd v (List.mem_of_mem_drop hv)

theorem set_items (l : List Int) (i : Nat) (x : Int) (hl : Items l) (hx : isInt16 x) :
    Items (l.set i x) := by
  intro v hv
  rcases List.mem_or_eq_of_mem_set hv with h | h
  · exact hl v h
  · rw [h]; exact hx

theorem partial_byte_mem (bs : List Nat) (b : Nat) (h : partial_byte bs = some b) : b ∈ bs := by
  unfold partial_byte at h
  split_ifs at h
  exact List.mem_of_getLast?_eq_some h

theorem store_odd_byte_items (buffer : List Int) (idx : Nat) (byte : Option Nat)
    (hb : Items buffer) (hbyte : ∀ b, byte = some b → b < 256) :
    Items (store_odd_byte buffer idx byte) := by
  cases byte with
  | none => exact hb
  | some b =>
    unfold store_odd_byte
    apply set_items _ _ _ hb
    apply decode16_isInt16 _ _ (hbyte b rfl)
    have h := encode16_bytes (buffer.getD idx 0)
    unfold encode16 at h ⊢
    exact h _ (by simp)

theorem fread_bytes_bytes (limit : Option Nat) (file : List Nat) (pos count : Nat)
    (h : Bytes file) : Bytes (fread_bytes limit file pos count) := by
  intro v hv
  unfold fread_bytes at hv
  exact h v (List.mem_of_mem_drop (List.mem_of_mem_take (List.mem_of_mem_take hv)))

theorem fwrite_bytes (file : List Nat) (pos : Nat) (items : List Int) (h : Bytes file) :
    Bytes (fwrite file pos items).1 := by
  intro v hv
  unfold fwrite at hv
  simp only [List.mem_append] at hv
  rcases hv with (hv | hv) | hv
  · have := List.mem_of_mem_take hv
    rw [List.mem_append] at this
    rcases this with h1 | h1
    · exact h v h1
    · rw [(List.mem_replicate.mp h1).2]; decide
  · exact encode_items_bytes items v hv
  · exact h v (List.mem_of_mem_drop hv)

theorem stream_at_bytes (env : Env) (henv : env.bytes) (st : State) (i : Nat)
    (h : Bytes st.file) : Bytes (stream_at env st i).1 := by
  unfold stream_at
  split_ifs
  · exact henv _ _ _ h
  · exact h

theorem chan_step_items (nc C : Nat) (a b : List FP) (hist s : Nat) (ring : List Int)
    (irb : Nat) (buffer : List Int) (c : Nat) (hb : Items buffer) :
    Items (chan_step nc C a b hist s ring irb buffer c) := by
  unfold chan_step
  exact set_items _ _ _ hb (to_int16_clamp_isInt16 _)

theorem chan_fold_items (nc C : Nat) (a b : List FP) (hist s : Nat) (ring : List Int)
    (irb n : Nat) (buffer : List Int) (hb : Items buffer) :
    Items ((List.range n).foldl (chan_step nc C a b hist s ring irb) buffer) :=
  foldl_range_inv (chan_step nc C a b hist s ring irb) (fun _ buf => Items buf) n buffer hb
    (fun j buf _ h => chan_step_items nc C a b hist s ring irb buf j h)

theorem samp_step_items (nc C : Nat) (a b : List FP) (hist : Nat)
    (st : List Int × List Int × Nat) (s : Nat) (hb : Items st.1) (hr : Items st.2.1) :
    Items (samp_step nc C a b hist st s).1 ∧ Items (samp_step nc C a b hist st s).2.1 :=
  ⟨chan_fold_items nc C a b hist s _ _ nc _ hb, memcpy_items _ _ _ _ _ hr hb⟩

theorem samp_fold_items (nc C : Nat) (a b : List FP) (hist n : Nat)
    (st : List Int × List Int × Nat) (hb : Items st.1) (hr : Items st.2.1) :
    Items ((List.range n).foldl (samp_step nc C a b hist) st).1 ∧
    Items ((List.range n).foldl (samp_step nc C a b hist) st).2.1 :=
  foldl_range_inv (samp_step nc C a b hist) (fun _ t => Items t.1 ∧ Items t.2.1) n st ⟨hb, hr⟩
    (fun j t _ h => samp_step_items nc C a b hist t j h.1 h.2)

theorem chunk_loaded_env_items (env : Env) (henv : env.bytes) (nc C S : Nat) (st : State)
    (i : Nat) (h : Wf st) :
    Items (chunk_loaded_env env nc C S st i).1 ∧ Items (chunk_loaded_env env nc C S st i).2.1 := by
  obtain ⟨hf, hb, hr⟩ := h
  have hsb := stream_at_bytes env henv st i hf
  refine ⟨?_, hr⟩
  unfold chunk_loaded_env
  simp only
  apply store_odd_byte_items
  · have hm := memcpy_items st.buffer 0 st.buffer (nc * S) (hist_size nc C) hb hb
    intro v hv
    simp only [List.mem_append] at hv
    rcases hv with (hv | hv) | hv
    · exact hm v (List.mem_of_mem_take hv)
    · unfold read_env fread_env at hv
      exact decode_items_items _ (fread_bytes_bytes _ _ _ _ hsb) v hv
    · exact hm v (List.mem_of_mem_drop hv)
  · intro b0 hb0
    exact fread_bytes_bytes _ _ _ _ hsb b0 (partial_byte_mem _ _ hb0)

theorem at_sample_env_items (env : Env) (henv : env.bytes) (nc C : Nat) (a b : List FP)
    (S : Nat) (st : State) (i s : Nat) (h : Wf st) :
    Items (at_sample_env env nc C a b S st i s).1 ∧
    Items (at_sample_env env nc C a b S st i s).2.1 := by
  obtain ⟨h1, h2⟩ := chunk_loaded_env_items env henv nc C S st i h
  exact samp_fold_items nc C a b _ s _ h1 h2

theorem chunk_step_env_file (env : Env) (nc C : Nat) (a b : List FP) (S nb : Nat)
    (st s : State) (i : Nat) (h : chunk_step_env env nc C a b S nb st i = .ok s) :
    ∃ pos items, s.file = (fwrite (stream_at env st i).1 pos items).1 := by
  unfold chunk_step_env at h
  simp only at h
  split at h
  · cases h
  · split at h
    · cases h
    · split at h
      · cases h
      · injection h with h
        rw [← h]
        exact ⟨_, _, rfl⟩

/-- An iteration of the chunk loop that succeeds leaves bytes in the file and
`int16_t` items in the buffer and in the ring. -/
theorem chunk_step_env_wf (env : Env) (henv : env.bytes) (nc C : Nat) (a b : List FP)
    (S nb : Nat) (st s : State) (i : Nat) (hwf : Wf st)
    (h : chunk_step_env env nc C a b S nb st i = .ok s) : Wf s := by
  obtain ⟨h1, h2, _⟩ := chunk_step_env_buffers env nc C a b S nb st s i h
  obtain ⟨pos, items, hfile⟩ := chunk_step_env_file env nc C a b S nb st s i h
  obtain ⟨hi1, hi2⟩ := at_sample_env_items env henv nc C a b S st i
    ((read_env env nc S st i).1.length / nc) hwf
  refine ⟨?_, ?_, ?_⟩
  · rw [hfile]
    exact fwrite_bytes _ _ _ (stream_at_bytes env henv st i hwf.1)
  · rw [h1]; exact hi1
  · rw [h2]; exact hi2

theorem replicate_items (n : Nat) : Items (List.replicate n 0) := by
  intro v hv
  rw [(List.mem_replicate.mp hv).2]
  decide

theorem run_chunks_env_wf (env : Env) (henv : env.bytes) (file : List Nat) (hfile : Bytes file)
    (nc C : Nat) (a b : List FP) (S i : Nat) (st : State)
    (hrun : run_chunks_env env file nc C a b S i = .ok st) : Wf st := by
  unfold run_chunks_env at hrun
  exact foldlM_range_ok_inv _ (fun _ s => Wf s) i _ st
    ⟨hfile, replicate_items _, replicate_items _⟩
    (fun j s s' _ hp hf => chunk_step_env_wf env henv nc C a b S _ s s' j hp hf) hrun

/-! ## Saturation -/

/-- C5: the sample that the channel loop stores is a 16-bit value; it is 32767
whenever the accumulator divided by `a[0]` exceeds 32767 (a number above 32767,
or the positive infinity) and -32768 whenever it is below -32768 (a number below
-32768, or the negative infinity).  Hence every sample that `filter_file` leaves
in a stream of 16-bit samples lies in `[-32768, 32767]`: in a stream shorter than
one chunk; in a stream of any number of chunks with a library that serves each
read as on a flushed stream; and, whatever the library does at a read that
follows a write, every item of the buffer from which the chunks are written is a
16-bit value after every iteration. -/
theorem C5_saturation (num_chan num_coeffs samples_per_chunk : Nat) (a_coeffs b_coeffs : List FP)
    (hist_size samp_idx irb_idx chan_idx : Nat) (input_ringbuf buffer x : List Int)
    (hloc : hist_size + samp_idx * num_chan + chan_idx < buffer.length)
    (hnc : 1 ≤ num_chan) (hS : 1 ≤ samples_per_chunk) (hC : 1 ≤ num_coeffs)
    (hx : ∀ v ∈ x, isInt16 v) :
    (isInt16 ((chan_step num_chan num_coeffs a_coeffs b_coeffs hist_size samp_idx
        input_ringbuf irb_idx buffer chan_idx).getD
          (hist_size + samp_idx * num_chan + chan_idx) 0) ∧
     (∀ v : ℚ, accumulate num_chan num_coeffs a_coeffs b_coeffs input_ringbuf buffer irb_idx
          chan_idx (hist_size + samp_idx * num_chan + chan_idx) = .fin v → v > 32767 →
      (chan_step num_chan num_coeffs a_coeffs b_coeffs hist_size samp_idx
        input_ringbuf irb_idx buffer chan_idx).getD
          (hist_size + samp_idx * num_chan + chan_idx) 0 = 32767) ∧
     (∀ v : ℚ, accumulate num_chan num_coeffs a_coeffs b_coeffs input_ringbuf buffer irb_idx
          chan_idx (hist_size + samp_idx * num_chan + chan_idx) = .fin v → v < -32768 →
      (chan_step num_chan num_coeffs a_coeffs b_coeffs hist_size samp_idx
        input_ringbuf irb_idx buffer chan_idx).getD
          (hist_size + samp_idx * num_chan + chan_idx) 0 = -32768) ∧
     (accumulate num_chan num_coeffs a_coeffs b_coeffs input_ringbuf buffer irb_idx
          chan_idx (hist_size + samp_idx * num_chan + chan_idx) = .inf false →
      (chan_step num_chan num_coeffs a_coeffs b_coeffs hist_size samp_idx
        input_ringbuf irb_idx buffer chan_idx).getD
          (hist_size + samp_idx * num_chan + chan_idx) 0 = 32767) ∧
     (accumulate num_chan num_coeffs a_coeffs b_coeffs input_ringbuf buffer irb_idx
          chan_idx (hist_size + samp_idx * num_chan + chan_idx) = .inf true →
      (chan_step num_chan num_coeffs a_coeffs b_coeffs hist_size samp_idx
        input_ringbuf irb_idx buffer chan_idx).getD
          (hist_size + samp_idx * num_chan + chan_idx) 0 = -32768)) ∧
    (x.length < num_chan * samples_per_chunk →
      ∃ y : List Int,
        filtered (encode_items x) num_chan num_coeffs a_coeffs b_coeffs samples_per_chunk
          = .ok (encode_items y) ∧ ∀ v ∈ y, isInt16 v) ∧
    ((encode_items x).length < 2 ^ 64 →
      ∃ y : List Int,
        (filter_file_env (Env.sound (encode_items x)) (encode_items x) num_chan num_coeffs
          a_coeffs b_coeffs samples_per_chunk).map State.file = .ok (encode_items y) ∧
        ∀ v ∈ y, isInt16 v) ∧
    (∀ (env : Env) (file : List Nat) (buf_idx : Nat) (st : State),
      env.bytes → Bytes file →
      run_chunks_env env file num_chan num_coeffs a_coeffs b_coeffs samples_per_chunk buf_idx
        = .ok st →
      (∀ v ∈ st.buffer, isInt16 v) ∧ Bytes st.file) := by
  have hst : (chan_step num_chan num_coeffs a_coeffs b_coeffs hist_size samp_idx
      input_ringbuf irb_idx buffer chan_idx).getD
        (hist_size + samp_idx * num_chan + chan_idx) 0
      = to_int16 (clamp (accumulate num_chan num_coeffs a_coeffs b_coeffs input_ringbuf buffer
          irb_idx chan_idx (hist_size + samp_idx * num_chan + chan_idx))) := by
    unfold chan_step
    simp only
    rw [getD_set_eq, if_pos ⟨rfl, hloc⟩]
  rw [hst]
  refine ⟨⟨to_int16_clamp_isInt16 _, ?_, ?_, ?_, ?_⟩, ?_, ?_, ?_⟩
  · intro v hv hgt
    rw [hv]
    exact to_int16_clamp_of_gt _ (by
      simp only [fgt, INT16_MAX, decide_eq_true_eq]
      exact_mod_cast hgt)
  · intro v hv hlt
    rw [hv]
    exact to_int16_clamp_of_lt _ (by
      simp only [flt, INT16_MIN, decide_eq_true_eq]
      exact_mod_cast hlt)
  · intro hv
    rw [hv]
    exact to_int16_clamp_of_gt _ rfl
  · intro hv
    rw [hv]
    exact to_int16_clamp_of_lt _ rfl
  · intro hone
    exact ⟨reference num_chan num_coeffs a_coeffs b_coeffs x,
      filtered_eq_reference num_chan num_coeffs samples_per_chunk a_coeffs b_coeffs x hnc hS hC
        hx hone,
      reference_isInt16 num_chan num_coeffs a_coeffs b_coeffs x hx⟩
  · intro hlen
    exact ⟨reference num_chan num_coeffs a_coeffs b_coeffs x,
      flushed_eq_reference num_chan num_coeffs samples_per_chunk a_coeffs b_coeffs x hnc hS hC
        hx hlen,
      reference_isInt16 num_chan num_coeffs a_coeffs b_coeffs x hx⟩
  · intro env file buf_idx st henv hfile hrun
    have h := run_chunks_env_wf env henv file hfile num_chan num_coeffs a_coeffs b_coeffs
      samples_per_chunk buf_idx st hrun
    exact ⟨h.2.1, h.1⟩

/-- Witness of C5: with `a=[1]`, `b=[2]` the input sample 20000 makes the
accumulator 40000 and the stored sample 32767; the input sample -20000 makes the
accumulator -40000 and the stored sample -32768. -/
theorem C5_saturation_witness :
    accumulate 1 1 [1] [2] [20000] [0, 20000] 0 0 1 = 40000 ∧
    (chan_step 1 1 [1] [2] 1 0 [20000] 0 [0, 20000] 0).getD 1 0 = 32767 ∧
    accumulate 1 1 [1] [2] [-20000] [0, -20000] 0 0 1 = -40000 ∧
    (chan_step 1 1 [1] [2] 1 0 [-20000] 0 [0, -20000] 0).getD 1 0 = -32768 :=
  ⟨by decide!,
   (C5_saturation 1 1 1000 [1] [2] 1 0 0 0 [20000] [0, 20000] [20000] (by decide) (by decide)
      (by decide) (by decide) (by decide)).1.2.1 40000 (by decide!) (by norm_num),
   by decide!,
   (C5_saturation 1 1 1000 [1] [2] 1 0 0 0 [-20000] [0, -20000] [-20000] (by decide) (by decide)
      (by decide) (by decide) (by decide)).1.2.2.1 (-40000) (by decide!) (by norm_num)⟩

/-! ## Powers of two and binary logarithms -/

theorem pow2_eq_zpow (e : Int) : pow2 e = (2 : ℚ) ^ e := by
  unfold pow2
  split_ifs with h
  · obtain ⟨n, rfl⟩ := Int.eq_ofNat_of_zero_le h
    simp
  · obtain ⟨n, rfl⟩ : ∃ n : Nat, e = -(n : Int) := ⟨(-e).toNat, by omega⟩
    simp

theorem pow2_pos (e : Int) : 0 < pow2 e := by
  rw [pow2_eq_zpow]
  exact zpow_pos (by norm_num) e

theorem pow2_ne_zero (e : Int) : pow2 e ≠ 0 := ne_of_gt (pow2_pos e)

theorem pow2_add (i j : Int) : pow2 (i + j) = pow2 i * pow2 j := by
  simp only [pow2_eq_zpow]
  exact zpow_add₀ (by norm_num) i j

theorem pow2_le (i j : Int) (h : i ≤ j) : pow2 i ≤ pow2 j := by
  simp only [pow2_eq_zpow]
  exact zpow_le_zpow_right₀ (by norm_num) h

theorem pow2_lt_iff (i j : Int) : pow2 i < pow2 j ↔ i < j := by
  simp only [pow2_eq_zpow]
  exact zpow_lt_zpow_iff_right₀ (by norm_num)

theorem pow2_natCast (n : Nat) : pow2 (n : Int) = ((2 ^ n : Nat) : ℚ) := by
  rw [pow2_eq_zpow]
  simp

/-- A power of two with a natural exponent is an integer. -/
theorem pow2_int (j : Int) (h : 0 ≤ j) : ∃ m : Int, 0 < m ∧ pow2 j = (m : ℚ) := by
  obtain ⟨n, rfl⟩ := Int.eq_ofNat_of_zero_le h
  refine ⟨((2 ^ n : Nat) : Int), by positivity, ?_⟩
  rw [pow2_natCast]
  push_cast
  rfl

theorem nlog2_aux_spec (fuel n : Nat) (hf : n ≤ fuel) (hn : n ≠ 0) :
    2 ^ nlog2_aux fuel n ≤ n ∧ n < 2 ^ (nlog2_aux fuel n + 1) := by
  induction fuel generalizing n with
  | zero => omega
  | succ fuel ih =>
    unfold nlog2_aux
    split_ifs with h2
    · simp only [pow_zero, zero_add, pow_one]
      omega
    · obtain ⟨h1, h3⟩ := ih (n / 2) (by omega) (by omega)
      rw [pow_succ] at h3 ⊢
      rw [pow_succ (2 : Nat) (nlog2_aux fuel (n / 2) + 1), pow_succ]
      omega

theorem nlog2_spec (n : Nat) (hn : n ≠ 0) : 2 ^ nlog2 n ≤ n ∧ n < 2 ^ (nlog2 n + 1) :=
  nlog2_aux_spec n n (le_refl n) hn

theorem abs_eq_natAbs_div (q : ℚ) : |q| = (q.num.natAbs : ℚ) / (q.den : ℚ) := by
  have h : q = (q.num : ℚ) / (q.den : ℚ) := (Rat.num_div_den q).symm
  have hd : (0 : ℚ) < (q.den : ℚ) := by exact_mod_cast q.den_pos
  conv_lhs => rw [h]
  rw [abs_div, abs_of_pos hd, Nat.cast_natAbs, Int.cast_abs]

/-- The specification of `ilog2`. -/
theorem ilog2_spec (q : ℚ) (hq : q ≠ 0) : pow2 (ilog2 q) ≤ |q| ∧ |q| < pow2 (ilog2 q + 1) := by
  have hN : q.num.natAbs ≠ 0 := by
    rw [Ne, Int.natAbs_eq_zero]
    exact Rat.num_ne_zero.mpr hq
  have hD : q.den ≠ 0 := q.den_nz
  obtain ⟨hn1, hn2⟩ := nlog2_spec q.num.natAbs hN
  obtain ⟨hd1, hd2⟩ := nlog2_spec q.den hD
  have hdpos : (0 : ℚ) < (q.den : ℚ) := by exact_mod_cast q.den_pos
  have habs := abs_eq_natAbs_div q
  have hn1q : pow2 (nlog2 q.num.natAbs : Int) ≤ (q.num.natAbs : ℚ) := by
    rw [pow2_natCast]; exact_mod_cast hn1
  have hn2q : (q.num.natAbs : ℚ) < pow2 ((nlog2 q.num.natAbs : Int) + 1) := by
    have : ((nlog2 q.num.natAbs : Int) + 1) = ((nlog2 q.num.natAbs + 1 : Nat) : Int) := by
      push_cast; rfl
    rw [this, pow2_natCast]; exact_mod_cast hn2
  have hd1q : pow2 (nlog2 q.den : Int) ≤ (q.den : ℚ) := by
    rw [pow2_natCast]; exact_mod_cast hd1
  have hd2q : (q.den : ℚ) < pow2 ((nlog2 q.den : Int) + 1) := by
    have : ((nlog2 q.den : Int) + 1) = ((nlog2 q.den + 1 : Nat) : Int) := by
      push_cast; rfl
    rw [this, pow2_natCast]; exact_mod_cast hd2
  -- the two-sided bound on `|q|`
  have hup : |q| < pow2 ((nlog2 q.num.natAbs : Int) - (nlog2 q.den : Int) + 1) := by
    rw [habs, div_lt_iff₀ hdpos]
    have e1 : pow2 ((nlog2 q.num.natAbs : Int) - (nlog2 q.den : Int) + 1)
        * pow2 (nlog2 q.den : Int) = pow2 ((nlog2 q.num.natAbs : Int) + 1) := by
      rw [← pow2_add]; congr 1; ring
    calc (q.num.natAbs : ℚ) < pow2 ((nlog2 q.num.natAbs : Int) + 1) := hn2q
      _ = pow2 ((nlog2 q.num.natAbs : Int) - (nlog2 q.den : Int) + 1)
            * pow2 (nlog2 q.den : Int) := e1.symm
      _ ≤ pow2 ((nlog2 q.num.natAbs : Int) - (nlog2 q.den : Int) + 1) * (q.den : ℚ) :=
          mul_le_mul_of_nonneg_left hd1q (le_of_lt (pow2_pos _))
  have hlo : pow2 ((nlog2 q.num.natAbs : Int) - (nlog2 q.den : Int) - 1) ≤ |q| := by
    rw [habs, le_div_iff₀ hdpos]
    have e1 : pow2 ((nlog2 q.num.natAbs : Int) - (nlog2 q.den : Int) - 1)
        * pow2 ((nlog2 q.den : Int) + 1) = pow2 (nlog2 q.num.natAbs : Int) := by
      rw [← pow2_add]; congr 1; ring
    calc pow2 ((nlog2 q.num.natAbs : Int) - (nlog2 q.den : Int) - 1) * (q.den : ℚ)
        ≤ pow2 ((nlog2 q.num.natAbs : Int) - (nlog2 q.den : Int) - 1)
            * pow2 ((nlog2 q.den : Int) + 1) :=
          mul_le_mul_of_nonneg_left (le_of_lt hd2q) (le_of_lt (pow2_pos _))
      _ = pow2 (nlog2 q.num.natAbs : Int) := e1
      _ ≤ (q.num.natAbs : ℚ) := hn1q
  unfold ilog2
  split_ifs with h
  · exact ⟨h, hup⟩
  · refine ⟨hlo, ?_⟩
    rw [sub_add_cancel]
    exact lt_of_not_le h

theorem ilog2_unique (q : ℚ) (hq : q ≠ 0) (j : Int) (h1 : pow2 j ≤ |q|)
    (h2 : |q| < pow2 (j + 1)) : ilog2 q = j := by
  obtain ⟨s1, s2⟩ := ilog2_spec q hq
  have a1 : ilog2 q < j + 1 := (pow2_lt_iff _ _).mp (lt_of_le_of_lt s1 h2)
  have a2 : j < ilog2 q + 1 := (pow2_lt_iff _ _).mp (lt_of_le_of_lt h1 s2)
  omega

theorem ilog2_scale (e : Int) (q : ℚ) (hq : q ≠ 0) : ilog2 (pow2 e * q) = ilog2 q + e := by
  obtain ⟨s1, s2⟩ := ilog2_spec q hq
  have habs : |pow2 e * q| = pow2 e * |q| := by
    rw [abs_mul, abs_of_pos (pow2_pos e)]
  apply ilog2_unique _ (mul_ne_zero (pow2_ne_zero e) hq)
  · rw [habs, pow2_add, mul_comm]
    exact mul_le_mul_of_nonneg_left s1 (le_of_lt (pow2_pos e))
  · rw [habs, show ilog2 q + e + 1 = e + (ilog2 q + 1) by ring, pow2_add]
    exact mul_lt_mul_of_pos_left s2 (pow2_pos e)

theorem ilog2_lt (q : ℚ) (hq : q ≠ 0) (j : Int) (h : |q| < pow2 j) : ilog2 q < j :=
  (pow2_lt_iff _ _).mp (lt_of_le_of_lt (ilog2_spec q hq).1 h)

theorem le_ilog2 (q : ℚ) (hq : q ≠ 0) (j : Int) (h : pow2 j ≤ |q|) : j ≤ ilog2 q := by
  have := (pow2_lt_iff _ _).mp (lt_of_le_of_lt h (ilog2_spec q hq).2)
  omega

/-! ## Rounding to nearest -/

theorem rne_intCast (n : Int) : rne (n : ℚ) = n := by
  unfold rne
  rw [Int.floor_intCast, sub_self, if_pos (by norm_num)]

theorem rne_le (t : ℚ) (m : Int) (h : t ≤ m) : rne t ≤ m := by
  have hf : ⌊t⌋ ≤ m := Int.floor_le_iff.mpr (lt_of_le_of_lt h (by exact_mod_cast Int.lt_succ m))
  have hlt : t - ⌊t⌋ ≠ 0 → ⌊t⌋ + 1 ≤ m := by
    intro hne
    have h1 : ((⌊t⌋ : Int) : ℚ) < t := lt_of_le_of_ne (Int.floor_le t) (fun hh => hne (by
      rw [hh, sub_self]))
    have h2 : ((⌊t⌋ : Int) : ℚ) < (m : ℚ) := lt_of_lt_of_le h1 h
    have h3 : ⌊t⌋ < m := by exact_mod_cast h2
    omega
  unfold rne
  split_ifs with c1 c2 c3
  · exact hf
  · exact hlt (by intro h0; rw [h0] at c2; norm_num at c2)
  · exact hf
  · exact hlt (by intro h0; rw [h0] at c1; norm_num at c1)

theorem le_rne (t : ℚ) (m : Int) (h : (m : ℚ) ≤ t) : m ≤ rne t := by
  have hf : m ≤ ⌊t⌋ := Int.le_floor.mpr h
  unfold rne
  split_ifs <;> omega

theorem abs_rne_le (t : ℚ) (m : Int) (h : |t| ≤ m) : |((rne t : Int) : ℚ)| ≤ m := by
  obtain ⟨h1, h2⟩ := abs_le.mp h
  rw [abs_le]
  constructor
  · have := le_rne t (-m) (by push_cast; exact h1)
    exact_mod_cast this
  · exact_mod_cast rne_le t m h2

theorem le_abs_rne (t : ℚ) (m : Int) (hm : 0 ≤ m) (h : (m : ℚ) ≤ |t|) :
    (m : ℚ) ≤ |((rne t : Int) : ℚ)| := by
  rcases le_abs'.mp h with h1 | h1
  · have h2 := rne_le t (-m) (by push_cast; exact h1)
    have h3 : ((rne t : Int) : ℚ) ≤ -(m : ℚ) := by exact_mod_cast h2
    rw [abs_of_nonpos (by
      have : (0 : ℚ) ≤ m := by exact_mod_cast hm
      linarith)]
    linarith
  · have h2 := le_rne t m h1
    have h3 : (m : ℚ) ≤ ((rne t : Int) : ℚ) := by exact_mod_cast h2
    exact le_trans h3 (le_abs_self _)

/-- A bound that is a multiple of the unit in the last place is kept by the
rounding. -/
theorem round_fin_abs_le (fmt : Format) (q : ℚ) (m : Int)
    (h : |q| ≤ (m : ℚ) * pow2 (ulp_exp fmt q)) :
    |round_fin fmt q| ≤ (m : ℚ) * pow2 (ulp_exp fmt q) := by
  have hp := pow2_pos (ulp_exp fmt q)
  unfold round_fin
  rw [abs_mul, abs_of_pos hp]
  apply mul_le_mul_of_nonneg_right _ (le_of_lt hp)
  apply abs_rne_le
  rw [abs_div, abs_of_pos hp, div_le_iff₀ hp]
  exact h

theorem round_fin_abs_ge (fmt : Format) (q : ℚ) (m : Int) (hm : 0 ≤ m)
    (h : (m : ℚ) * pow2 (ulp_exp fmt q) ≤ |q|) :
    (m : ℚ) * pow2 (ulp_exp fmt q) ≤ |round_fin fmt q| := by
  have hp := pow2_pos (ulp_exp fmt q)
  unfold round_fin
  rw [abs_mul, abs_of_pos hp]
  apply mul_le_mul_of_nonneg_right _ (le_of_lt hp)
  apply le_abs_rne _ _ hm
  rw [abs_div, abs_of_pos hp, le_div_iff₀ hp]
  exact h

/-- A multiple of the unit in the last place is not changed by the rounding. -/
theorem round_fin_of_multiple (fmt : Format) (q : ℚ) (m : Int)
    (h : q = (m : ℚ) * pow2 (ulp_exp fmt q)) : round_fin fmt q = q := by
  have hp := pow2_ne_zero (ulp_exp fmt q)
  unfold round_fin
  have : q / pow2 (ulp_exp fmt q) = (m : ℚ) := by
    rw [div_eq_iff hp]; exact h
  rw [this, rne_intCast]
  exact h.symm

/-- The rounding commutes with the scaling by a power of two that shifts the
unit in the last place by the same power. -/
theorem round_fin_scale (fmt : Format) (e : Int) (q : ℚ)
    (hu : ulp_exp fmt (pow2 e * q) = ulp_exp fmt q + e) :
    round_fin fmt (pow2 e * q) = pow2 e * round_fin fmt q := by
  unfold round_fin
  rw [hu, pow2_add]
  have he := pow2_ne_zero e
  have hp := pow2_ne_zero (ulp_exp fmt q)
  have : pow2 e * q / (pow2 (ulp_exp fmt q) * pow2 e) = q / pow2 (ulp_exp fmt q) := by
    field_simp
    ring
  rw [this]
  ring

theorem ulp_exp_normal (fmt : Format) (q : ℚ)
    (h : fmt.emin ≤ ilog2 q - ((fmt.prec : Int) - 1)) :
    ulp_exp fmt q = ilog2 q - ((fmt.prec : Int) - 1) := by
  unfold ulp_exp
  exact max_eq_left h

theorem ulp_exp_scale (fmt : Format) (e : Int) (q : ℚ) (hq : q ≠ 0)
    (h : fmt.emin ≤ ilog2 q - ((fmt.prec : Int) - 1))
    (h' : fmt.emin ≤ ilog2 q + e - ((fmt.prec : Int) - 1)) :
    ulp_exp fmt (pow2 e * q) = ulp_exp fmt q + e := by
  rw [ulp_exp_normal fmt q h, ulp_exp_normal fmt (pow2 e * q) (by rw [ilog2_scale e q hq]; exact h'),
    ilog2_scale e q hq]
  ring

theorem scale_zero (e : Int) (s : Bool) : (FP.zero s).scale e = FP.zero s := by
  cases s
  · show FP.fin (pow2 e * 0) = FP.fin 0
    rw [mul_zero]
  · rfl

theorem scale_lt_zero (e : Int) (q : ℚ) : decide (pow2 e * q < 0) = decide (q < 0) := by
  have hp := pow2_pos e
  congr 1
  apply propext
  constructor
  · intro h
    by_contra hc
    have : 0 ≤ pow2 e * q := mul_nonneg (le_of_lt hp) (not_lt.mp hc)
    linarith
  · intro h
    exact mul_neg_of_pos_of_neg hp h

/-- The rounded result of an operation commutes with the scaling by a power of
two, when neither the result nor the scaled result is subnormal or overflows. -/
theorem round_scale (fmt : Format) (e : Int) (q : ℚ) (hq : q ≠ 0)
    (h : fmt.emin ≤ ilog2 q - ((fmt.prec : Int) - 1))
    (h' : fmt.emin ≤ ilog2 q + e - ((fmt.prec : Int) - 1))
    (ho : |round_fin fmt q| < pow2 fmt.emax)
    (ho' : pow2 e * |round_fin fmt q| < pow2 fmt.emax) :
    round fmt (pow2 e * q) = (round fmt q).scale e := by
  have hrf := round_fin_scale fmt e q (ulp_exp_scale fmt e q hq h h')
  have habs : |pow2 e * round_fin fmt q| = pow2 e * |round_fin fmt q| := by
    rw [abs_mul, abs_of_pos (pow2_pos e)]
  unfold round
  rw [hrf, habs, if_neg (not_le.mpr ho'), if_neg (not_le.mpr ho), scale_lt_zero]
  by_cases h0 : round_fin fmt q = 0
  · rw [if_pos h0, if_pos (by rw [h0, mul_zero]), scale_zero]
  · rw [if_neg h0, if_neg (mul_ne_zero (pow2_ne_zero e) h0)]
    rfl

/-! ## Sums of products under a scaling of the coefficients -/

theorem grid_zero : Grid 0 := ⟨0, by simp⟩

theorem grid_neg (q : ℚ) (h : Grid q) : Grid (-q) := by
  obtain ⟨m, rfl⟩ := h
  exact ⟨-m, by push_cast; ring⟩

theorem grid_add (p q : ℚ) (hp : Grid p) (hq : Grid q) : Grid (p + q) := by
  obtain ⟨m, rfl⟩ := hp
  obtain ⟨n, rfl⟩ := hq
  exact ⟨m + n, by push_cast; ring⟩

theorem grid_of_ulp (u : Int) (hu : -149 ≤ u) (m : Int) : Grid ((m : ℚ) * pow2 u) := by
  obtain ⟨n, _, hn⟩ := pow2_int (u + 149) (by omega)
  refine ⟨m * n, ?_⟩
  have : pow2 u = pow2 (u + 149) * pow2 (-149) := by
    rw [← pow2_add]; congr 1; ring
  rw [this, hn]
  push_cast
  ring

theorem grid_abs_ge (q : ℚ) (h : Grid q) (hq : q ≠ 0) : pow2 (-149) ≤ |q| := by
  obtain ⟨m, rfl⟩ := h
  have hm : m ≠ 0 := by
    intro h0
    apply hq
    rw [h0]
    simp
  rw [abs_mul, abs_of_pos (pow2_pos _)]
  have h1 : (1 : ℚ) ≤ |(m : ℚ)| := by
    have : (1 : Int) ≤ |m| := Int.one_le_abs hm
    exact_mod_cast this
  calc pow2 (-149) = 1 * pow2 (-149) := (one_mul _).symm
    _ ≤ |(m : ℚ)| * pow2 (-149) := mul_le_mul_of_nonneg_right h1 (le_of_lt (pow2_pos _))

theorem round_fin_grid_of_ulp (fmt : Format) (q : ℚ) (hu : -149 ≤ ulp_exp fmt q) :
    Grid (round_fin fmt q) :=
  grid_of_ulp _ hu _

theorem round_fin_grid (fmt : Format) (q : ℚ) (h : Grid q) : Grid (round_fin fmt q) := by
  by_cases hu : -149 ≤ ulp_exp fmt q
  · exact round_fin_grid_of_ulp fmt q hu
  · obtain ⟨m, hm⟩ := h
    obtain ⟨n, _, hn⟩ := pow2_int (-149 - ulp_exp fmt q) (by omega)
    have hq : q = ((m * n : Int) : ℚ) * pow2 (ulp_exp fmt q) := by
      have : pow2 (-149) = pow2 (-149 - ulp_exp fmt q) * pow2 (ulp_exp fmt q) := by
        rw [← pow2_add]; congr 1; ring
      calc q = (m : ℚ) * pow2 (-149) := hm
        _ = ((m * n : Int) : ℚ) * pow2 (ulp_exp fmt q) := by
          rw [this, hn]
          push_cast
          ring
    rw [round_fin_of_multiple fmt q _ hq]
    exact ⟨m, hm⟩

/-- A bound `k * 2^j` with `2^j` a multiple of the unit in the last place is kept
by the rounding. -/
theorem round_fin_bound (fmt : Format) (q : ℚ) (k : Nat) (j : Int) (hj : ulp_exp fmt q ≤ j)
    (h : |q| ≤ (k : ℚ) * pow2 j) : |round_fin fmt q| ≤ (k : ℚ) * pow2 j := by
  obtain ⟨n, _, hn⟩ := pow2_int (j - ulp_exp fmt q) (by omega)
  have hp : pow2 j = (n : ℚ) * pow2 (ulp_exp fmt q) := by
    rw [← hn, ← pow2_add]; congr 1; ring
  have hk : (k : ℚ) * pow2 j = (((k : Int) * n : Int) : ℚ) * pow2 (ulp_exp fmt q) := by
    rw [hp]
    push_cast
    ring
  rw [hk] at h ⊢
  exact round_fin_abs_le fmt q _ h

theorem accOK_zero (k : Nat) (s : Bool) : AccOK k (FP.zero s) := by
  cases s
  · show Grid 0 ∧ |(0 : ℚ)| ≤ (k : ℚ) * pow2 127
    refine ⟨grid_zero, ?_⟩
    rw [abs_zero]
    exact mul_nonneg (Nat.cast_nonneg k) (le_of_lt (pow2_pos _))
  · exact True.intro

theorem accOK_round (fmt : Format) (k : Nat) (q : ℚ) (hg : Grid (round_fin fmt q))
    (hb : |round_fin fmt q| ≤ (k : ℚ) * pow2 127) (ho : |round_fin fmt q| < pow2 fmt.emax) :
    AccOK k (round fmt q) := by
  unfold round
  rw [if_neg (not_le.mpr ho)]
  split_ifs
  · exact accOK_zero k _
  · exact ⟨hg, hb⟩

theorem accOK_cases (k : Nat) (u : FP) (h : AccOK k u) :
    u = .nzero ∨ ∃ q, u = .fin q ∧ Grid q ∧ |q| ≤ (k : ℚ) * pow2 127 := by
  cases u with
  | fin q => exact Or.inr ⟨q, rfl, h.1, h.2⟩
  | nzero => exact Or.inl rfl
  | inf s => exact absurd h (by unfold AccOK; exact not_false)
  | nan => exact absurd h (by unfold AccOK; exact not_false)

theorem accOK_val (k : Nat) (u : FP) (h : AccOK k u) :
    Grid u.val ∧ |u.val| ≤ (k : ℚ) * pow2 127 := by
  rcases accOK_cases k u h with rfl | ⟨q, rfl, hg, hb⟩
  · refine ⟨grid_zero, ?_⟩
    show |(0 : ℚ)| ≤ _
    rw [abs_zero]
    exact mul_nonneg (Nat.cast_nonneg k) (le_of_lt (pow2_pos _))
  · exact ⟨hg, hb⟩

theorem val_scale (e : Int) (u : FP) : (u.scale e).val = pow2 e * u.val := by
  cases u with
  | fin q => rfl
  | nzero => show (0 : ℚ) = pow2 e * 0; rw [mul_zero]
  | inf s => show (0 : ℚ) = pow2 e * 0; rw [mul_zero]
  | nan => show (0 : ℚ) = pow2 e * 0; rw [mul_zero]

theorem sign_scale (e : Int) (u : FP) : (u.scale e).sign = u.sign := by
  cases u with
  | fin q => exact scale_lt_zero e q
  | nzero => rfl
  | inf s => rfl
  | nan => rfl

theorem dadd_finite (u v : FP) (hu : u = .nzero ∨ ∃ q, u = .fin q)
    (hv : v = .nzero ∨ ∃ q, v = .fin q) :
    dadd u v = if u.val + v.val = 0 then FP.zero (u.sign && v.sign)
      else round binary64 (u.val + v.val) := by
  rcases hu with rfl | ⟨p, rfl⟩ <;> rcases hv with rfl | ⟨q, rfl⟩ <;> rfl

theorem scale_finite (e : Int) (u : FP) (hu : u = .nzero ∨ ∃ q, u = .fin q) :
    u.scale e = .nzero ∨ ∃ q, u.scale e = .fin q := by
  rcases hu with rfl | ⟨p, rfl⟩
  · exact Or.inl rfl
  · exact Or.inr ⟨_, rfl⟩

theorem pow2_53 : pow2 53 = 9007199254740992 := by
  rw [pow2_eq_zpow]; norm_num

theorem pow2_15 : pow2 15 = 32768 := by
  rw [pow2_eq_zpow]; norm_num

/-- A nonzero sum of fewer than `2^53` products, a multiple of `2^-149` of
magnitude at most `k * 2^127`, is a normal `double`; its rounding keeps the
bound and is a multiple of `2^-149`. -/
theorem sum_round (k : Nat) (hk : k < 2 ^ 53) (s : ℚ) (hs : s ≠ 0) (hg : Grid s)
    (hb : |s| ≤ (k : ℚ) * pow2 127) :
    binary64.emin ≤ ilog2 s - ((binary64.prec : Int) - 1) ∧
    |round_fin binary64 s| ≤ (k : ℚ) * pow2 127 ∧
    |round_fin binary64 s| < pow2 binary64.emax ∧
    Grid (round_fin binary64 s) := by
  have hkq : (k : ℚ) < pow2 53 := by
    rw [pow2_53]
    have : k < 9007199254740992 := by
      have h : (2 : Nat) ^ 53 = 9007199254740992 := by norm_num
      omega
    exact_mod_cast this
  have h180 : (k : ℚ) * pow2 127 < pow2 180 := by
    rw [show (180 : Int) = 53 + 127 by norm_num, pow2_add]
    exact mul_lt_mul_of_pos_right hkq (pow2_pos _)
  have hlo := le_ilog2 s hs (-149) (grid_abs_ge s hg hs)
  have hhi := ilog2_lt s hs 180 (lt_of_le_of_lt hb h180)
  have hnorm : binary64.emin ≤ ilog2 s - ((binary64.prec : Int) - 1) := by
    show (-1074 : Int) ≤ ilog2 s - (((53 : Nat) : Int) - 1)
    push_cast
    omega
  have hu : ulp_exp binary64 s ≤ 127 := by
    rw [ulp_exp_normal binary64 s hnorm]
    show ilog2 s - (((53 : Nat) : Int) - 1) ≤ 127
    push_cast
    omega
  have hbound := round_fin_bound binary64 s k 127 hu hb
  refine ⟨hnorm, hbound, ?_, round_fin_grid binary64 s hg⟩
  calc |round_fin binary64 s| ≤ (k : ℚ) * pow2 127 := hbound
    _ < pow2 180 := h180
    _ ≤ pow2 1024 := pow2_le _ _ (by norm_num)

/-- A product of magnitude between `2^-126` and `2^127` is a normal `float`;
its rounding keeps the upper bound and is a multiple of `2^-149`. -/
theorem prod_round (s : ℚ) (h1 : pow2 (-126) ≤ |s|) (h2 : |s| ≤ pow2 127) :
    s ≠ 0 ∧ -126 ≤ ilog2 s ∧
    |round_fin binary32 s| ≤ ((1 : Nat) : ℚ) * pow2 127 ∧
    |round_fin binary32 s| < pow2 binary32.emax ∧
    Grid (round_fin binary32 s) := by
  have hs : s ≠ 0 := by
    intro h0
    rw [h0, abs_zero] at h1
    exact absurd h1 (not_le.mpr (pow2_pos _))
  have hlo := le_ilog2 s hs (-126) h1
  have hhi := ilog2_lt s hs 128 (lt_of_le_of_lt h2 ((pow2_lt_iff _ _).mpr (by norm_num)))
  have hnorm : binary32.emin ≤ ilog2 s - ((binary32.prec : Int) - 1) := by
    show (-149 : Int) ≤ ilog2 s - (((24 : Nat) : Int) - 1)
    push_cast
    omega
  have hue : ulp_exp binary32 s = ilog2 s - 23 := by
    rw [ulp_exp_normal binary32 s hnorm]
    show ilog2 s - (((24 : Nat) : Int) - 1) = ilog2 s - 23
    push_cast
    omega
  have hbound := round_fin_bound binary32 s 1 127 (by rw [hue]; omega)
    (by rw [Nat.cast_one, one_mul]; exact h2)
  refine ⟨hs, hlo, hbound, ?_, round_fin_grid_of_ulp binary32 s (by rw [hue]; omega)⟩
  calc |round_fin binary32 s| ≤ ((1 : Nat) : ℚ) * pow2 127 := hbound
    _ = pow2 127 := by rw [Nat.cast_one, one_mul]
    _ < pow2 128 := (pow2_lt_iff _ _).mpr (by norm_num)

theorem accOK_mono (k k' : Nat) (h : k ≤ k') (u : FP) (hu : AccOK k u) : AccOK k' u := by
  rcases accOK_cases k u hu with rfl | ⟨q, rfl, hg, hb⟩
  · exact True.intro
  · refine ⟨hg, le_trans hb ?_⟩
    apply mul_le_mul_of_nonneg_right _ (le_of_lt (pow2_pos _))
    exact_mod_cast h

/-- The `double` sum of two accumulators commutes with the scaling. -/
theorem dadd_rel (e : Int) (k1 k2 : Nat) (u u' v v' : FP) (hk : k1 + k2 < 2 ^ 53)
    (hu : ScaleRel e k1 u u') (hv : ScaleRel e k2 v v') :
    ScaleRel e (k1 + k2) (dadd u v) (dadd u' v') := by
  obtain ⟨hu1, hu2, hu3⟩ := hu
  obtain ⟨hv1, hv2, hv3⟩ := hv
  have fu : u = .nzero ∨ ∃ q, u = .fin q := by
    rcases accOK_cases k1 u hu2 with h | ⟨q, h, _⟩
    · exact Or.inl h
    · exact Or.inr ⟨q, h⟩
  have fv : v = .nzero ∨ ∃ q, v = .fin q := by
    rcases accOK_cases k2 v hv2 with h | ⟨q, h, _⟩
    · exact Or.inl h
    · exact Or.inr ⟨q, h⟩
  obtain ⟨gu, bu⟩ := accOK_val k1 u hu2
  obtain ⟨gv, bv⟩ := accOK_val k2 v hv2
  obtain ⟨gu', bu'⟩ := accOK_val k1 u' hu3
  obtain ⟨gv', bv'⟩ := accOK_val k2 v' hv3
  have hval : u'.val + v'.val = pow2 e * (u.val + v.val) := by
    rw [hu1, hv1, val_scale, val_scale]
    ring
  have hb : |u.val + v.val| ≤ ((k1 + k2 : Nat) : ℚ) * pow2 127 := by
    push_cast
    calc |u.val + v.val| ≤ |u.val| + |v.val| := abs_add _ _
      _ ≤ (k1 : ℚ) * pow2 127 + (k2 : ℚ) * pow2 127 := add_le_add bu bv
      _ = ((k1 : ℚ) + (k2 : ℚ)) * pow2 127 := by ring
  have hb' : |u'.val + v'.val| ≤ ((k1 + k2 : Nat) : ℚ) * pow2 127 := by
    push_cast
    calc |u'.val + v'.val| ≤ |u'.val| + |v'.val| := abs_add _ _
      _ ≤ (k1 : ℚ) * pow2 127 + (k2 : ℚ) * pow2 127 := add_le_add bu' bv'
      _ = ((k1 : ℚ) + (k2 : ℚ)) * pow2 127 := by ring
  have e1 := dadd_finite u v fu fv
  have e2 := dadd_finite u' v' (by rw [hu1]; exact scale_finite e u fu)
    (by rw [hv1]; exact scale_finite e v fv)
  by_cases hz : u.val + v.val = 0
  · have hz' : u'.val + v'.val = 0 := by rw [hval, hz, mul_zero]
    rw [e1, e2, if_pos hz, if_pos hz']
    refine ⟨?_, accOK_zero _ _, accOK_zero _ _⟩
    rw [hu1, hv1, sign_scale, sign_scale, scale_zero]
  · have hz' : u'.val + v'.val ≠ 0 := by
      rw [hval]
      exact mul_ne_zero (pow2_ne_zero e) hz
    obtain ⟨n1, b1, o1, g1⟩ := sum_round (k1 + k2) hk _ hz (grid_add _ _ gu gv) hb
    obtain ⟨n2, b2, o2, g2⟩ := sum_round (k1 + k2) hk _ hz' (grid_add _ _ gu' gv') hb'
    have hil : ilog2 (u'.val + v'.val) = ilog2 (u.val + v.val) + e := by
      rw [hval, ilog2_scale e _ hz]
    have hrf : round_fin binary64 (u'.val + v'.val)
        = pow2 e * round_fin binary64 (u.val + v.val) := by
      rw [hval]
      exact round_fin_scale binary64 e _
        (ulp_exp_scale binary64 e _ hz n1 (by rw [← hil]; exact n2))
    have ho' : pow2 e * |round_fin binary64 (u.val + v.val)| < pow2 binary64.emax := by
      have : |round_fin binary64 (u'.val + v'.val)|
          = pow2 e * |round_fin binary64 (u.val + v.val)| := by
        rw [hrf, abs_mul, abs_of_pos (pow2_pos e)]
      rw [← this]
      exact o2
    rw [e1, e2, if_neg hz, if_neg hz']
    refine ⟨?_, accOK_round binary64 _ _ g1 b1 o1, accOK_round binary64 _ _ g2 b2 o2⟩
    rw [hval]
    exact round_scale binary64 e _ hz n1 (by rw [← hil]; exact n2) o1 ho'

theorem neg_rel (e : Int) (k : Nat) (u u' : FP) (h : ScaleRel e k u u') :
    ScaleRel e k u.neg u'.neg := by
  obtain ⟨h1, h2, h3⟩ := h
  rcases accOK_cases k u h2 with rfl | ⟨q, rfl, hg, hb⟩
  · rw [h1]
    refine ⟨?_, ?_, ?_⟩
    · show FP.fin 0 = FP.fin (pow2 e * 0)
      rw [mul_zero]
    · exact accOK_zero k false
    · exact accOK_zero k false
  · rw [h1] at h3 ⊢
    have h3' : Grid (pow2 e * q) ∧ |pow2 e * q| ≤ (k : ℚ) * pow2 127 := h3
    by_cases hq : q = 0
    · have hq' : pow2 e * q = 0 := by rw [hq, mul_zero]
      refine ⟨?_, ?_, ?_⟩
      · show (if pow2 e * q = 0 then FP.nzero else FP.fin (-(pow2 e * q)))
          = FP.scale e (if q = 0 then FP.nzero else FP.fin (-q))
        rw [if_pos hq, if_pos hq']
        rfl
      · show AccOK k (if q = 0 then FP.nzero else FP.fin (-q))
        rw [if_pos hq]
        exact True.intro
      · show AccOK k (if pow2 e * q = 0 then FP.nzero else FP.fin (-(pow2 e * q)))
        rw [if_pos hq']
        exact True.intro
    · have hq' : pow2 e * q ≠ 0 := mul_ne_zero (pow2_ne_zero e) hq
      refine ⟨?_, ?_, ?_⟩
      · show (if pow2 e * q = 0 then FP.nzero else FP.fin (-(pow2 e * q)))
          = FP.scale e (if q = 0 then FP.nzero else FP.fin (-q))
        rw [if_neg hq, if_neg hq']
        show FP.fin (-(pow2 e * q)) = FP.fin (pow2 e * -q)
        rw [mul_neg]
      · show AccOK k (if q = 0 then FP.nzero else FP.fin (-q))
        rw [if_neg hq]
        exact ⟨grid_neg q hg, by rw [abs_neg]; exact hb⟩
      · show AccOK k (if pow2 e * q = 0 then FP.nzero else FP.fin (-(pow2 e * q)))
        rw [if_neg hq']
        exact ⟨grid_neg _ h3'.1, by rw [abs_neg]; exact h3'.2⟩

theorem dsub_rel (e : Int) (k1 k2 : Nat) (u u' v v' : FP) (hk : k1 + k2 < 2 ^ 53)
    (hu : ScaleRel e k1 u u') (hv : ScaleRel e k2 v v') :
    ScaleRel e (k1 + k2) (dsub u v) (dsub u' v') :=
  dadd_rel e k1 k2 u u' v.neg v'.neg hk hu (neg_rel e k2 v v' hv)

theorem int16_abs_le (x : Int) (hx : isInt16 x) : |(x : ℚ)| ≤ 32768 := by
  unfold isInt16 INT16_MIN INT16_MAX at hx
  rw [abs_le]
  constructor
  · have : (-32768 : Int) ≤ x := hx.1
    exact_mod_cast this
  · have : x ≤ (32768 : Int) := by omega
    exact_mod_cast this

theorem int_abs_ge_one (x : Int) (hx : x ≠ 0) : (1 : ℚ) ≤ |(x : ℚ)| := by
  have : (1 : Int) ≤ |x| := Int.one_le_abs hx
  exact_mod_cast this

/-- The magnitude of the product of a safe nonzero coefficient and a nonzero
item. -/
theorem prod_bounds (q : ℚ) (x : Int) (hx : isInt16 x) (hx0 : x ≠ 0)
    (h1 : pow2 (-126) ≤ |q|) (h2 : |q| ≤ pow2 112) :
    pow2 (-126) ≤ |q * (x : ℚ)| ∧ |q * (x : ℚ)| ≤ pow2 127 := by
  have ha := int16_abs_le x hx
  have hb := int_abs_ge_one x hx0
  have hq0 : 0 ≤ |q| := abs_nonneg q
  rw [abs_mul]
  constructor
  · calc pow2 (-126) ≤ |q| := h1
      _ = |q| * 1 := (mul_one _).symm
      _ ≤ |q| * |(x : ℚ)| := mul_le_mul_of_nonneg_left hb hq0
  · calc |q| * |(x : ℚ)| ≤ pow2 112 * 32768 :=
          mul_le_mul h2 ha (abs_nonneg _) (le_of_lt (pow2_pos _))
      _ = pow2 127 := by
          rw [← pow2_15, ← pow2_add]
          norm_num

/-- The `float` product of a safe coefficient and an item commutes with the
scaling of the coefficient. -/
theorem fmul_rel (e : Int) (c : FP) (x : Int) (hc : ScaleSafe e c) (hx : isInt16 x) :
    ScaleRel e 1 (fmul c x) (fmul (c.scale e) x) := by
  cases c with
  | fin q =>
    show ScaleRel e 1 (fmul (.fin q) x) (fmul (.fin (pow2 e * q)) x)
    unfold fmul
    simp only
    rw [scale_lt_zero]
    by_cases hz : q * (x : ℚ) = 0
    · have hz' : pow2 e * q * (x : ℚ) = 0 := by rw [mul_assoc, hz, mul_zero]
      rw [if_pos hz, if_pos hz']
      exact ⟨(scale_zero e _).symm, accOK_zero 1 _, accOK_zero 1 _⟩
    · have hq0 : q ≠ 0 := fun h => hz (by rw [h, zero_mul])
      have hx0 : x ≠ 0 := fun h => hz (by rw [h]; simp)
      have hz' : pow2 e * q * (x : ℚ) ≠ 0 := by
        rw [mul_assoc]
        exact mul_ne_zero (pow2_ne_zero e) hz
      rw [if_neg hz, if_neg hz']
      have hc' : pow2 (-126) ≤ |q| ∧ |q| ≤ pow2 112 ∧
          pow2 (-126) ≤ pow2 e * |q| ∧ pow2 e * |q| ≤ pow2 112 := by
        rcases hc with h | h
        · exact absurd h hq0
        · exact h
      obtain ⟨c1, c2, c3, c4⟩ := hc'
      have habs : |pow2 e * q| = pow2 e * |q| := by
        rw [abs_mul, abs_of_pos (pow2_pos e)]
      obtain ⟨p1, p2⟩ := prod_bounds q x hx hx0 c1 c2
      obtain ⟨p3, p4⟩ := prod_bounds (pow2 e * q) x hx hx0 (by rw [habs]; exact c3)
        (by rw [habs]; exact c4)
      obtain ⟨s0, l1, b1, o1, g1⟩ := prod_round _ p1 p2
      obtain ⟨_, l2, b2, o2, g2⟩ := prod_round _ p3 p4
      have hmul : pow2 e * q * (x : ℚ) = pow2 e * (q * (x : ℚ)) := mul_assoc _ _ _
      have hil : ilog2 (pow2 e * q * (x : ℚ)) = ilog2 (q * (x : ℚ)) + e := by
        rw [hmul, ilog2_scale e _ s0]
      have n1 : binary32.emin ≤ ilog2 (q * (x : ℚ)) - ((binary32.prec : Int) - 1) := by
        show (-149 : Int) ≤ ilog2 (q * (x : ℚ)) - (((24 : Nat) : Int) - 1)
        push_cast
        omega
      have n2 : binary32.emin ≤ ilog2 (q * (x : ℚ)) + e - ((binary32.prec : Int) - 1) := by
        rw [← hil]
        show (-149 : Int) ≤ ilog2 (pow2 e * q * (x : ℚ)) - (((24 : Nat) : Int) - 1)
        push_cast
        omega
      have hrf : round_fin binary32 (pow2 e * q * (x : ℚ))
          = pow2 e * round_fin binary32 (q * (x : ℚ)) := by
        rw [hmul]
        exact round_fin_scale binary32 e _ (ulp_exp_scale binary32 e _ s0 n1 n2)
      have ho' : pow2 e * |round_fin binary32 (q * (x : ℚ))| < pow2 binary32.emax := by
        have : |round_fin binary32 (pow2 e * q * (x : ℚ))|
            = pow2 e * |round_fin binary32 (q * (x : ℚ))| := by
          rw [hrf, abs_mul, abs_of_pos (pow2_pos e)]
        rw [← this]
        exact o2
      refine ⟨?_, accOK_round binary32 1 _ g1 b1 o1, accOK_round binary32 1 _ g2 b2 o2⟩
      rw [hmul]
      exact round_scale binary32 e _ s0 n1 n2 o1 ho'
  | nzero =>
    show ScaleRel e 1 (FP.zero _) (FP.zero _)
    exact ⟨(scale_zero e _).symm, accOK_zero 1 _, accOK_zero 1 _⟩
  | inf s => exact absurd hc (by unfold ScaleSafe; exact not_false)
  | nan => exact absurd hc (by unfold ScaleSafe; exact not_false)

theorem scaleSafe_zero (e : Int) : ScaleSafe e (0 : FP) := Or.inl rfl

theorem scaleSafe_getD (e : Int) (a : List FP) (h : ∀ c ∈ a, ScaleSafe e c) (j : Nat) :
    ScaleSafe e (a.getD j 0) := by
  by_cases hj : j < a.length
  · rw [List.getD_eq_getElem _ _ hj]
    exact h _ (List.getElem_mem _)
  · rw [List.getD_eq_default _ _ (Nat.le_of_not_lt hj)]
    exact scaleSafe_zero e

theorem getD_map_scale (e : Int) (a : List FP) (j : Nat) :
    (a.map (FP.scale e)).getD j 0 = (a.getD j 0).scale e := by
  by_cases hj : j < a.length
  · rw [List.getD_eq_getElem _ _ (by rw [List.length_map]; exact hj),
      List.getD_eq_getElem _ _ hj, List.getElem_map]
  · rw [List.getD_eq_default _ _ (by rw [List.length_map]; exact Nat.le_of_not_lt hj),
      List.getD_eq_default _ _ (Nat.le_of_not_lt hj)]
    show FP.fin 0 = FP.fin (pow2 e * 0)
    rw [mul_zero]

/-- One pass of the coefficient loop adds two products to the accumulator and
commutes with the scaling of the coefficients. -/
theorem coeff_step_rel (e : Int) (nc C : Nat) (a b : List FP) (ring buffer : List Int)
    (irb c loc : Nat) (ha : ∀ v ∈ a, ScaleSafe e v) (hb : ∀ v ∈ b, ScaleSafe e v)
    (hring : Items ring) (hbuf : Items buffer) (k : Nat) (hk : k + 2 < 2 ^ 53)
    (acc acc' : FP) (h : ScaleRel e k acc acc') (j : Nat) :
    ScaleRel e (k + 2)
      (coeff_step nc C a b ring buffer irb c loc acc j)
      (coeff_step nc C (a.map (FP.scale e)) (b.map (FP.scale e)) ring buffer irb c loc acc' j) := by
  unfold coeff_step
  simp only [getD_map_scale]
  have h1 := dadd_rel e k 1 acc acc' _ _ (by omega) h
    (fmul_rel e (b.getD j 0) (ring.getD (((C + irb - j) % C) * nc + c) 0)
      (scaleSafe_getD e b hb j) (getD_isInt16 ring hring _))
  exact dsub_rel e (k + 1) 1 _ _ _ _ (by omega) h1
    (fmul_rel e (a.getD j 0) (buffer.getD (loc - j * nc) 0)
      (scaleSafe_getD e a ha j) (getD_isInt16 buffer hbuf _))

theorem coeff_fold_rel (e : Int) (nc C : Nat) (a b : List FP) (ring buffer : List Int)
    (irb c loc : Nat) (ha : ∀ v ∈ a, ScaleSafe e v) (hb : ∀ v ∈ b, ScaleSafe e v)
    (hring : Items ring) (hbuf : Items buffer) (l : List Nat) (k : Nat)
    (hk : k + 2 * l.length < 2 ^ 53) (acc acc' : FP) (h : ScaleRel e k acc acc') :
    ScaleRel e (k + 2 * l.length)
      (l.foldl (coeff_step nc C a b ring buffer irb c loc) acc)
      (l.foldl (coeff_step nc C (a.map (FP.scale e)) (b.map (FP.scale e)) ring buffer irb c loc)
        acc') := by
  induction l generalizing k acc acc' with
  | nil => exact h
  | cons j rest ih =>
    simp only [List.foldl_cons, List.length_cons] at hk ⊢
    have h1 := coeff_step_rel e nc C a b ring buffer irb c loc ha hb hring hbuf k (by omega)
      acc acc' h j
    have h2 := ih (k + 2) (by omega) _ _ h1
    have he : k + 2 + 2 * rest.length = k + 2 * (rest.length + 1) := by ring
    rw [he] at h2
    exact h2

theorem ddiv_finite (u v : FP) (hu : u = .nzero ∨ ∃ q, u = .fin q)
    (hv : v = .nzero ∨ ∃ q, v = .fin q) :
    ddiv u v = if v.val = 0 then (if u.val = 0 then .nan else .inf (xor u.sign v.sign))
      else if u.val = 0 then FP.zero (xor u.sign v.sign)
      else round binary64 (u.val / v.val) := by
  rcases hu with rfl | ⟨p, rfl⟩ <;> rcases hv with rfl | ⟨q, rfl⟩ <;> rfl

/-- The `double` quotient of two values is not changed by the scaling of
both. -/
theorem ddiv_scale (e : Int) (u v : FP) : ddiv (u.scale e) (v.scale e) = ddiv u v := by
  have he := pow2_ne_zero e
  have hzero : ∀ q : ℚ, pow2 e * q = 0 ↔ q = 0 := by
    intro q
    constructor
    · intro h
      rcases mul_eq_zero.mp h with h | h
      · exact absurd h he
      · exact h
    · intro h
      rw [h, mul_zero]
  have hdiv : ∀ p q : ℚ, pow2 e * p / (pow2 e * q) = p / q := by
    intro p q
    exact mul_div_mul_left p q he
  by_cases hu : u = .nzero ∨ ∃ q, u = .fin q
  · by_cases hv : v = .nzero ∨ ∃ q, v = .fin q
    · rw [ddiv_finite _ _ (scale_finite e u hu) (scale_finite e v hv), ddiv_finite u v hu hv]
      simp only [val_scale, sign_scale, hzero, hdiv]
    · cases v with
      | fin q => exact absurd (Or.inr ⟨q, rfl⟩) hv
      | nzero => exact absurd (Or.inl rfl) hv
      | inf t =>
        rcases hu with rfl | ⟨p, rfl⟩
        · rfl
        · show FP.zero (xor (FP.sign (FP.scale e (FP.fin p))) t)
            = FP.zero (xor (FP.sign (FP.fin p)) t)
          rw [sign_scale]
      | nan => rcases hu with rfl | ⟨p, rfl⟩ <;> rfl
  · cases u with
    | fin p => exact absurd (Or.inr ⟨p, rfl⟩) hu
    | nzero => exact absurd (Or.inl rfl) hu
    | inf s =>
      cases v with
      | fin q =>
        show FP.inf (xor s (FP.sign (FP.scale e (FP.fin q)))) = FP.inf (xor s (FP.sign (FP.fin q)))
        rw [sign_scale]
      | nzero => rfl
      | inf t => rfl
      | nan => rfl
    | nan => cases v <;> rfl

/-- The accumulator of an output sample, once divided by `a[0]`, is not changed
by the scaling of the coefficients. -/
theorem accumulate_scale (e : Int) (nc C : Nat) (a b : List FP) (ring buffer : List Int)
    (irb c loc : Nat) (ha : ∀ v ∈ a, ScaleSafe e v) (hb : ∀ v ∈ b, ScaleSafe e v)
    (hC : C ≤ 2 ^ 52) (hring : Items ring) (hbuf : Items buffer) :
    accumulate nc C (a.map (FP.scale e)) (b.map (FP.scale e)) ring buffer irb c loc
      = accumulate nc C a b ring buffer irb c loc := by
  unfold accumulate
  simp only [getD_map_scale]
  have h0 := fmul_rel e (b.getD 0 0) (ring.getD (irb * nc + c) 0) (scaleSafe_getD e b hb 0)
    (getD_isInt16 ring hring _)
  have hlen : (List.range' 1 (C - 1)).length = C - 1 := List.length_range' _ _ _
  have h52 : (2 : Nat) ^ 53 = 2 * 2 ^ 52 := by norm_num
  have h1 := coeff_fold_rel e nc C a b ring buffer irb c loc ha hb hring hbuf
    (List.range' 1 (C - 1)) 1 (by rw [hlen]; omega) _ _ h0
  rw [h1.1, ddiv_scale]

/-! ## The run under a scaling of the coefficients -/

theorem foldl_congr_inv {σ : Type} (f g : σ → Nat → σ) (P : σ → Prop)
    (hfg : ∀ s i, P s → f s i = g s i) (hP : ∀ s i, P s → P (g s i))
    (l : List Nat) (s0 : σ) (h0 : P s0) : l.foldl f s0 = l.foldl g s0 := by
  induction l generalizing s0 with
  | nil => rfl
  | cons i rest ih =>
    simp only [List.foldl_cons]
    rw [hfg s0 i h0]
    exact ih _ (hP s0 i h0)

theorem foldlM_congr_inv {σ ε : Type} (f g : σ → Nat → Except ε σ) (P : σ → Prop)
    (hfg : ∀ s i, P s → f s i = g s i) (hP : ∀ s i s', P s → g s i = .ok s' → P s')
    (l : List Nat) (s0 : σ) (h0 : P s0) : l.foldlM f s0 = l.foldlM g s0 := by
  induction l generalizing s0 with
  | nil => rfl
  | cons i rest ih =>
    simp only [List.foldlM_cons]
    rw [hfg s0 i h0]
    cases hg : g s0 i with
    | error err => rfl
    | ok s' => exact ih s' (hP s0 i s' h0 hg)

theorem chan_step_scale (e : Int) (nc C : Nat) (a b : List FP) (hist s : Nat)
    (ring : List Int) (irb : Nat) (buffer : List Int) (c : Nat)
    (ha : ∀ v ∈ a, ScaleSafe e v) (hb : ∀ v ∈ b, ScaleSafe e v) (hC : C ≤ 2 ^ 52)
    (hring : Items ring) (hbuf : Items buffer) :
    chan_step nc C (a.map (FP.scale e)) (b.map (FP.scale e)) hist s ring irb buffer c
      = chan_step nc C a b hist s ring irb buffer c := by
  unfold chan_step
  simp only
  rw [accumulate_scale e nc C a b ring buffer irb c _ ha hb hC hring hbuf]

theorem samp_step_scale (e : Int) (nc C : Nat) (a b : List FP) (hist : Nat)
    (st : List Int × List Int × Nat) (s : Nat)
    (ha : ∀ v ∈ a, ScaleSafe e v) (hb : ∀ v ∈ b, ScaleSafe e v) (hC : C ≤ 2 ^ 52)
    (h1 : Items st.1) (h2 : Items st.2.1) :
    samp_step nc C (a.map (FP.scale e)) (b.map (FP.scale e)) hist st s
      = samp_step nc C a b hist st s := by
  have hring : Items (memcpy st.2.1 (st.2.2 * nc) st.1 (hist + s * nc) nc) :=
    memcpy_items _ _ _ _ _ h2 h1
  unfold samp_step
  simp only
  rw [foldl_congr_inv
    (chan_step nc C (a.map (FP.scale e)) (b.map (FP.scale e)) hist s
      (memcpy st.2.1 (st.2.2 * nc) st.1 (hist + s * nc) nc) st.2.2)
    (chan_step nc C a b hist s (memcpy st.2.1 (st.2.2 * nc) st.1 (hist + s * nc) nc) st.2.2)
    Items
    (fun buf c hbuf => chan_step_scale e nc C a b hist s _ st.2.2 buf c ha hb hC hring hbuf)
    (fun buf c hbuf => chan_step_items nc C a b hist s _ st.2.2 buf c hbuf)
    (List.range nc) st.1 h1]

theorem samp_fold_scale (e : Int) (nc C : Nat) (a b : List FP) (hist n : Nat)
    (st : List Int × List Int × Nat)
    (ha : ∀ v ∈ a, ScaleSafe e v) (hb : ∀ v ∈ b, ScaleSafe e v) (hC : C ≤ 2 ^ 52)
    (h1 : Items st.1) (h2 : Items st.2.1) :
    (List.range n).foldl (samp_step nc C (a.map (FP.scale e)) (b.map (FP.scale e)) hist) st
      = (List.range n).foldl (samp_step nc C a b hist) st :=
  foldl_congr_inv _ _ (fun t => Items t.1 ∧ Items t.2.1)
    (fun t s ht => samp_step_scale e nc C a b hist t s ha hb hC ht.1 ht.2)
    (fun t s ht => samp_step_items nc C a b hist t s ht.1 ht.2)
    (List.range n) st ⟨h1, h2⟩

/-- An iteration of the chunk loop on a well-formed state is not changed by the
scaling of the coefficients. -/
theorem chunk_step_env_scale (e : Int) (env : Env) (henv : env.bytes) (nc C : Nat)
    (a b : List FP) (S nb : Nat) (st : State) (i : Nat)
    (ha : ∀ v ∈ a, ScaleSafe e v) (hb : ∀ v ∈ b, ScaleSafe e v) (hC : C ≤ 2 ^ 52)
    (hwf : Wf st) :
    chunk_step_env env nc C (a.map (FP.scale e)) (b.map (FP.scale e)) S nb st i
      = chunk_step_env env nc C a b S nb st i := by
  have hItems := chunk_loaded_env_items env henv nc C S st i hwf
  unfold chunk_loaded_env read_env hist_size at hItems
  simp only at hItems
  unfold chunk_step_env
  simp only
  rw [samp_fold_scale e nc C a b (nc * C) _ _ ha hb hC hItems.1 hItems.2]

theorem sound_bytes (file : List Nat) : (Env.sound file).bytes := fun _ _ _ h => h

theorem chunk_step_scale (e : Int) (nc C : Nat) (a b : List FP) (S nb : Nat) (st : State)
    (i : Nat) (ha : ∀ v ∈ a, ScaleSafe e v) (hb : ∀ v ∈ b, ScaleSafe e v) (hC : C ≤ 2 ^ 52)
    (hwf : Wf st) :
    chunk_step nc C (a.map (FP.scale e)) (b.map (FP.scale e)) S nb st i
      = chunk_step nc C a b S nb st i := by
  unfold chunk_step
  rw [← chunk_step_env_sound st.file nc C (a.map (FP.scale e)) (b.map (FP.scale e)) S nb st i,
    ← chunk_step_env_sound st.file nc C a b S nb st i,
    chunk_step_env_scale e (Env.sound st.file) (sound_bytes _) nc C a b S nb st i ha hb hC hwf]

theorem chunk_step_wf (nc C : Nat) (a b : List FP) (S nb : Nat) (st s : State) (i : Nat)
    (hwf : Wf st) (h : chunk_step nc C a b S nb st i = .ok s) : Wf s := by
  unfold chunk_step at h
  split_ifs at h
  rw [← chunk_step_env_sound st.file nc C a b S nb st i] at h
  exact chunk_step_env_wf (Env.sound st.file) (sound_bytes _) nc C a b S nb st s i hwf
    (mapError_eq_ok _ _ _ h)

theorem init_wf (file : List Nat) (hfile : Bytes file) (n m : Nat) :
    Wf { file := file, pos := 0, buffer := List.replicate n 0,
         input_ringbuf := List.replicate m 0, irb_idx := 0, trace := [] } :=
  ⟨hfile, replicate_items n, replicate_items m⟩

/-- C19 (counterexample): one channel, `a = b = [1]`, the samples
`[5, 7, 1, -5, 10]`.  The filter leaves the samples as they are.  With both
coefficients scaled by the `float` nearest to 0.1, which is
`13421773 / 134217728`, the `float` product `0.1f * 5` is rounded to `0.5`, the
quotient by `0.1f` is below 5, and the samples become `[4, 6, 1, -4, 9]`. -/
theorem C19_scaling_changes_output :
    filtered (encode_items [5, 7, 1, -5, 10]) 1 1 [1] [1] 1000
      = .ok (encode_items [5, 7, 1, -5, 10]) ∧
    round binary32 (1 / 10) = .fin (13421773 / 134217728) ∧
    fmul (.fin (13421773 / 134217728)) 5 = .fin (1 / 2) ∧
    filtered (encode_items [5, 7, 1, -5, 10]) 1 1
        [.fin (13421773 / 134217728)] [.fin (13421773 / 134217728)] 1000
      = .ok (encode_items [4, 6, 1, -4, 9]) := by
  decide!

/-- C19 (amended): scaling every `a[k]` and every `b[k]` by the same power of
two `2^e` does not change what `filter_file` does, for every input stream,
channel count and chunk size, and for every behaviour of the library at a read
that follows a write, provided the scaling keeps the coefficients clear of the
underflow and overflow thresholds of `float` (each is a zero, or its magnitude
lies between `2^-126` and `2^112` before and after the scaling) and there are at
most `2^52` coefficients. -/
theorem C19_power_of_two_scaling (e : Int) (file : List Nat) (num_chan num_coeffs : Nat)
    (a_coeffs b_coeffs : List FP) (samples_per_buffer : Nat)
    (ha : ∀ c ∈ a_coeffs, ScaleSafe e c) (hb : ∀ c ∈ b_coeffs, ScaleSafe e c)
    (hC : num_coeffs ≤ 2 ^ 52) (hfile : Bytes file) :
    filter_file file num_chan num_coeffs (a_coeffs.map (FP.scale e)) (b_coeffs.map (FP.scale e))
        samples_per_buffer
      = filter_file file num_chan num_coeffs a_coeffs b_coeffs samples_per_buffer ∧
    ∀ env : Env, env.bytes →
      filter_file_env env file num_chan num_coeffs (a_coeffs.map (FP.scale e))
          (b_coeffs.map (FP.scale e)) samples_per_buffer
        = filter_file_env env file num_chan num_coeffs a_coeffs b_coeffs samples_per_buffer := by
  constructor
  · unfold filter_file
    exact foldlM_congr_inv _ _ Wf
      (fun s i hs => chunk_step_scale e num_chan num_coeffs a_coeffs b_coeffs samples_per_buffer
        _ s i ha hb hC hs)
      (fun s i s' hs h => chunk_step_wf num_chan num_coeffs a_coeffs b_coeffs samples_per_buffer
        _ s s' i hs h)
      _ _ (init_wf file hfile _ _)
  · intro env henv
    unfold filter_file_env
    simp only
    split_ifs
    · rfl
    · rfl
    · exact foldlM_congr_inv _ _ Wf
        (fun s i hs => chunk_step_env_scale e env henv num_chan num_coeffs a_coeffs b_coeffs
          samples_per_buffer _ s i ha hb hC hs)
        (fun s i s' hs h => chunk_step_env_wf env henv num_chan num_coeffs a_coeffs b_coeffs
          samples_per_buffer _ s s' i hs h)
        _ _ (init_wf file hfile _ _)

/-- Witness of C19 (amended): one channel, `a = [1, -1]`, `b = [1, 0]`, the
samples `[5, 7, 1, -5, 10]`, and the coefficients scaled by `2^-3`: both runs of
`filter_file` end in the same state. -/
theorem C19_power_of_two_scaling_witness :
    filter_file (encode_items [5, 7, 1, -5, 10]) 1 2
        ([1, -1].map (FP.scale (-3))) ([1, 0].map (FP.scale (-3))) 1000
      = filter_file (encode_items [5, 7, 1, -5, 10]) 1 2 [1, -1] [1, 0] 1000 :=
  (C19_power_of_two_scaling (-3) (encode_items [5, 7, 1, -5, 10]) 1 2 [1, -1] [1, 0] 1000
    (by decide!) (by decide!) (by norm_num) (by decide)).1

end Filter
